import Mathlib

/-!
# Verification of the iongraph layout engine (`src/Graph.ts`)

This file gives a shallow embedding, in Lean 4, of the layout engine of the
`iongraph` control-flow-graph visualizer, and proves (or refutes) a collection
of claims about it.

The embedding mirrors `src/Graph.ts`:

* `MIRBlock` is the static per-block input data (`iongraph.ts`).
* `LState` is the mutable per-block state written by the loop classifier
  (`Graph.findLoops`) and the layerer (`Graph.layer`): `layer`, `loopID`,
  `loopHeight`, `parentLoop`, `outgoingEdges`, plus `numLayers`.
* The recursive walks are embedded with an explicit fuel parameter; running
  out of fuel yields `none`, as does any failed `assert`/`must` of the source
  (all thrown errors are modelled by `none`).  With sufficient fuel the
  functions compute exactly what the TypeScript computes.

All definitions are executable, so every theorem can be evaluated on concrete
graphs by `decide`.
-/

namespace Iongraph

/-- A basic block as it appears in the IR JSON (`MIRBlock` of `iongraph.ts`).
`instructions` is never inspected by the layout code and is omitted. -/
structure MIRBlock where
  number : Nat
  loopDepth : Nat
  attributes : List String
  predecessors : List Nat
  successors : List Nat
deriving Repr, DecidableEq

/-- `block.attributes.includes("backedge")`. -/
def MIRBlock.isBackedge (b : MIRBlock) : Bool :=
  b.attributes.contains "backedge"

/-- `isTrueLH` of `Graph.ts`: `block.attributes.includes("loopheader")`. -/
def MIRBlock.isTrueLH (b : MIRBlock) : Bool :=
  b.attributes.contains "loopheader"

/-- `isLH` of `Graph.ts` checks whether `loopHeight` has been initialized,
which (at the time `findLoops`/`layer` run) holds exactly for true loop
headers (initialized in the constructor) and for the roots (made into pseudo
loop headers at the start of `Graph.layout`). -/
def MIRBlock.isLH (b : MIRBlock) : Bool :=
  b.isTrueLH || b.predecessors.isEmpty

/-- The static graph: the block list of one pass (`pass.mir.blocks`). -/
structure CFG where
  blocks : List MIRBlock
deriving Repr, DecidableEq

/-- `this.blocksByNum.get(n)`.  The constructor fills the map in block order,
so a later block with the same number wins; hence the `reverse`. -/
def CFG.blk (g : CFG) (n : Nat) : Option MIRBlock :=
  g.blocks.reverse.find? (fun b => b.number == n)

/-- The roots: `this.blocks.filter(b => b.predecessors.length === 0)`. -/
def CFG.roots (g : CFG) : List MIRBlock :=
  g.blocks.filter (fun b => b.predecessors.isEmpty)

/-- `asLH` of `Graph.ts`: `assert(block)` then the `isLH` check; a failure of
either throws, which we model as `none`. -/
def asLH (ob : Option MIRBlock) : Option MIRBlock :=
  ob.bind (fun b => if b.isLH then some b else none)

/-- The mutable layout state of the classification/layering phases.  Each
field is a total map from block number to the runtime field of the same name
in `Graph.ts`; `numLayers` is the graph-wide counter. -/
structure LState where
  layer : Nat → Int
  loopID : Nat → Nat
  loopHeight : Nat → Int
  parentLoop : Nat → Option Nat
  outgoingEdges : Nat → List Nat
  numLayers : Int

/-- The state after the `Graph` constructor's per-block initialization:
`layer = -1`, `loopID = 0`, and (for the blocks where they exist at all)
`loopHeight = 0`, `parentLoop = null`, `outgoingEdges = []`. -/
def initState : LState where
  layer := fun _ => -1
  loopID := fun _ => 0
  loopHeight := fun _ => 0
  parentLoop := fun _ => none
  outgoingEdges := fun _ => []
  numLayers := 0

/-- `Graph.findLoops`.  `stack` is the `loopIDsByDepth` parameter (the
top-level call passes `[block.number]`).  `assert`s are modelled by `guard`. -/
def findLoopsF (g : CFG) : Nat → LState → Nat → List Nat → Option LState
  | 0, _, _, _ => none
  | fuel+1, s, bn, stack => do
      let b ← g.blk bn
      -- `if (isTrueLH(block)) { ... }`
      let (s, stack) ←
        if b.isTrueLH then do
          guard (b.loopDepth = stack.length)
          let parentID ← stack.getLast?
          let p ← asLH (g.blk parentID)
          some ({ s with parentLoop := Function.update s.parentLoop bn (some p.number) },
                stack ++ [bn])
        else
          some (s, stack)
      -- `if (block.loopDepth < loopIDsByDepth.length - 1) { ...slice... }`
      let stack := if b.loopDepth + 1 < stack.length then stack.take (b.loopDepth + 1) else stack
      guard (b.loopDepth < stack.length)
      let lid ← stack[b.loopDepth]?
      let s := { s with loopID := Function.update s.loopID bn lid }
      if b.isBackedge then
        some s
      else
        b.successors.foldlM (fun s c => findLoopsF g fuel s c stack) s

/-- The `while (loopHeader) { ... }` walk up the parent-loop chain inside
`Graph.layer`: raise each enclosing header's `loopHeight` to cover
`blayer` (the layer just assigned to the visited block). -/
def chainF : Nat → LState → Nat → Int → Option LState
  | 0, _, _, _ => none
  | fuel+1, s, h, blayer =>
      let s := { s with
        loopHeight := Function.update s.loopHeight h
          (max (s.loopHeight h) (blayer - s.layer h + 1)) }
      match s.parentLoop h with
      | none => some s
      | some p => chainF fuel s p blayer

/-- The `for (const succ of block.outgoingEdges)` loop at the end of
`Graph.layer`.  JavaScript `for..of` iterates the *live* array — recursive
calls may append to `outgoingEdges[bn]` while the loop runs — so the list and
the header's current `loopHeight` are re-read from the state each step. -/
def liveOuts (step : LState → Nat → Option LState) :
    Nat → LState → Nat → Nat → Option LState
  | 0, _, _, _ => none
  | fuel+1, s, bn, i =>
      let es := s.outgoingEdges bn
      if h : i < es.length then do
        let s' ← step s (es.get ⟨i, h⟩)
        liveOuts step fuel s' bn (i + 1)
      else
        some s

/-- `Graph.layer`.  `L` is the `layer` parameter (candidate layer). -/
def layerF (g : CFG) : Nat → LState → Nat → Int → Option LState
  | 0, _, _, _ => none
  | fuel+1, s, bn, L => do
      let b ← g.blk bn
      if b.isBackedge then
        -- `block.layer = block.succs[0].layer; return;`
        let s0 ← b.successors[0]?
        some { s with layer := Function.update s.layer bn (s.layer s0) }
      else
        -- `block.layer = Math.max(block.layer, layer);`
        let newLayer := max (s.layer bn) L
        let s := { s with
          layer := Function.update s.layer bn newLayer,
          numLayers := max (newLayer + 1) s.numLayers }
        -- `let loopHeader = asLH(...); while (loopHeader) { ... }`
        let h0 ← asLH (g.blk (s.loopID bn))
        let s ← chainF fuel s h0.number newLayer
        -- `for (const succ of block.succs) { ... }`
        let s ← b.successors.foldlM (fun s c => do
            let cb ← g.blk c
            if cb.loopDepth < b.loopDepth then do
              -- outgoing edge: defer it on the enclosing loop header
              let h ← asLH (g.blk (s.loopID bn))
              some { s with outgoingEdges :=
                Function.update s.outgoingEdges h.number (s.outgoingEdges h.number ++ [c]) }
            else
              layerF g fuel s c (L + 1)) s
        -- `if (isTrueLH(block)) { for (const succ of block.outgoingEdges) ... }`
        if b.isTrueLH then
          liveOuts (fun s c => layerF g fuel s c (L + s.loopHeight bn)) fuel s bn 0
        else
          some s

/-- The root call `this.findLoops(r)`: `loopIDsByDepth === null`, so the
stack is initialised to `[block.number]` and the body then runs unchanged —
including the `isTrueLH` branch, which is a separate `if` and executes even
on the top-level call when the root carries the `loopheader` attribute. -/
def findLoopsRootF (g : CFG) (fuel : Nat) (s : LState) (bn : Nat) :
    Option LState :=
  findLoopsF g fuel s bn [bn]

/-- The classification/layering part of `Graph.layout`:
`for (const r of roots) { this.findLoops(r); this.layer(r); }`.
(The pseudo-loop-header setup writes `loopHeight = 0`, `parentLoop = null`,
`outgoingEdges = []` on each root, which are already their `initState`
values.) -/
def layoutWalk (g : CFG) (fuel : Nat) : Option LState :=
  g.roots.foldlM (fun s r => do
      let s ← findLoopsRootF g fuel s r.number
      layerF g fuel s r.number 0)
    initState

/-! ### The constructor's block-reference pass

The second loop of the `Graph` constructor resolves `preds`/`succs` with
`must` (throwing on a missing id) and, for every true loop header, asserts
that it has exactly one predecessor carrying the `backedge` attribute, which
becomes the header's `backedge` field.  The result is modelled as a map from
header number to its backedge's number. -/

/-- `ids.map(id => must(this.blocksByNum.get(id)))`: resolve a list of block
ids, throwing (`none`) if any id is missing. -/
def mustAll (g : CFG) : List Nat → Option (List MIRBlock)
  | [] => some []
  | n :: ns => do
      let b ← g.blk n
      let bs ← mustAll g ns
      some (b :: bs)

/-- The `for (const block of blocks)` reference-resolution loop of the
constructor.  Returns the `backedge` fields assigned to true loop headers,
or `none` if a `must` or the `backedges.length === 1` assertion throws. -/
def initBackedges (g : CFG) : Option (Nat → Option Nat) :=
  g.blocks.foldlM (fun m b => do
      let preds ← mustAll g b.predecessors
      let _ ← mustAll g b.successors
      if b.isTrueLH then do
        let backedges := preds.filter (fun p => p.isBackedge)
        guard (backedges.length = 1)
        let be ← backedges[0]?
        some (Function.update m b.number (some be.number))
      else
        some m)
    (fun _ => none)

/-- Reading the `backedge` field after `Graph.layout` has made the roots into
pseudo loop headers: the `Object.defineProperty` getter installed on each
root throws on access (modelled by `none`); for other blocks the field is
whatever the constructor assigned. -/
def readBackedge (g : CFG) (m : Nat → Option Nat) (n : Nat) : Option Nat :=
  if (g.blk n).any (fun b => b.predecessors.isEmpty) then none else m n

/-! ### Claim-side hypotheses

The explicit hypotheses that several claims put on the input pass. -/

/-- Every true loop header has exactly one predecessor with the `backedge`
attribute. -/
def OneBackedgePerHeader (g : CFG) : Prop :=
  ∀ b ∈ g.blocks, b.isTrueLH = true →
    ((b.predecessors.filterMap g.blk).filter (fun p => p.isBackedge)).length = 1

/-- `rank` witnesses that every cycle of the successor graph passes through a
block carrying the `backedge` attribute: the rank strictly decreases along
every edge leaving a non-backedge block, so no cycle can avoid backedge
blocks. -/
def RankedAcyclic (g : CFG) (rank : Nat → Nat) : Prop :=
  ∀ b ∈ g.blocks, b.isBackedge = false → ∀ c ∈ b.successors, rank c < rank b.number

/-! ### Concrete test graphs -/

/-- Helper to build a block. -/
def mkBlock (n d : Nat) (atts : List String) (ps ss : List Nat) : MIRBlock :=
  { number := n, loopDepth := d, attributes := atts, predecessors := ps,
    successors := ss }

/-- A minimal well-formed pass with one loop:
`0 → 1(header) → 2 → 3(backedge) → 1`, plus the loop exit `1 → 4`. -/
def gLoop : CFG := ⟨[
  mkBlock 0 0 [] [] [1],
  mkBlock 1 1 ["loopheader"] [0, 3] [2, 4],
  mkBlock 2 1 [] [1] [3],
  mkBlock 3 1 ["backedge"] [2] [1],
  mkBlock 4 0 [] [1] []
]⟩

/-- A rank function witnessing `RankedAcyclic gLoop`. -/
def rankLoop : Nat → Nat
  | 0 => 5 | 1 => 4 | 2 => 3 | 4 => 1 | _ => 0

/-- A pass that satisfies the claims' hypotheses (one backedge per header, and
every cycle passes through a backedge block) but is irreducible: block 2 sits
in the loop of header 1 (`loopID 2 = 1`), yet is also entered from header 6
without passing through block 1.  The walk from root 0 visits the subtree of
header 1 first (layering its loop exits 4 and 5 while `loopHeight 1 = 2`),
then reaches block 2 again through the long chain `20..28 → 6` at layer 11,
which retroactively grows `loopHeight 1` to 6; the final visit of header 1
(through block 8, at candidate layer 2) re-layers the exits only at
`2 + 6 = 8`. -/
def gCE : CFG := ⟨[
  mkBlock 0 0 [] [] [10, 20, 8],
  mkBlock 10 0 [] [0] [11], mkBlock 11 0 [] [10] [12],
  mkBlock 12 0 [] [11] [13], mkBlock 13 0 [] [12] [14],
  mkBlock 14 0 [] [13] [1],
  mkBlock 1 1 ["loopheader"] [14, 3, 8] [2, 4],
  mkBlock 2 1 [] [1, 6] [3, 5],
  mkBlock 3 1 ["backedge"] [2] [1],
  mkBlock 4 0 [] [1] [],
  mkBlock 5 0 [] [2] [],
  mkBlock 20 0 [] [0] [21], mkBlock 21 0 [] [20] [22],
  mkBlock 22 0 [] [21] [23], mkBlock 23 0 [] [22] [24],
  mkBlock 24 0 [] [23] [25], mkBlock 25 0 [] [24] [26],
  mkBlock 26 0 [] [25] [27], mkBlock 27 0 [] [26] [28],
  mkBlock 28 0 [] [27] [6],
  mkBlock 6 1 ["loopheader"] [28, 7] [2, 7],
  mkBlock 7 1 ["backedge"] [6] [6],
  mkBlock 8 0 [] [0] [1]
]⟩

/-- A rank function witnessing `RankedAcyclic gCE`. -/
def rankCE : Nat → Nat
  | 0 => 30
  | 10 => 29 | 11 => 28 | 12 => 27 | 13 => 26 | 14 => 25
  | 20 => 24 | 21 => 23 | 22 => 22 | 23 => 21 | 24 => 20
  | 25 => 19 | 26 => 18 | 27 => 17 | 28 => 16
  | 6 => 15 | 8 => 20 | 1 => 10 | 2 => 5 | 4 => 3 | 5 => 2 | _ => 0



/-- A pass whose loop header (block 1) has no backedge predecessor: the
constructor's `backedges.length === 1` assertion fires. -/
def gBad : CFG := ⟨[
  mkBlock 0 0 [] [] [1],
  mkBlock 1 1 ["loopheader"] [0] []
]⟩

/-! ### Invariants of the layering walk -/

/-- Block number `x` resolves to a block without the `backedge` attribute. -/
def isNBat (g : CFG) (x : Nat) : Prop :=
  ∃ b, g.blk x = some b ∧ b.isBackedge = false

/-- Monotonicity of the layering walk: layers of non-backedge blocks only
grow, and per-header `outgoingEdges` lists only get appended to. -/
def MonoL (g : CFG) (s s' : LState) : Prop :=
  (∀ x, isNBat g x → s.layer x ≤ s'.layer x) ∧
  (∀ h, s.outgoingEdges h <+: s'.outgoingEdges h)

/-- The class of edges for the amended claim C1: an edge `(un, vn)` of the
graph whose endpoints both lack the `backedge` attribute and whose target
does not leave the source's loop. -/
def Class (g : CFG) (un vn : Nat) : Prop :=
  ∃ u v, g.blk un = some u ∧ g.blk vn = some v ∧ vn ∈ u.successors ∧
    u.isBackedge = false ∧ v.isBackedge = false ∧ u.loopDepth ≤ v.loopDepth

/-- The inductive invariant of the layering walk: the state only grows, and
whenever the walk raised the layer of the source of a `Class` edge, the
target ends on a strictly greater layer. -/
def Good (g : CFG) (s s' : LState) : Prop :=
  MonoL g s s' ∧
  ∀ un vn, Class g un vn → s.layer un < s'.layer un → s'.layer un < s'.layer vn

/-- A mid-walk state for `gLoop` (the `loopID`s its classification phase
assigns), used to exercise `layerF` on the loop header directly. -/
def sExit : LState :=
  { initState with loopID := fun n => if n = 0 ∨ n = 4 then 0 else 1 }


/-! ### Layout nodes and geometry

The layout constants of `Graph.ts` (at their shipped `tweak` defaults), the
`LayoutNode` data model, and the joint router.  Geometry uses `Int`: block
sizes come from `clientWidth`/`clientHeight` (integers), every constant is an
integer, and all operations performed on coordinates (`+`, `-`, `min`, `max`,
`abs`, comparison, and halving the always-even track height) are exact on
integers, so JavaScript's float arithmetic coincides with `Int`. -/

def CONTENT_PADDING : Int := 20
def BLOCK_GAP : Int := 44
def PORT_START : Int := 16
def PORT_SPACING : Int := 60
def ARROW_RADIUS : Int := 12
def TRACK_PADDING : Int := 36
def JOINT_SPACING : Int := 16
def BACKEDGE_ARROW_PUSHOUT : Int := 32
def LAYOUT_ITERATIONS : Nat := 2
def NEARLY_STRAIGHT : Int := 30
def NEARLY_STRAIGHT_ITERATIONS : Nat := 4

structure Vec2 where
  x : Int
  y : Int
deriving Repr, DecidableEq

/-- A `LayoutNode` (`BlockNode` or `DummyNode`).  Nodes are stored in a
single list indexed by `id`; `srcNodes`/`dstNodes` hold node ids.
`dstNodes` models a JavaScript array written by index (`dstNodes[port] = x`),
which can leave holes — hence `Option`.  `block = some n` makes it a
BlockNode for block `n`; `block = none` makes it a DummyNode with final
destination block `dstBlock`. -/
structure LNode where
  id : Nat
  pos : Vec2
  size : Vec2
  block : Option Nat
  dstBlock : Nat
  srcNodes : List Nat
  dstNodes : List (Option Nat)
  jointOffsets : List Int
  flags : Nat
deriving Repr, DecidableEq

/-- Modify the element at an index of a list (no-op when out of range). -/
def modAt {α : Type} : List α → Nat → (α → α) → List α
  | [], _, _ => []
  | a :: as1, 0, f => f a :: as1
  | a :: as1, i+1, f => a :: modAt as1 i f

/-- JavaScript `arr[i] = v` on an array of node ids: assigning past the end
extends the array, leaving holes (`none`). -/
def listSetExt (l : List (Option Nat)) (i : Nat) (v : Nat) : List (Option Nat) :=
  if i < l.length then l.set i (some v)
  else (l ++ List.replicate (i - l.length) none) ++ [some v]

/-! ### The joint router (`Graph.finagleJoints`) -/

/-- A joint: the horizontal middle segment of a two-bend edge. -/
structure Joint where
  x1 : Int
  x2 : Int
  src : Nat
  srcPort : Nat
  dst : Nat
deriving Repr, DecidableEq

/-- Closed-interval overlap of two joints on the x axis, as in the source:
`ar >= bl && al <= br` on the `[min(x1,x2), max(x1,x2)]` intervals. -/
def jointsOverlap (a b : Joint) : Bool :=
  let al := min a.x1 a.x2
  let ar := max a.x1 a.x2
  let bl := min b.x1 b.x2
  let br := max b.x1 b.x2
  decide (bl ≤ ar) && decide (al ≤ br)

/-- Collect the joints of one layer, in node order: for each non-backedge
node and each destination port, a joint is made when the edge is wide enough
to render with a joint (`|x2 - x1| ≥ 2·ARROW_RADIUS`).  A hole in
`dstNodes` or a dangling id throws (`none`). -/
def layerJoints (g : CFG) (ns : List LNode) : List Nat → Option (List Joint)
  | [] => some []
  | nid :: rest => do
      let node ← ns[nid]?
      let here ←
        if (node.block.bind g.blk).any (fun b => b.isBackedge) then
          some []
        else
          node.dstNodes.enum.foldlM (fun acc pd => do
            let d ← pd.2
            let dn ← ns[d]?
            let x1 := node.pos.x + PORT_START + PORT_SPACING * pd.1
            let x2 := dn.pos.x + PORT_START
            if |x2 - x1| < 2 * ARROW_RADIUS then
              some acc
            else
              some (acc ++ [⟨x1, x2, nid, pd.1, d⟩])) []
      let more ← layerJoints g ns rest
      some (here ++ more)

/-- Stable insertion into a list sorted by `x1` (mirrors the stable
`joints.sort((a, b) => a.x1 - b.x1)`). -/
def insertByX1 (j : Joint) : List Joint → List Joint
  | [] => [j]
  | k :: ks => if j.x1 ≤ k.x1 then j :: k :: ks else k :: insertByX1 j ks

/-- Stable sort by `x1`. -/
def sortByX1 : List Joint → List Joint
  | [] => []
  | j :: js => insertByX1 j (sortByX1 js)

/-- The verdict of scanning one track for a joint, mirroring the inner
`for (const otherJoint of track)` loop: the first joint with the same
destination merges; otherwise the first overlap stops the scan. -/
inductive TrackCheck where
  | merge
  | overlapping
  | clean
deriving Repr, DecidableEq

def checkTrack (j : Joint) : List Joint → TrackCheck
  | [] => .clean
  | k :: ks =>
      if j.dst = k.dst then .merge
      else if jointsOverlap j k then .overlapping
      else checkTrack j ks

/-- Where `finagleJoints` puts a joint within one track set. -/
inductive Placement where
  | mergeAt (i : Nat)
  | pushTo (i : Nat)
  | newTrack
deriving Repr, DecidableEq

/-- The scan `for (let i = trackSet.length - 1; i >= 0; i--)`: walk the
tracks from the innermost (last) outward, remembering the last clean track,
stopping at the first overlap, merging immediately on a shared destination. -/
def choosePlacementAux (j : Joint) (ts : List (List Joint)) :
    Nat → Option Nat → Placement
  | 0, lastValid => lastValid.elim .newTrack (fun i => .pushTo i)
  | i+1, lastValid =>
      if checkTrack j (ts.getD i []) = .merge then .mergeAt i
      else if checkTrack j (ts.getD i []) = .overlapping then
        lastValid.elim .newTrack (fun k => .pushTo k)
      else choosePlacementAux j ts i (some i)

def choosePlacement (j : Joint) (ts : List (List Joint)) : Placement :=
  choosePlacementAux j ts ts.length none

def applyPlacement (j : Joint) (ts : List (List Joint)) : List (List Joint) :=
  match choosePlacement j ts with
  | .mergeAt i => modAt ts i (fun t => t ++ [j])
  | .pushTo i => modAt ts i (fun t => t ++ [j])
  | .newTrack => ts ++ [[j]]

/-- Greedily sort the (already x1-sorted) joints into rightward and leftward
track sets. -/
def buildTracks (joints : List Joint) : List (List Joint) × List (List Joint) :=
  joints.foldl
    (fun rl j =>
      if 0 ≤ j.x2 - j.x1 then (applyPlacement j rl.1, rl.2)
      else (rl.1, applyPlacement j rl.2))
    ([], [])


/-- Per-track invariant maintained by the joint router: every joint either
does not overlap any joint placed in its track before it, or shares a
destination with one of them (it was merged). -/
def TrackOK (track : List Joint) : Prop :=
  ∀ pre j post, track = pre ++ j :: post →
    (∀ k ∈ pre, jointsOverlap k j = false) ∨ (∃ k ∈ pre, k.dst = j.dst)

/-- Concrete layer for the C5 counterexample: three leftward joints where
the third merges (its destination, node 0, is shared with the first) into a
track whose second joint it overlaps. -/
def nsJoint : List LNode := [
  ⟨0, ⟨0, 0⟩, ⟨0, 0⟩, none, 99, [], [], [], 0⟩,
  ⟨1, ⟨100, 0⟩, ⟨0, 0⟩, none, 99, [], [some 0], [], 0⟩,
  ⟨2, ⟨101, 0⟩, ⟨0, 0⟩, none, 98, [], [], [], 0⟩,
  ⟨3, ⟨130, 0⟩, ⟨0, 0⟩, none, 98, [], [some 2], [], 0⟩,
  ⟨4, ⟨140, 0⟩, ⟨0, 0⟩, none, 99, [], [some 0], [], 0⟩]

def gEmpty : CFG := ⟨[]⟩


/-! ### The layout-node materializer (`Graph.makeLayoutNodes`) -/

/-- `connectNodes(from, fromPort, to)`: write the destination slot and add
the source to the destination's `srcNodes` unless already present. -/
def connectNodesF (ns : List LNode) (fromId fromPort toId : Nat) : List LNode :=
  let ns1 := modAt ns fromId (fun n =>
    { n with dstNodes := listSetExt n.dstNodes fromPort toId })
  modAt ns1 toId (fun n =>
    if fromId ∈ n.srcNodes then n else { n with srcNodes := n.srcNodes ++ [fromId] })

/-- An in-flight forward edge (`IncompleteEdge`). -/
structure IEdge where
  src : Nat
  srcPort : Nat
  dstBlock : Nat
deriving Repr, DecidableEq

/-- Ascending insertion sort on integers (for the numeric sort of the
`blocksByLayer` keys). -/
def insertIntAsc (x : Int) : List Int → List Int
  | [] => [x]
  | y :: ys => if x ≤ y then x :: y :: ys else y :: insertIntAsc x ys

def sortIntsAsc : List Int → List Int
  | [] => []
  | x :: xs => insertIntAsc x (sortIntsAsc xs)

/-- Group `this.blocks` by layer, ascending by layer value, preserving block
order within a group (the enumeration order of the `blocksByLayerObj`
object keyed by layer, re-sorted numerically). -/
def blocksByLayer (g : CFG) (ls : LState) : List (List MIRBlock) :=
  (sortIntsAsc ((g.blocks.map (fun b => ls.layer b.number)).dedup)).map
    (fun v => g.blocks.filter (fun b => ls.layer b.number = v))

/-- The state threaded through the materializer. -/
structure MLState where
  ns : List LNode
  layers : List (List Nat)
  blockNode : Nat → Option Nat
  activeEdges : List IEdge
  latestDummies : Nat → Option Nat

/-- Walk up the loop-header chain of one block, updating the pending
backedge-dummy markers (`pendingLoopDummies`): each pending entry pairs a
loop header number with the rightmost block seen for it on this layer. -/
def updatePending (pending : List (Nat × Nat)) (loopID blockNum : Nat) :
    List (Nat × Nat) :=
  if pending.any (fun d => d.1 = loopID) then
    pending.map (fun d => if d.1 = loopID then (d.1, blockNum) else d)
  else
    pending ++ [(loopID, blockNum)]

def pendingChain (g : CFG) (ls : LState) (blockNum : Nat) :
    Nat → List (Nat × Nat) → Nat → Option (List (Nat × Nat))
  | 0, _, _ => none
  | fuel+1, pending, cur => do
      let cb ← g.blk cur
      if cb.isTrueLH then
        let pending := updatePending pending cb.number blockNum
        match ls.parentLoop cb.number with
        | none => some pending
        | some p => pendingChain g ls blockNum fuel pending p
      else
        some pending

/-- Step 3 of the per-layer loop: collect the pending backedge-dummy
markers for all blocks of the layer. -/
def collectPending (g : CFG) (ls : LState) (fuel : Nat)
    (blocks : List MIRBlock) : Option (List (Nat × Nat)) :=
  blocks.foldlM (fun pending b => do
      let h0 ← asLH (g.blk (ls.loopID b.number))
      pendingChain g ls b.number fuel pending h0.number)
    []

/-- Create the backedge dummies anchored at block `b` (step 5). -/
def makeBackedgeDummies (g : CFG) (bem : Nat → Option Nat)
    (pending : List (Nat × Nat)) (b : MIRBlock) (st : MLState)
    (layerAcc : List Nat) : Option (MLState × List Nat) :=
  (pending.filter (fun d => d.2 = b.number)).foldlM (fun (p : MLState × List Nat) d => do
      let st := p.1
      let hb ← asLH (g.blk d.1)
      let ben ← readBackedge g bem hb.number
      let did := st.ns.length
      let dummy : LNode :=
        { id := did, pos := ⟨CONTENT_PADDING, CONTENT_PADDING⟩, size := ⟨0, 0⟩,
          block := none, dstBlock := ben, srcNodes := [], dstNodes := [],
          jointOffsets := [], flags := 0 }
      match st.latestDummies ben with
      | some ld =>
          let ns := connectNodesF (st.ns ++ [dummy]) did 0 ld
          some ({ st with
                  ns := ns,
                  latestDummies := Function.update st.latestDummies ben (some did) },
                p.2 ++ [did])
      | none => do
          let dummy := { dummy with flags := dummy.flags ||| 4 }
          let bln ← st.blockNode ben
          let ns := connectNodesF (st.ns ++ [dummy]) did 0 bln
          some ({ st with
                  ns := ns,
                  latestDummies := Function.update st.latestDummies ben (some did) },
                p.2 ++ [did]))
    (st, layerAcc)

/-- Steps 4–6 of the per-layer loop for a single block: create its
BlockNode, wire terminating edges into it, create this block's backedge
dummies, and emit its outgoing edges. -/
def processBlock (g : CFG) (sizes : Nat → Vec2) (bem : Nat → Option Nat)
    (terminating : List IEdge) (pending : List (Nat × Nat))
    (p : MLState × List Nat × List IEdge) (b : MIRBlock) :
    Option (MLState × List Nat × List IEdge) := do
  let st := p.1
  let nid := st.ns.length
  let node : LNode :=
    { id := nid, pos := ⟨CONTENT_PADDING, CONTENT_PADDING⟩, size := sizes b.number,
      block := some b.number, dstBlock := 0, srcNodes := [], dstNodes := [],
      jointOffsets := [], flags := 0 }
  let ns := (terminating.filter (fun e => e.dstBlock = b.number)).foldl
    (fun ns e => connectNodesF ns e.src e.srcPort nid) (st.ns ++ [node])
  let st := { st with
              ns := ns,
              blockNode := Function.update st.blockNode b.number (some nid) }
  let (st, layerAcc) ← makeBackedgeDummies g bem pending b st (p.2.1 ++ [nid])
  if b.isBackedge then do
    let bn ← st.blockNode b.number
    let s0 ← b.successors[0]?
    let sn ← st.blockNode s0
    some ({ st with ns := connectNodesF st.ns bn 0 sn }, layerAcc, p.2.2)
  else do
    let (st, bes) ← b.successors.enum.foldlM
      (fun (q : MLState × List IEdge) ic => do
        let sb ← g.blk ic.2
        if sb.isBackedge then
          some (q.1, q.2 ++ [⟨nid, ic.1, ic.2⟩])
        else
          some ({ q.1 with activeEdges := q.1.activeEdges ++ [⟨nid, ic.1, ic.2⟩] }, q.2))
      (st, p.2.2)
    some (st, layerAcc, bes)

/-- Step 2: extend the surviving active edges with (possibly coalesced)
forward dummies on this layer. -/
def makeForwardDummies (st : MLState) (layerAcc : List Nat) :
    MLState × List Nat :=
  let r := st.activeEdges.foldl
    (fun (p : List LNode × List Nat × (Nat → Option Nat) × List IEdge) e =>
      match p.2.2.1 e.dstBlock with
      | some did =>
          (connectNodesF p.1 e.src e.srcPort did, p.2.1, p.2.2.1,
           p.2.2.2 ++ [⟨did, 0, e.dstBlock⟩])
      | none =>
          let did := p.1.length
          let dummy : LNode :=
            { id := did, pos := ⟨CONTENT_PADDING, CONTENT_PADDING⟩, size := ⟨0, 0⟩,
              block := none, dstBlock := e.dstBlock, srcNodes := [], dstNodes := [],
              jointOffsets := [], flags := 0 }
          (connectNodesF (p.1 ++ [dummy]) e.src e.srcPort did, p.2.1 ++ [did],
           Function.update p.2.2.1 e.dstBlock (some did),
           p.2.2.2 ++ [⟨did, 0, e.dstBlock⟩]))
    (st.ns, layerAcc, (fun _ => none), [])
  ({ st with ns := r.1, activeEdges := r.2.2.2 }, r.2.1)

/-- One layer of the materializer's main loop. -/
def processLayer (g : CFG) (ls : LState) (sizes : Nat → Vec2)
    (bem : Nat → Option Nat) (fuel : Nat) (st : MLState)
    (blocks : List MIRBlock) : Option MLState := do
  let nums := blocks.map MIRBlock.number
  let terminating := st.activeEdges.filter (fun e => e.dstBlock ∈ nums)
  let st := { st with activeEdges := st.activeEdges.filter (fun e => ¬ e.dstBlock ∈ nums) }
  let (st, layerAcc) := makeForwardDummies st []
  let pending ← collectPending g ls fuel blocks
  let (st, layerAcc, bes) ← blocks.foldlM
    (processBlock g sizes bem terminating pending) (st, layerAcc, [])
  let st ← bes.foldlM (fun (st : MLState) e => do
      let ld ← st.latestDummies e.dstBlock
      some { st with ns := connectNodesF st.ns e.src e.srcPort ld }) st
  some { st with layers := st.layers ++ [layerAcc] }

/-- `pruneNode`: remove the first occurrence of the node from every
destination's `srcNodes` (asserting it was there). -/
def pruneNodeF (ns : List LNode) (nid : Nat) : Option (List LNode) := do
  let node ← ns[nid]?
  node.dstNodes.foldlM (fun ns od => do
      let d ← od
      let dn ← ns[d]?
      guard (nid ∈ dn.srcNodes)
      some (modAt ns d (fun n => { n with srcNodes := n.srcNodes.erase nid })))
    ns

/-- The orphan-pruning walk from one orphan root. -/
def pruneWalk (g : CFG) : Nat → List LNode → List Nat → Nat →
    Option (List LNode × List Nat)
  | 0, _, _, _ => none
  | fuel+1, ns, removed, cur => do
      let node ← ns[cur]?
      if node.block.isNone ∧ node.srcNodes.isEmpty then do
        let ns ← pruneNodeF ns cur
        let removed := removed ++ [cur]
        guard (node.dstNodes.length = 1)
        let d ← node.dstNodes[0]?
        let d2 ← d
        pruneWalk g fuel ns removed d2
      else
        some (ns, removed)

/-- A node id is a backedge dummy (`backedgeDummies` generator). -/
def isBackedgeDummy (g : CFG) (ns : List LNode) (nid : Nat) : Bool :=
  match ns[nid]? with
  | some n => n.block.isNone && (g.blk n.dstBlock).any (fun b => b.isBackedge)
  | none => false

/-- Prune whole orphaned backedge-dummy chains (the block after the main
loop of `makeLayoutNodes`). -/
def pruneOrphans (g : CFG) (fuel : Nat) (st : MLState) : Option MLState := do
  let orphanRoots := (st.layers.flatten).filter (fun nid =>
    isBackedgeDummy g st.ns nid &&
    (st.ns[nid]?).any (fun n => n.srcNodes.isEmpty))
  let (ns, removed) ← orphanRoots.foldlM
    (fun (p : List LNode × List Nat) orphan =>
      pruneWalk g fuel p.1 p.2 orphan) (st.ns, [])
  some { st with
         ns := ns,
         layers := st.layers.map (fun l => l.filter (fun nid => ¬ nid ∈ removed)) }

/-- Flag the contiguous dummies at each end of every layer. -/
def flagEndDummies (st : MLState) : MLState :=
  let isDum := fun (ns : List LNode) nid => (ns[nid]? : Option LNode).any (fun n => n.block.isNone)
  let ns := st.layers.foldl (fun ns l =>
    let left := l.takeWhile (isDum ns)
    let right := l.reverse.takeWhile (isDum ns)
    let ns := left.foldl (fun ns nid => modAt ns nid (fun n => { n with flags := n.flags ||| 1 })) ns
    right.foldl (fun ns nid => modAt ns nid (fun n => { n with flags := n.flags ||| 2 })) ns) st.ns
  { st with ns := ns }

/-- The final consistency assertions of `makeLayoutNodes`. -/
def checkNodes (g : CFG) (st : MLState) : Option Unit :=
  st.layers.foldlM (fun _ l =>
    l.foldlM (fun _ nid => do
        let n ← st.ns[nid]?
        match n.block with
        | some bnum => do
            let b ← g.blk bnum
            guard (n.dstNodes.length = b.successors.length)
            if n.dstNodes.all (fun od => od.isSome) then some () else none
        | none => do
            guard (n.dstNodes.length = 1)
            if n.dstNodes.all (fun od => od.isSome) then some () else none)
      ()) ()

/-- `Graph.makeLayoutNodes`. -/
def makeLayoutNodesF (g : CFG) (ls : LState) (sizes : Nat → Vec2)
    (bem : Nat → Option Nat) (fuel : Nat) : Option MLState := do
  let st0 : MLState :=
    { ns := [], layers := [], blockNode := fun _ => none,
      activeEdges := [], latestDummies := fun _ => none }
  let st ← (blocksByLayer g ls).foldlM (processLayer g ls sizes bem fuel) st0
  let st ← pruneOrphans g fuel st
  let st := flagEndDummies st
  let _ ← checkNodes g st
  some st


/-! ### The X straightener (`Graph.straightenEdges`)

All straightening passes mutate only `pos.x` of layout nodes; the layer
lists are fixed.  The store is the live `List LNode`; all reads go through
the store so that earlier writes of the same pass are visible, exactly as
in the mutating JS code.  Failures (accessing a property of `undefined`, a
falsy `assert`) are `none`. -/

def setPosX (ns : List LNode) (i : Nat) (x : Int) : List LNode :=
  modAt ns i (fun n => { n with pos := { n.pos with x := x } })

/-- `indexOf` with JS semantics: `-1` when absent. -/
def jsIndexOf {α : Type} [DecidableEq α] (l : List α) (x : α) : Int :=
  match l.indexOf? x with
  | some i => (i : Int)
  | none => -1

/-- `pushNeighbors(nodes)`: walk a layer left to right, pushing each node
right of its left neighbor (plus padding). -/
def pushNeighbors (g : CFG) (ns : List LNode) (layer : List Nat) :
    Option (List LNode) :=
  (List.range (layer.length - 1)).foldlM (fun ns i => do
      let nid ← layer[i]?
      let mid ← layer[i+1]?
      let node ← ns[nid]?
      let neighbor ← ns[mid]?
      let firstNonDummy := node.block.isNone && neighbor.block.isSome
      let nodeRightPlusPadding := node.pos.x + node.size.x +
        (if firstNonDummy then PORT_START else 0) + BLOCK_GAP
      let backedgeNeighborPosition :=
        if (node.block.bind g.blk).any (fun b => b.isBackedge) then
          node.pos.x + node.size.x + BACKEDGE_ARROW_PUSHOUT + BLOCK_GAP + PORT_START
        else 0
      some (setPosX ns mid
        (max (max neighbor.pos.x nodeRightPlusPadding) backedgeNeighborPosition)))
    ns

/-- Pass: push each block node right of its loop header's node. -/
def pushIntoLoops (g : CFG) (ls : LState) (bn : Nat → Option Nat)
    (ns : List LNode) (layers : List (List Nat)) : Option (List LNode) :=
  layers.foldlM (fun ns layer =>
    layer.foldlM (fun (ns : List LNode) nid => do
        let node ← ns[nid]?
        match node.block with
        | none => some ns
        | some bnum => do
            let lh ← asLH (g.blk (ls.loopID bnum))
            let lhn ← bn lh.number
            let lhNode ← ns[lhn]?
            some (setPosX ns nid (max node.pos.x lhNode.pos.x)))
      ns) ns

/-- The dummy enumeration of `dummies(layoutNodesByLayer)`: ids of nodes
with no block, in layer order. -/
def dummyIds (ns : List LNode) (layers : List (List Nat)) : List Nat :=
  layers.flatten.filter (fun nid => (ns[nid]? : Option LNode).any (fun n => n.block.isNone))

/-- Pass: align each run of dummies with a common destination on a shared
X position (the max of their desired positions), then re-push. -/
def straightenDummyRuns (g : CFG) (bn : Nat → Option Nat)
    (ns : List LNode) (layers : List (List Nat)) : Option (List LNode) := do
  let posMap ← (dummyIds ns layers).foldlM
    (fun (m : Nat → Option Int) nid => do
      let dummy ← ns[nid]?
      let dst := dummy.dstBlock
      let dstBlk ← g.blk dst
      let d0 ← dummy.dstNodes[0]?
      let d0 ← d0
      let d0Node ← ns[d0]?
      let desiredX ←
        if d0Node.block.isSome ∧ dstBlk.isBackedge then do
          let ben ← bn dst
          let beNode ← ns[ben]?
          some (beNode.pos.x + beNode.size.x + BACKEDGE_ARROW_PUSHOUT)
        else
          some dummy.pos.x
      some (Function.update m dst (some (max ((m dst).getD 0) desiredX))))
    (fun _ => none)
  let ns ← (dummyIds ns layers).foldlM (fun (ns : List LNode) nid => do
      let dummy ← ns[nid]?
      let x ← posMap dummy.dstBlock
      guard (x ≠ 0)
      some (setPosX ns nid x)) ns
  layers.foldlM (pushNeighbors g) ns

/-- Pass: drag the leftmost dummies of each layer back left toward their
sources, then snap each destination's leftmost dummies to a column. -/
def suckInLeftmostDummies (g : CFG) (bn : Nat → Option Nat)
    (ns : List LNode) (layers : List (List Nat)) : Option (List LNode) := do
  let r ← layers.foldlM
    (fun (p : List LNode × (Nat → Option Int)) layer => do
      let ns := p.1
      let leading := layer.takeWhile (fun nid =>
        (ns[nid]? : Option LNode).any (fun n => n.flags &&& 1 ≠ 0))
      let nextX ←
        match layer[leading.length]? with
        | some nid => do
            let n ← ns[nid]?
            some n.pos.x
        | none => some 0
      let r ← leading.reverse.foldlM
        (fun (q : List LNode × (Nat → Option Int) × Int) nid => do
          let ns := q.1
          let nextX := q.2.2
          let dummy ← ns[nid]?
          guard (dummy.block.isNone ∧ dummy.flags &&& 1 ≠ 0)
          let maxSafeX ← dummy.srcNodes.foldlM (fun (acc : Int) sid => do
              let src ← ns[sid]?
              let srcX := src.pos.x + jsIndexOf src.dstNodes (some nid) * PORT_SPACING
              some (if srcX < acc then srcX else acc))
            nextX
          let dn ← bn dummy.dstBlock
          let dNode ← ns[dn]?
          let maxSafeX := if dNode.pos.x < maxSafeX then dNode.pos.x else maxSafeX
          let m := q.2.1
          let prev := (m dummy.dstBlock).elim maxSafeX (fun v => min v maxSafeX)
          some (setPosX ns nid maxSafeX,
                Function.update m dummy.dstBlock (some prev),
                maxSafeX - BLOCK_GAP))
        (ns, p.2, nextX - (BLOCK_GAP + PORT_START))
      some (r.1, r.2.1))
    (ns, (fun _ => none))
  let ns := r.1
  (dummyIds ns layers).foldlM (fun (ns : List LNode) nid => do
      let dummy ← ns[nid]?
      if dummy.flags &&& 1 ≠ 0 then do
        let x ← r.2 dummy.dstBlock
        guard (x ≠ 0)
        some (setPosX ns nid x)
      else
        some ns) ns

/-- Pass: pull first children under their parents, left to right. -/
def straightenChildren (g : CFG) (ns : List LNode) (layers : List (List Nat)) :
    Option (List LNode) :=
  (List.range (layers.length - 1)).foldlM (fun ns layer => do
      let nodes ← layers[layer]?
      let ns ← pushNeighbors g ns nodes
      let next ← layers[layer+1]?
      let r ← nodes.foldlM
        (fun (p : List LNode × Int) nid => do
          let node0 ← p.1[nid]?
          node0.dstNodes.enum.foldlM
            (fun (q : List LNode × Int) pd =>
              match pd.2 with
              | none => some q
              | some did => do
                  let dstIndexInNextLayer := jsIndexOf next did
                  if dstIndexInNextLayer > q.2 then do
                    let dst ← q.1[did]?
                    if dst.srcNodes[0]? = some nid then do
                      let node ← q.1[nid]?
                      let srcPortOffset := PORT_START + PORT_SPACING * (pd.1 : Int)
                      let newX := max dst.pos.x (node.pos.x + srcPortOffset - PORT_START)
                      if newX ≠ dst.pos.x then
                        some (setPosX q.1 did newX, dstIndexInNextLayer)
                      else
                        some q
                    else
                      some q
                  else
                    some q)
            p)
        (ns, (-1 : Int))
      some r.1)
    ns

/-- One candidate delta test of `straightenConservative`: does moving the
node right by `delta` overlap any non-rightmost-dummy node to its right? -/
def overlapsAnyRight (ns : List LNode) (layer : List Nat) (i : Nat)
    (node : LNode) (delta : Int) : Option Bool :=
  (List.range (layer.length - (i+1))).foldlM (fun acc k => do
      let oid ← layer[i+1+k]?
      let other ← ns[oid]?
      if other.flags &&& 2 ≠ 0 then
        some acc
      else
        let a1 := node.pos.x + delta
        let a2 := a1 + node.size.x
        let b1 := other.pos.x - BLOCK_GAP
        let b2 := other.pos.x + other.size.x + BLOCK_GAP
        some (acc || (decide (b1 ≤ a2) && decide (a1 ≤ b2))))
    false

def insertIntAscL (x : Int) : List Int → List Int
  | [] => [x]
  | y :: ys => if x ≤ y then x :: y :: ys else y :: insertIntAscL x ys

def sortIntsAscL : List Int → List Int
  | [] => []
  | x :: xs => insertIntAscL x (sortIntsAscL xs)

/-- Pass: conservatively move block nodes right to straighten an incident
edge when that causes no overlap, scanning each layer right to left. -/
def straightenConservative (g : CFG) (ns : List LNode)
    (layers : List (List Nat)) : Option (List LNode) :=
  layers.foldlM (fun ns layer => do
      let ns ← (List.range layer.length).foldlM (fun (ns : List LNode) k => do
          let i := layer.length - 1 - k
          let nid ← layer[i]?
          let node ← ns[nid]?
          match node.block with
          | none => some ns
          | some bnum => do
              let b ← g.blk bnum
              if b.isBackedge then
                some ns
              else do
                let deltas1 ← node.srcNodes.foldlM (fun (acc : List Int) sid => do
                    let parent ← ns[sid]?
                    let srcPortOffset := PORT_START +
                      jsIndexOf parent.dstNodes (some nid) * PORT_SPACING
                    some (acc ++ [(parent.pos.x + srcPortOffset) - (node.pos.x + PORT_START)]))
                  []
                let deltasToTry ← node.dstNodes.enum.foldlM
                  (fun (acc : List Int) pd => do
                    let did ← pd.2
                    let dst ← ns[did]?
                    if dst.block.isNone ∧ (g.blk dst.dstBlock).any (fun b => b.isBackedge) then
                      some acc
                    else
                      some (acc ++ [(dst.pos.x + PORT_START) -
                        (node.pos.x + (PORT_START + (pd.1 : Int) * PORT_SPACING))]))
                  deltas1
                if (0 : Int) ∈ deltasToTry then
                  some ns
                else do
                  let deltas := sortIntsAscL (deltasToTry.filter (fun d => 0 < d))
                  let r ← deltas.foldlM
                    (fun (q : List LNode × Bool) delta => do
                      if q.2 then some q
                      else do
                        let ov ← overlapsAnyRight q.1 layer i node delta
                        if ov then some q
                        else some (setPosX q.1 nid (node.pos.x + delta), true))
                    (ns, false)
                  some r.1)
        ns
      pushNeighbors g ns layer)
    ns

/-- Pass: snap nearly straight edges, walking layers bottom-up and pulling
dummy sources onto their (block) nodes. -/
def straightenNearlyStraightEdgesUp (g : CFG) (ns : List LNode)
    (layers : List (List Nat)) : Option (List LNode) :=
  (List.range layers.length).foldlM (fun ns k => do
      let nodes ← layers[layers.length - 1 - k]?
      let ns ← pushNeighbors g ns nodes
      nodes.foldlM (fun (ns : List LNode) nid => do
          let node ← ns[nid]?
          node.srcNodes.foldlM (fun (ns : List LNode) sid => do
              let src ← ns[sid]?
              if src.block.isSome then
                some ns
              else do
                let node ← ns[nid]?
                let wiggle := |src.pos.x - node.pos.x|
                if wiggle ≤ NEARLY_STRAIGHT then do
                  let ns := setPosX ns sid (max src.pos.x node.pos.x)
                  let src2 ← ns[sid]?
                  let node2 ← ns[nid]?
                  some (setPosX ns nid (max src2.pos.x node2.pos.x))
                else
                  some ns)
            ns)
        ns)
    ns

/-- Pass: the top-down twin of the previous pass, pulling first dummy
destinations onto their nodes. -/
def straightenNearlyStraightEdgesDown (g : CFG) (ns : List LNode)
    (layers : List (List Nat)) : Option (List LNode) :=
  layers.foldlM (fun ns nodes => do
      let ns ← pushNeighbors g ns nodes
      nodes.foldlM (fun (ns : List LNode) nid => do
          let node ← ns[nid]?
          if node.dstNodes.length = 0 then
            some ns
          else do
            let d0 ← node.dstNodes[0]?
            let did ← d0
            let dst ← ns[did]?
            if dst.block.isSome then
              some ns
            else
              let wiggle := |dst.pos.x - node.pos.x|
              if wiggle ≤ NEARLY_STRAIGHT then do
                let ns := setPosX ns did (max dst.pos.x node.pos.x)
                let dst2 ← ns[did]?
                let node2 ← ns[nid]?
                some (setPosX ns nid (max dst2.pos.x node2.pos.x))
              else
                some ns)
        ns)
    ns

/-- The pass schedule of `straightenEdges` (the tweak defaults run all 18
passes: `STOP_AT_PASS = 30 > 18`, `LAYOUT_ITERATIONS = 2`,
`NEARLY_STRAIGHT_ITERATIONS = 4`). -/
def straightenEdgesF (g : CFG) (ls : LState) (bn : Nat → Option Nat)
    (ns : List LNode) (layers : List (List Nat)) : Option (List LNode) := do
  let iter := fun ns => do
    let ns ← straightenChildren g ns layers
    let ns ← pushIntoLoops g ls bn ns layers
    straightenDummyRuns g bn ns layers
  let near := fun ns => do
    let ns ← straightenNearlyStraightEdgesUp g ns layers
    straightenNearlyStraightEdgesDown g ns layers
  let ns ← iter ns
  let ns ← iter ns
  let ns ← straightenDummyRuns g bn ns layers
  let ns ← near ns
  let ns ← near ns
  let ns ← near ns
  let ns ← near ns
  let ns ← straightenConservative g ns layers
  let ns ← straightenDummyRuns g bn ns layers
  suckInLeftmostDummies g bn ns layers


/-! ### A straightening counterexample graph -/

/-- A loop-free pass on which the straightener is *not* idempotent.  The
wide block 2 pushes block 3 far right on its layer; block 5 (whose first
parent is block 1) is left behind, and `straightenConservative` later jumps
block 5 clear over its right neighbour (block 6) to align it under block 3.
The per-layer `pushNeighbors` inside that pass then shoves block 6 right,
but block 6's child (block 7) is skipped by the conservative pass because
it is already exactly aligned with its own child (block 8).  A second run's
`straightenChildren` then pulls blocks 7 and 8 further right. -/
def gG : CFG := ⟨[
  mkBlock 0 0 [] [] [1, 2, 3],
  mkBlock 1 0 [] [0] [4, 5],
  mkBlock 2 0 [] [0] [6],
  mkBlock 3 0 [] [0] [5],
  mkBlock 4 0 [] [1] [],
  mkBlock 5 0 [] [1, 3] [],
  mkBlock 6 0 [] [2] [7],
  mkBlock 7 0 [] [6] [8],
  mkBlock 8 0 [] [7] []
]⟩

/-- Rendered block sizes for `gG` (block 2 wide, block 4 medium). -/
def szG : Nat → Vec2 := fun n =>
  if n = 2 then ⟨400, 50⟩ else if n = 4 then ⟨150, 50⟩ else ⟨100, 50⟩

/-- The full layout front end on `gG` followed by `k` runs of the
straightener (`k = 1` or `2`), returning every node's x-coordinate. -/
def straightenRunsG : Nat → Option (List Int) := fun k => do
  let ls ← layoutWalk gG 30
  let bem ← initBackedges gG
  let st ← makeLayoutNodesF gG ls szG bem 30
  let ns1 ← straightenEdgesF gG ls st.blockNode st.ns st.layers
  if k = 1 then some (ns1.map (fun n => n.pos.x)) else do
    let ns2 ← straightenEdgesF gG ls st.blockNode ns1 st.layers
    some (ns2.map (fun n => n.pos.x))

/-- The node store `ns'` refines `ns` by moving nodes only rightward: same
length, and every node's x-coordinate is at least its old value. -/
def MonoX (ns ns' : List LNode) : Prop :=
  ns'.length = ns.length ∧
  ∀ (i : Nat) (n n' : LNode), ns[i]? = some n → ns'[i]? = some n' →
    n.pos.x ≤ n'.pos.x


/-- Claim C10's invariant: every layout node's `srcNodes` list is free of
duplicates. -/
def NodupSrc (ns : List LNode) : Prop := ∀ n ∈ ns, n.srcNodes.Nodup

/-- The front end on `gLoop` up to the layout-node materializer (used to
witness the C10 invariant on a concrete run). -/
def mlLoopW : Option MLState := do
  let ls ← layoutWalk gLoop 30
  let bem ← initBackedges gLoop
  makeLayoutNodesF gLoop ls (fun _ => ⟨100, 50⟩) bem 30


/-- The front end on the irreducible-but-well-formed pass `gCE` up to the
layout-node materializer. -/
def mlCE (fuel : Nat) : Option MLState := do
  let ls ← layoutWalk gCE fuel
  let bem ← initBackedges gCE
  makeLayoutNodesF gCE ls (fun _ => ⟨100, 50⟩) bem fuel


/-! ### An exception-aware copy of `findLoops` for the termination claim

In the `Option` embedding a thrown assertion and exhausted fuel are both
`none`, so "the recursion terminates" cannot be stated (a diverging and a
throwing run would both map to `none` at every fuel).  `findLoopsE` is the
same translation of `Graph.findLoops` with the two outcomes separated:
`none` = fuel ran out, `some none` = the JavaScript code threw (which is a
*terminating* outcome), `some (some s)` = normal return. -/

/-- Sequencing of the exception-aware successor fold. -/
def eFold (step : LState → Nat → Option (Option LState)) :
    List Nat → LState → Option (Option LState)
  | [], s => some (some s)
  | c :: cs, s =>
      match step s c with
      | none => none
      | some none => some none
      | some (some s2) => eFold step cs s2

/-- `Graph.findLoops`, with fuel exhaustion (`none`) separated from thrown
assertions (`some none`). -/
def findLoopsE (g : CFG) : Nat → LState → Nat → List Nat → Option (Option LState)
  | 0, _, _, _ => none
  | fuel+1, s, bn, stack =>
      match g.blk bn with
      | none => some none
      | some b =>
          let hdr : Option (LState × List Nat) :=
            if b.isTrueLH then
              if b.loopDepth = stack.length then
                match stack.getLast? with
                | none => none
                | some parentID =>
                    match asLH (g.blk parentID) with
                    | none => none
                    | some p =>
                        some ({ s with parentLoop :=
                                 Function.update s.parentLoop bn (some p.number) },
                              stack ++ [bn])
              else none
            else some (s, stack)
          match hdr with
          | none => some none
          | some (s, stack) =>
              let stack :=
                if b.loopDepth + 1 < stack.length then stack.take (b.loopDepth + 1)
                else stack
              match stack[b.loopDepth]? with
              | none => some none
              | some lid =>
                  let s := { s with loopID := Function.update s.loopID bn lid }
                  if b.isBackedge then
                    some (some s)
                  else
                    eFold (fun s2 c => findLoopsE g fuel s2 c stack) b.successors s


/-- `Graph.layer`'s parent-loop climb, fuel-aware (`chainF` never throws,
so the inner option is always populated on return). -/
def chainE : Nat → LState → Nat → Int → Option (Option LState)
  | 0, _, _, _ => none
  | fuel+1, s, h, blayer =>
      let s := { s with
        loopHeight := Function.update s.loopHeight h
          (max (s.loopHeight h) (blayer - s.layer h + 1)) }
      match s.parentLoop h with
      | none => some (some s)
      | some p => chainE fuel s p blayer

/-- The live `outgoingEdges` loop of `Graph.layer`, fuel-aware. -/
def liveOutsE (step : LState → Nat → Option (Option LState)) :
    Nat → LState → Nat → Nat → Option (Option LState)
  | 0, _, _, _ => none
  | fuel+1, s, bn, i =>
      let es := s.outgoingEdges bn
      if h : i < es.length then
        match step s (es.get ⟨i, h⟩) with
        | none => none
        | some none => some none
        | some (some s2) => liveOutsE step fuel s2 bn (i + 1)
      else some (some s)

/-- `Graph.layer`, with fuel exhaustion (`none`) separated from thrown
assertions (`some none`), mirroring `layerF`. -/
def layerE (g : CFG) : Nat → LState → Nat → Int → Option (Option LState)
  | 0, _, _, _ => none
  | fuel+1, s, bn, L =>
      match g.blk bn with
      | none => some none
      | some b =>
          if b.isBackedge then
            match b.successors[0]? with
            | none => some none
            | some s0 =>
                some (some { s with layer := Function.update s.layer bn (s.layer s0) })
          else
            let newLayer := max (s.layer bn) L
            let s := { s with
              layer := Function.update s.layer bn newLayer,
              numLayers := max (newLayer + 1) s.numLayers }
            match asLH (g.blk (s.loopID bn)) with
            | none => some none
            | some h0 =>
                match chainE fuel s h0.number newLayer with
                | none => none
                | some none => some none
                | some (some s) =>
                    match eFold (fun t c =>
                        match g.blk c with
                        | none => some none
                        | some cb =>
                            if cb.loopDepth < b.loopDepth then
                              match asLH (g.blk (t.loopID bn)) with
                              | none => some none
                              | some h =>
                                  let oe := Function.update t.outgoingEdges
                                    h.number (t.outgoingEdges h.number ++ [c])
                                  some (some { t with outgoingEdges := oe })
                            else layerE g fuel t c (L + 1)) b.successors s with
                    | none => none
                    | some none => some none
                    | some (some s) =>
                        if b.isTrueLH then
                          liveOutsE (fun t c => layerE g fuel t c (L + t.loopHeight bn))
                            fuel s bn 0
                        else some (some s)

/-- The root call of `findLoops`, fuel-aware (mirrors `findLoopsRootF`):
the general body with the stack initialised to `[bn]`. -/
def findLoopsRootE (g : CFG) (fuel : Nat) (s : LState) (bn : Nat) :
    Option (Option LState) :=
  findLoopsE g fuel s bn [bn]

/-- The classification/layering walk, fuel-aware (mirrors `layoutWalk`). -/
def layoutWalkE (g : CFG) (fuel : Nat) : Option (Option LState) :=
  eFold (fun s rn =>
      match findLoopsRootE g fuel s rn with
      | none => none
      | some none => some none
      | some (some s1) => layerE g fuel s1 rn 0)
    (g.roots.map MIRBlock.number) initState

/-- One Dershowitz–Manna step on multisets of naturals: remove one element
`r`, add any multiset of elements strictly below `r`.  Used as the
termination measure of the live `outgoingEdges` loop. -/
def DMLt (M N : Multiset Nat) : Prop :=
  ∃ r K, r ∈ N ∧ M = N.erase r + K ∧ ∀ k ∈ K, k < r


/-! #### Invariants for the termination proof -/

/-- `h` is an ancestor-or-self of `u` in rank: equal, or strictly higher
rank (ancestors on a non-backedge path always have higher rank). -/
def Anc (rank : Nat → Nat) (u h : Nat) : Prop := u = h ∨ rank u < rank h

/-- The largest rank of any block of the graph. -/
def rankMaxG (g : CFG) (rank : Nat → Nat) : Nat :=
  (g.blocks.map (fun b => rank b.number)).foldr max 0

/-- Every block in `R` has an ancestral `loopID` (written by `findLoops`
from its stack of enclosing headers). -/
def LAncOn (rank : Nat → Nat) (R : Nat → Prop) (s : LState) : Prop :=
  ∀ u, R u → Anc rank u (s.loopID u)

/-- Every deferred outgoing edge sits on a header of strictly higher rank,
and its target is in the covered set. -/
def OutOK (rank : Nat → Nat) (R : Nat → Prop) (s : LState) : Prop :=
  ∀ h c, c ∈ s.outgoingEdges h → rank c < rank h ∧ R c

/-- Parent-loop links strictly increase the rank and stay below the
graph's maximal rank `K`. -/
def PAncK (rank : Nat → Nat) (K : Nat) (s : LState) : Prop :=
  ∀ h p, s.parentLoop h = some p → rank h < rank p ∧ rank p ≤ K

/-- Reachability along successor edges of non-backedge blocks — the edges
both recursive walks descend across. -/
inductive NBReach (g : CFG) : Nat → Nat → Prop
  | refl (u : Nat) : NBReach g u u
  | step {u v w : Nat} (b : MIRBlock) : g.blk u = some b →
      b.isBackedge = false → v ∈ b.successors → NBReach g v w → NBReach g u w

/-- `R` is closed under the edges the walks descend across. -/
def NBClosed (g : CFG) (R : Nat → Prop) : Prop :=
  ∀ u b, R u → g.blk u = some b → b.isBackedge = false →
    ∀ c ∈ b.successors, R c


/-- The bundled state invariant of the layering walk. -/
def WalkInv (rank : Nat → Nat) (K : Nat) (R : Nat → Prop) (s : LState) : Prop :=
  LAncOn rank R s ∧ OutOK rank R s ∧ PAncK rank K s

/-- `s'` extends `s` by appending deferred edges of rank below `ρ` (and
inside `R`) to some headers' `outgoingEdges`, leaving the rest alone. -/
def Grows (rank : Nat → Nat) (R : Nat → Prop) (ρ : Nat) (s s' : LState) : Prop :=
  ∀ h, ∃ new, s'.outgoingEdges h = s.outgoingEdges h ++ new ∧
    ∀ c ∈ new, rank c < ρ ∧ R c


/-- The effect relation of one layering step: deferred-edge lists grow only
by entries of rank below `ρ` inside `R`; `loopID` and `parentLoop` are
untouched. -/
def LRel (rank : Nat → Nat) (R : Nat → Prop) (ρ : Nat) (a b : LState) : Prop :=
  Grows rank R ρ a b ∧ b.loopID = a.loopID ∧ b.parentLoop = a.parentLoop


/-- The multiset of ranks of the not-yet-processed deferred edges of header
`bn` (the termination measure of the live loop). -/
def pendingM (rank : Nat → Nat) (s : LState) (bn i : Nat) : Multiset Nat :=
  (((s.outgoingEdges bn).drop i).map rank : List Nat)

/-- A single root block carrying the `loopheader` attribute at `loopDepth`
1: the root call of `findLoops` runs its `isTrueLH` branch with the stack
`[0]`, making the block its own `parentLoop`, after which the header climb
in `layer` never ends. -/
def gHdrRoot : CFG := ⟨[mkBlock 0 1 ["loopheader"] [] []]⟩


/-! ## Theorems -/

theorem chainF_spec : ∀ {fuel : Nat} {s : LState} {h : Nat} {l : Int} {s' : LState},
    chainF fuel s h l = some s' →
    s'.layer = s.layer ∧ s'.loopID = s.loopID ∧ s'.parentLoop = s.parentLoop ∧
      s'.outgoingEdges = s.outgoingEdges ∧ s'.numLayers = s.numLayers := by
  intro fuel
  induction fuel with
  | zero => intro s h l s' hc; simp [chainF] at hc
  | succ fuel ih =>
      intro s h l s' hc
      rw [chainF] at hc
      dsimp only at hc
      cases hp : s.parentLoop h with
      | none =>
          rw [hp] at hc
          dsimp only at hc
          cases hc
          exact ⟨rfl, rfl, rfl, rfl, rfl⟩
      | some p =>
          rw [hp] at hc
          dsimp only at hc
          have h2 := ih hc
          exact h2





theorem optSomeBind {α β : Type} (a : α) (f : α → Option β) :
    (some a >>= f) = f a := rfl

theorem optNoneBind {α β : Type} (f : α → Option β) :
    ((none : Option α) >>= f) = none := rfl

theorem optGuardBindPos {β : Type} {P : Prop} [Decidable P] (hp : P)
    (f : Unit → Option β) : (guard P >>= f) = f () := by
  simp only [guard, if_pos hp]; rfl

theorem optGuardBindNeg {β : Type} {P : Prop} [Decidable P] (hp : ¬P)
    (f : Unit → Option β) : (guard P >>= f) = none := by
  simp only [guard, if_neg hp]; rfl

theorem optFailureBind {α β : Type} (f : α → Option β) :
    ((failure : Option α) >>= f) = none := rfl

theorem monoL_rfl (g : CFG) (s : LState) : MonoL g s s :=
  ⟨fun _ _ => le_refl _, fun _ => List.prefix_refl _⟩

theorem monoL_trans {g : CFG} {a b c : LState} (h1 : MonoL g a b) (h2 : MonoL g b c) :
    MonoL g a c :=
  ⟨fun x hx => le_trans (h1.1 x hx) (h2.1 x hx),
   fun h => (h1.2 h).trans (h2.2 h)⟩

theorem monoL_of_eq {g : CFG} {a b : LState}
    (hl : b.layer = a.layer) (ho : b.outgoingEdges = a.outgoingEdges) :
    MonoL g a b :=
  ⟨fun x _ => by rw [hl], fun h => by rw [ho]⟩

/-- Relation-composition helper for `List.foldlM` over `Option`. -/
theorem foldlM_rel {β : Type} {R : LState → LState → Prop}
    (htrans : ∀ {a b c : LState}, R a b → R b c → R a c) (hrefl : ∀ a, R a a)
    {f : LState → β → Option LState} :
    ∀ {cs : List β} {s s' : LState},
      (∀ t c t', c ∈ cs → f t c = some t' → R t t') →
      cs.foldlM f s = some s' → R s s' := by
  intro cs
  induction cs with
  | nil =>
      intro s s' _ h
      simp only [List.foldlM_nil, pure, Option.some.injEq] at h
      rw [← h]; exact hrefl s
  | cons c cs ih =>
      intro s s' hstep h
      rw [List.foldlM_cons] at h
      cases hf : f s c with
      | none => rw [hf] at h; simp at h
      | some s1 =>
          rw [hf] at h
          simp only [optSomeBind] at h
          exact htrans (hstep s c s1 (List.mem_cons_self c cs) hf)
            (ih (fun t c' t' hm hft => hstep t c' t' (List.mem_cons_of_mem c hm) hft) h)

/-- Relation-composition helper for `liveOuts`. -/
theorem liveOuts_rel {R : LState → LState → Prop}
    (htrans : ∀ {a b c : LState}, R a b → R b c → R a c) (hrefl : ∀ a, R a a)
    {step : LState → Nat → Option LState}
    (hstep : ∀ t c t', step t c = some t' → R t t') :
    ∀ {fuel : Nat} {s : LState} {bn i : Nat} {s' : LState},
      liveOuts step fuel s bn i = some s' → R s s' := by
  intro fuel
  induction fuel with
  | zero => intro s bn i s' h; simp [liveOuts] at h
  | succ fuel ih =>
      intro s bn i s' h
      rw [liveOuts] at h
      by_cases hi : i < (s.outgoingEdges bn).length
      · rw [dif_pos hi] at h
        cases hs : step s ((s.outgoingEdges bn).get ⟨i, hi⟩) with
        | none => rw [hs] at h; simp at h
        | some s1 =>
            rw [hs] at h
            simp only [optSomeBind] at h
            exact htrans (hstep _ _ _ hs) (ih h)
      · rw [dif_neg hi] at h
        cases h
        exact hrefl _

/-- `findLoopsF` writes only `loopID` and `parentLoop`. -/
theorem findLoopsF_spec (g : CFG) : ∀ (fuel : Nat) {s : LState} {bn : Nat}
    {stack : List Nat} {s' : LState},
    findLoopsF g fuel s bn stack = some s' →
    s'.layer = s.layer ∧ s'.loopHeight = s.loopHeight ∧
      s'.outgoingEdges = s.outgoingEdges ∧ s'.numLayers = s.numLayers := by
  intro fuel
  induction fuel with
  | zero => intro s bn stack s' h; simp [findLoopsF] at h
  | succ fuel ih =>
      intro s bn stack s' h
      have key : ∀ (t : LState) (st2 : List Nat) (b : MIRBlock),
          (do
            guard (b.loopDepth < st2.length)
            let lid ← st2[b.loopDepth]?
            let t := { t with loopID := Function.update t.loopID bn lid }
            if b.isBackedge then
              some t
            else
              b.successors.foldlM (fun s c => findLoopsF g fuel s c st2) t) = some s' →
          s'.layer = t.layer ∧ s'.loopHeight = t.loopHeight ∧
            s'.outgoingEdges = t.outgoingEdges ∧ s'.numLayers = t.numLayers := by
        intro t st2 b hrest
        by_cases hg : b.loopDepth < st2.length
        · rw [optGuardBindPos hg] at hrest
          cases hlid : st2[b.loopDepth]? with
          | none => rw [hlid] at hrest; exact Option.noConfusion hrest
          | some lid =>
              rw [hlid, optSomeBind] at hrest
              dsimp only at hrest
              by_cases hbe : b.isBackedge = true
              · rw [if_pos hbe] at hrest
                cases hrest
                exact ⟨rfl, rfl, rfl, rfl⟩
              · rw [if_neg hbe] at hrest
                have h2 := foldlM_rel
                  (R := fun a b => b.layer = a.layer ∧ b.loopHeight = a.loopHeight ∧
                    b.outgoingEdges = a.outgoingEdges ∧ b.numLayers = a.numLayers)
                  (fun h1 h2 => ⟨h2.1.trans h1.1, h2.2.1.trans h1.2.1,
                    h2.2.2.1.trans h1.2.2.1, h2.2.2.2.trans h1.2.2.2⟩)
                  (fun a => ⟨rfl, rfl, rfl, rfl⟩)
                  (fun u c u' _ hu => ih hu) hrest
                exact h2
        · rw [optGuardBindNeg hg] at hrest
          exact Option.noConfusion hrest
      rw [findLoopsF] at h
      cases hb : g.blk bn with
      | none => rw [hb] at h; exact Option.noConfusion h
      | some b =>
          rw [hb, optSomeBind] at h
          by_cases hlh : b.isTrueLH = true
          · rw [if_pos hlh] at h
            by_cases hd : b.loopDepth = stack.length
            · rw [optGuardBindPos hd] at h
              cases hlast : stack.getLast? with
              | none => rw [hlast] at h; exact Option.noConfusion h
              | some parentID =>
                  rw [hlast, optSomeBind] at h
                  cases hp : asLH (g.blk parentID) with
                  | none => rw [hp] at h; exact Option.noConfusion h
                  | some p =>
                      rw [hp, optSomeBind, optSomeBind] at h
                      dsimp only at h
                      have h2 := key
                        { s with parentLoop :=
                            Function.update s.parentLoop bn (some p.number) }
                        (if b.loopDepth + 1 < (stack ++ [bn]).length then
                          (stack ++ [bn]).take (b.loopDepth + 1) else stack ++ [bn])
                        b h
                      exact h2
            · rw [optGuardBindNeg hd] at h
              exact Option.noConfusion h
          · rw [if_neg hlh, optSomeBind] at h
            dsimp only at h
            have h2 := key s
              (if b.loopDepth + 1 < stack.length then
                stack.take (b.loopDepth + 1) else stack) b h
            exact h2



theorem optBindNoneOf {α β : Type} {x : Option α} {f : α → Option β}
    (h : ∀ a, x = some a → f a = none) : (x >>= f) = none := by
  cases x with
  | none => rfl
  | some a => rw [optSomeBind]; exact h a rfl

theorem optBindEqSome {α β : Type} {x : Option α} {f : α → Option β} {y : β}
    (h : (x >>= f) = some y) : ∃ a, x = some a ∧ f a = some y := by
  cases x with
  | none => exact Option.noConfusion h
  | some a => exact ⟨a, rfl, h⟩

/-- One step of the successor loop of `layerF` only grows the state. -/
theorem layerSuccStep_monoL (g : CFG) (fuel : Nat) (b : MIRBlock) (bn : Nat) (L : Int)
    (ihm : ∀ {s : LState} {bn : Nat} {L : Int} {s' : LState},
      layerF g fuel s bn L = some s' → MonoL g s s') :
    ∀ (t : LState) (c : Nat) (t' : LState),
      (do
        let cb ← g.blk c
        if cb.loopDepth < b.loopDepth then do
          let h ← asLH (g.blk (t.loopID bn))
          some { t with outgoingEdges :=
            Function.update t.outgoingEdges h.number (t.outgoingEdges h.number ++ [c]) }
        else
          layerF g fuel t c (L + 1)) = some t' → MonoL g t t' := by
  intro t c t' h
  obtain ⟨cb, hcb, h⟩ := optBindEqSome h
  by_cases hdep : cb.loopDepth < b.loopDepth
  · rw [if_pos hdep] at h
    obtain ⟨hh, hash, h⟩ := optBindEqSome h
    cases h
    refine ⟨fun x _ => le_refl _, ?_⟩
    intro hx
    by_cases hxh : hx = hh.number
    · rw [hxh]
      show t.outgoingEdges hh.number <+:
        Function.update t.outgoingEdges hh.number
          (t.outgoingEdges hh.number ++ [c]) hh.number
      rw [Function.update_same]
      exact ⟨[c], rfl⟩
    · show t.outgoingEdges hx <+:
        Function.update t.outgoingEdges hh.number (t.outgoingEdges hh.number ++ [c]) hx
      rw [Function.update_noteq hxh]
  · rw [if_neg hdep] at h
    exact ihm h

/-- `layerF` only grows the state: non-backedge layers never decrease and
`outgoingEdges` lists are only appended to. -/
theorem layerF_monoL (g : CFG) : ∀ (fuel : Nat) {s : LState} {bn : Nat} {L : Int}
    {s' : LState}, layerF g fuel s bn L = some s' → MonoL g s s' := by
  intro fuel
  induction fuel with
  | zero => intro s bn L s' h; simp [layerF] at h
  | succ fuel ih =>
      intro s bn L s' h
      rw [layerF] at h
      cases hb : g.blk bn with
      | none => rw [hb] at h; exact Option.noConfusion h
      | some b =>
          rw [hb, optSomeBind] at h
          by_cases hbe : b.isBackedge = true
          · rw [if_pos hbe] at h
            obtain ⟨s0, h0, h⟩ := optBindEqSome h
            cases h
            refine ⟨?_, fun _ => List.prefix_refl _⟩
            intro x hx
            obtain ⟨b', hb', hnb⟩ := hx
            by_cases hxbn : x = bn
            · subst hxbn
              rw [hb'] at hb
              injection hb with e
              rw [e] at hnb
              rw [hnb] at hbe
              exact absurd hbe (by simp)
            · show s.layer x ≤ Function.update s.layer bn (s.layer s0) x
              rw [Function.update_noteq hxbn]
          · rw [if_neg hbe] at h
            obtain ⟨h0, hal, h⟩ := optBindEqSome h
            obtain ⟨s2, hch, h⟩ := optBindEqSome h
            obtain ⟨s3, hfold, h⟩ := optBindEqSome h
            have m1 : MonoL g s { s with
                layer := Function.update s.layer bn (max (s.layer bn) L),
                numLayers := max (max (s.layer bn) L + 1) s.numLayers } := by
              refine ⟨?_, fun _ => List.prefix_refl _⟩
              intro x _hx
              by_cases hxbn : x = bn
              · subst hxbn
                show s.layer x ≤ Function.update s.layer x (max (s.layer x) L) x
                rw [Function.update_same]
                exact le_max_left _ _
              · show s.layer x ≤ Function.update s.layer bn (max (s.layer bn) L) x
                rw [Function.update_noteq hxbn]
            have hcs := chainF_spec hch
            have m2 : MonoL g { s with
                layer := Function.update s.layer bn (max (s.layer bn) L),
                numLayers := max (max (s.layer bn) L + 1) s.numLayers } s2 :=
              monoL_of_eq hcs.1 hcs.2.2.2.1
            have m3 : MonoL g s2 s3 :=
              foldlM_rel (R := MonoL g) (fun ha hb => monoL_trans ha hb) (monoL_rfl g)
                (fun t c t' _ ht =>
                  layerSuccStep_monoL g fuel b bn L (fun hx => ih hx) t c t' ht)
                hfold
            have m4 : MonoL g s3 s' := by
              by_cases hlh : b.isTrueLH = true
              · rw [if_pos hlh] at h
                exact liveOuts_rel (R := MonoL g) (fun ha hb => monoL_trans ha hb)
                  (monoL_rfl g) (fun t c t' ht => ih ht) h
              · rw [if_neg hlh] at h
                cases h
                exact monoL_rfl g _
            exact monoL_trans (monoL_trans (monoL_trans m1 m2) m3) m4



/-- `layerF` on a non-backedge block raises its layer to at least the
candidate layer `L`. -/
theorem layerF_lower (g : CFG) {fuel : Nat} {s : LState} {bn : Nat} {L : Int}
    {s' : LState} (h : layerF g fuel s bn L = some s') {b : MIRBlock}
    (hb : g.blk bn = some b) (hbe : b.isBackedge = false) : L ≤ s'.layer bn := by
  cases fuel with
  | zero => simp [layerF] at h
  | succ fuel =>
      rw [layerF] at h
      rw [hb, optSomeBind] at h
      rw [if_neg (by rw [hbe]; simp)] at h
      obtain ⟨h0, hal, h⟩ := optBindEqSome h
      obtain ⟨s2, hch, h⟩ := optBindEqSome h
      obtain ⟨s3, hfold, h⟩ := optBindEqSome h
      have hnb : isNBat g bn := ⟨b, hb, hbe⟩
      have e1 : max (s.layer bn) L ≤ s2.layer bn := by
        rw [(chainF_spec hch).1]
        show _ ≤ Function.update s.layer bn (max (s.layer bn) L) bn
        rw [Function.update_same]
      have m3 : MonoL g s2 s3 :=
        foldlM_rel (R := MonoL g) (fun ha hb => monoL_trans ha hb) (monoL_rfl g)
          (fun t c t' _ ht =>
            layerSuccStep_monoL g fuel b bn L (fun hx => layerF_monoL g fuel hx) t c t' ht)
          hfold
      have m4 : MonoL g s3 s' := by
        by_cases hlh : b.isTrueLH = true
        · rw [if_pos hlh] at h
          exact liveOuts_rel (R := MonoL g) (fun ha hb => monoL_trans ha hb)
            (monoL_rfl g) (fun t c t' ht => layerF_monoL g fuel ht) h
        · rw [if_neg hlh] at h
          cases h
          exact monoL_rfl g _
      calc L ≤ max (s.layer bn) L := le_max_right _ _
        _ ≤ s2.layer bn := e1
        _ ≤ s3.layer bn := m3.1 bn hnb
        _ ≤ s'.layer bn := m4.1 bn hnb

/-- After a successful run of the successor loop of `layerF` at candidate
`L`, every non-backedge, non-loop-exit successor has layer at least `L+1`. -/
theorem layerSuccFold_bound (g : CFG) (fuel : Nat) (b : MIRBlock) (bn : Nat) (L : Int) :
    ∀ (cs : List Nat) (t t' : LState),
      cs.foldlM (fun s c => do
          let cb ← g.blk c
          if cb.loopDepth < b.loopDepth then do
            let h ← asLH (g.blk (s.loopID bn))
            some { s with outgoingEdges :=
              Function.update s.outgoingEdges h.number (s.outgoingEdges h.number ++ [c]) }
          else
            layerF g fuel s c (L + 1)) t = some t' →
      ∀ c cb, c ∈ cs → g.blk c = some cb → cb.isBackedge = false →
        ¬ (cb.loopDepth < b.loopDepth) → L + 1 ≤ t'.layer c := by
  intro cs
  induction cs with
  | nil => intro t t' _ c cb hmem; exact absurd hmem (List.not_mem_nil c)
  | cons c0 cs ih =>
      intro t t' hfold c cb hmem hcb hcbe hdep
      rw [List.foldlM_cons] at hfold
      obtain ⟨t1, hstep, hfold⟩ := optBindEqSome hfold
      have mrest : MonoL g t1 t' :=
        foldlM_rel (R := MonoL g) (fun ha hb => monoL_trans ha hb) (monoL_rfl g)
          (fun u c' u' _ hu =>
            layerSuccStep_monoL g fuel b bn L (fun hx => layerF_monoL g fuel hx) u c' u' hu)
          hfold
      rcases List.mem_cons.mp hmem with hc0 | hmem'
      · subst hc0
        rw [hcb, optSomeBind] at hstep
        rw [if_neg hdep] at hstep
        have h1 : L + 1 ≤ t1.layer c := layerF_lower g hstep hcb hcbe
        exact le_trans h1 (mrest.1 c ⟨cb, hcb, hcbe⟩)
      · exact ih t1 t' hfold c cb hmem' hcb hcbe hdep



theorem good_rfl (g : CFG) (s : LState) : Good g s s :=
  ⟨monoL_rfl g s, fun _ _ _ hlt => absurd hlt (lt_irrefl _)⟩

theorem good_trans {g : CFG} {s1 s2 s3 : LState} (h12 : Good g s1 s2)
    (h23 : Good g s2 s3) : Good g s1 s3 := by
  refine ⟨monoL_trans h12.1 h23.1, ?_⟩
  intro un vn hc hraise
  by_cases h2 : s2.layer un < s3.layer un
  · exact h23.2 un vn hc h2
  · obtain ⟨u, v, hu, hv, he', hub, hvb, hd'⟩ := hc
    have hnu : isNBat g un := ⟨u, hu, hub⟩
    have hnv : isNBat g vn := ⟨v, hv, hvb⟩
    have e : s3.layer un = s2.layer un :=
      le_antisymm (not_lt.mp h2) (h23.1.1 un hnu)
    rw [e] at hraise ⊢
    exact lt_of_lt_of_le (h12.2 un vn ⟨u, v, hu, hv, he', hub, hvb, hd'⟩ hraise)
      (h23.1.1 vn hnv)

theorem good_of_layer_eq {g : CFG} {s s' : LState} (hl : s'.layer = s.layer)
    (hm : MonoL g s s') : Good g s s' :=
  ⟨hm, fun un _ _ hraise => absurd hraise (by rw [hl]; exact lt_irrefl _)⟩

/-- One step of the successor loop of `layerF` is `Good`. -/
theorem layerSuccStep_good (g : CFG) (fuel : Nat) (b : MIRBlock) (bn : Nat) (L : Int)
    (ihm : ∀ {s : LState} {bn : Nat} {L : Int} {s' : LState},
      layerF g fuel s bn L = some s' → Good g s s') :
    ∀ (t : LState) (c : Nat) (t' : LState),
      (do
        let cb ← g.blk c
        if cb.loopDepth < b.loopDepth then do
          let h ← asLH (g.blk (t.loopID bn))
          some { t with outgoingEdges :=
            Function.update t.outgoingEdges h.number (t.outgoingEdges h.number ++ [c]) }
        else
          layerF g fuel t c (L + 1)) = some t' → Good g t t' := by
  intro t c t' h
  have hm : MonoL g t t' :=
    layerSuccStep_monoL g fuel b bn L (fun hx => (ihm hx).1) t c t' h
  obtain ⟨cb, hcb, h⟩ := optBindEqSome h
  by_cases hdep : cb.loopDepth < b.loopDepth
  · rw [if_pos hdep] at h
    obtain ⟨hh, hash, h⟩ := optBindEqSome h
    cases h
    exact good_of_layer_eq rfl hm
  · rw [if_neg hdep] at h
    exact ihm h

/-- `layerF` satisfies the invariant `Good`. -/
theorem layerF_good (g : CFG) : ∀ (fuel : Nat) {s : LState} {bn : Nat} {L : Int}
    {s' : LState}, layerF g fuel s bn L = some s' → Good g s s' := by
  intro fuel
  induction fuel with
  | zero => intro s bn L s' h; simp [layerF] at h
  | succ fuel ih =>
      intro s bn L s' h
      have hmono : MonoL g s s' := layerF_monoL g (fuel + 1) h
      rw [layerF] at h
      cases hb : g.blk bn with
      | none => rw [hb] at h; exact Option.noConfusion h
      | some b =>
          rw [hb, optSomeBind] at h
          by_cases hbe : b.isBackedge = true
          · rw [if_pos hbe] at h
            obtain ⟨s0, h0, h⟩ := optBindEqSome h
            cases h
            refine ⟨hmono, ?_⟩
            intro un vn hc hraise
            obtain ⟨u, v, hu, hv, _, hub, _, _⟩ := hc
            have hne : un ≠ bn := by
              intro e
              rw [e, hb] at hu
              injection hu with e2
              rw [e2] at hbe
              rw [hub] at hbe
              exact Bool.noConfusion hbe
            exact absurd hraise (by
              show ¬ s.layer un < Function.update s.layer bn (s.layer s0) un
              rw [Function.update_noteq hne]
              exact lt_irrefl _)
          · rw [if_neg hbe] at h
            obtain ⟨h0, hal, h⟩ := optBindEqSome h
            obtain ⟨s2, hch, h⟩ := optBindEqSome h
            obtain ⟨s3, hfold, h⟩ := optBindEqSome h
            have hcs := chainF_spec hch
            have g23 : Good g s2 s3 :=
              foldlM_rel (R := Good g) (fun ha hb => good_trans ha hb) (good_rfl g)
                (fun t c t' _ ht =>
                  layerSuccStep_good g fuel b bn L (fun hx => ih hx) t c t' ht)
                hfold
            have g34 : Good g s3 s' := by
              by_cases hlh : b.isTrueLH = true
              · rw [if_pos hlh] at h
                exact liveOuts_rel (R := Good g) (fun ha hb => good_trans ha hb)
                  (good_rfl g) (fun t c t' ht => ih ht) h
              · rw [if_neg hlh] at h
                cases h
                exact good_rfl g _
            have g2' : Good g s2 s' := good_trans g23 g34
            refine ⟨hmono, ?_⟩
            intro un vn hc hraise
            obtain ⟨u, v, hu, hv, hedge, hub, hvb, hdepth⟩ := hc
            have hnu : isNBat g un := ⟨u, hu, hub⟩
            have hnv : isNBat g vn := ⟨v, hv, hvb⟩
            by_cases hun : un = bn
            · subst hun
              have hub2 : u = b := by rw [hu] at hb; injection hb
              by_cases hr2 : s2.layer un < s'.layer un
              · exact g2'.2 un vn ⟨u, v, hu, hv, hedge, hub, hvb, hdepth⟩ hr2
              · have e2 : s'.layer un = s2.layer un :=
                  le_antisymm (not_lt.mp hr2) (g2'.1.1 un hnu)
                have e3 : s2.layer un = max (s.layer un) L := by
                  rw [hcs.1]
                  show Function.update s.layer un (max (s.layer un) L) un = _
                  rw [Function.update_same]
                have e4 : s'.layer un = L := by
                  rw [e2, e3]
                  rw [e2, e3] at hraise
                  rcases max_cases (s.layer un) L with ⟨hm1, _⟩ | ⟨hm1, _⟩
                  · rw [hm1] at hraise; exact absurd hraise (lt_irrefl _)
                  · exact hm1
                have hb5 : L + 1 ≤ s3.layer vn := by
                  refine layerSuccFold_bound g fuel b un L b.successors s2 s3 hfold vn v ?_ hv hvb ?_
                  · rw [← hub2]; exact hedge
                  · rw [← hub2]; exact not_lt.mpr hdepth
                have hb6 : s3.layer vn ≤ s'.layer vn := g34.1.1 vn hnv
                rw [e4]
                omega
            · have e : s2.layer un = s.layer un := by
                rw [hcs.1]
                show Function.update s.layer bn (max (s.layer bn) L) un = _
                rw [Function.update_noteq hun]
              refine g2'.2 un vn ⟨u, v, hu, hv, hedge, hub, hvb, hdepth⟩ ?_
              rw [e]
              exact lt_of_lt_of_le hraise (le_refl _)



/-- `findLoopsRootF` also writes only `parentLoop` and `loopID`. -/
theorem findLoopsRootF_spec (g : CFG) {fuel : Nat} {s : LState} {bn : Nat}
    {s' : LState} (h : findLoopsRootF g fuel s bn = some s') :
    s'.layer = s.layer ∧ s'.loopHeight = s.loopHeight ∧
      s'.outgoingEdges = s.outgoingEdges ∧ s'.numLayers = s.numLayers := by
  rw [findLoopsRootF] at h
  exact findLoopsF_spec g fuel h

/-- The classification/layering walk over all roots satisfies `Good` from
the initial state. -/
theorem layoutWalk_good (g : CFG) {fuel : Nat} {s' : LState}
    (h : layoutWalk g fuel = some s') : Good g initState s' := by
  unfold layoutWalk at h
  exact foldlM_rel (R := Good g) (fun ha hb => good_trans ha hb) (good_rfl g)
    (fun t r t' _ ht => by
      obtain ⟨t1, hfl, ht⟩ := optBindEqSome ht
      have hspec := findLoopsRootF_spec g hfl
      exact good_trans (good_of_layer_eq hspec.1 (monoL_of_eq hspec.1 hspec.2.2.1))
        (layerF_good g fuel ht)) h

/-- **C1, amended.** For every pass satisfying the claim's hypotheses, after
the layering phase finishes, every graph edge `(un, vn)` whose endpoints both
lack the `backedge` attribute, whose target does not exit the source's loop
(`v.loopDepth ≥ u.loopDepth`), and whose source was reached by the walk
(`layer ≥ 0`), satisfies `layer un < layer vn`. -/
theorem nonbackedge_forward_edge_layers (g : CFG) (fuel : Nat) (s : LState)
    (hw : layoutWalk g fuel = some s) (hob : OneBackedgePerHeader g)
    (rank : Nat → Nat) (hra : RankedAcyclic g rank)
    (un vn : Nat) (u v : MIRBlock)
    (hu : g.blk un = some u) (hv : g.blk vn = some v)
    (hedge : vn ∈ u.successors) (hub : u.isBackedge = false)
    (hvb : v.isBackedge = false) (hdepth : u.loopDepth ≤ v.loopDepth)
    (hlay : 0 ≤ s.layer un) :
    s.layer un < s.layer vn := by
  have hg := layoutWalk_good g hw
  refine hg.2 un vn ⟨u, v, hu, hv, hedge, hub, hvb, hdepth⟩ ?_
  show initState.layer un < s.layer un
  have : initState.layer un = -1 := rfl
  omega

/-- Witness for `nonbackedge_forward_edge_layers`: in `gLoop`, the edge
`0 → 1` gets `layer 0 = 0 < 1 = layer 1`. -/
theorem nonbackedge_forward_edge_layers_witness :
    (layoutWalk gLoop 100).map (fun s => decide (s.layer 0 < s.layer 1)) =
      some true := by
  have e0 : (layoutWalk gLoop 100).map (fun s => s.layer 0) = some 0 := by decide
  cases hw : layoutWalk gLoop 100 with
  | none => rw [hw] at e0; exact Option.noConfusion e0
  | some s =>
      rw [hw] at e0
      simp only [Option.map_some', Option.some.injEq] at e0
      have h := nonbackedge_forward_edge_layers gLoop 100 s hw
        (by unfold OneBackedgePerHeader; decide) rankLoop
        (by unfold RankedAcyclic; decide) 0 1
        (mkBlock 0 0 [] [] [1]) (mkBlock 1 1 ["loopheader"] [0, 3] [2, 4])
        (by decide) (by decide) (by decide) (by decide) (by decide) (by decide)
        (by omega)
      simp only [Option.map_some', Option.some.injEq]
      exact decide_eq_true h



/-- Looked-up blocks carry the queried number. -/
theorem blk_number {g : CFG} {n : Nat} {b : MIRBlock} (h : g.blk n = some b) :
    b.number = n := by
  unfold CFG.blk at h
  have h2 := List.find?_some h
  simpa using h2

theorem asLH_eq_some {ob : Option MIRBlock} {hh : MIRBlock}
    (h : asLH ob = some hh) : ob = some hh := by
  cases ob with
  | none => exact Option.noConfusion h
  | some b =>
      unfold asLH at h
      simp only [Option.some_bind'] at h
      by_cases hl : b.isLH = true
      · rw [if_pos hl] at h
        exact h
      · rw [if_neg hl] at h
        exact Option.noConfusion h

/-- `layerF` never writes `loopID` or `parentLoop`. -/
theorem layerF_fields (g : CFG) : ∀ (fuel : Nat) {s : LState} {bn : Nat} {L : Int}
    {s' : LState}, layerF g fuel s bn L = some s' →
    s'.loopID = s.loopID ∧ s'.parentLoop = s.parentLoop := by
  intro fuel
  induction fuel with
  | zero => intro s bn L s' h; simp [layerF] at h
  | succ fuel ih =>
      intro s bn L s' h
      rw [layerF] at h
      cases hb : g.blk bn with
      | none => rw [hb] at h; exact Option.noConfusion h
      | some b =>
          rw [hb, optSomeBind] at h
          by_cases hbe : b.isBackedge = true
          · rw [if_pos hbe] at h
            obtain ⟨s0, h0, h⟩ := optBindEqSome h
            cases h
            exact ⟨rfl, rfl⟩
          · rw [if_neg hbe] at h
            obtain ⟨h0, hal, h⟩ := optBindEqSome h
            obtain ⟨s2, hch, h⟩ := optBindEqSome h
            obtain ⟨s3, hfold, h⟩ := optBindEqSome h
            have hcs := chainF_spec hch
            have e23 : s3.loopID = s2.loopID ∧ s3.parentLoop = s2.parentLoop :=
              foldlM_rel (R := fun a b => b.loopID = a.loopID ∧ b.parentLoop = a.parentLoop)
                (fun h1 h2 => ⟨h2.1.trans h1.1, h2.2.trans h1.2⟩) (fun a => ⟨rfl, rfl⟩)
                (fun t c t' _ ht => by
                  obtain ⟨cb, hcb, ht⟩ := optBindEqSome ht
                  by_cases hdep : cb.loopDepth < b.loopDepth
                  · rw [if_pos hdep] at ht
                    obtain ⟨hh, hash, ht⟩ := optBindEqSome ht
                    cases ht
                    exact ⟨rfl, rfl⟩
                  · rw [if_neg hdep] at ht
                    exact ih ht) hfold
            have e3' : s'.loopID = s3.loopID ∧ s'.parentLoop = s3.parentLoop := by
              by_cases hlh : b.isTrueLH = true
              · rw [if_pos hlh] at h
                exact liveOuts_rel
                  (R := fun a b => b.loopID = a.loopID ∧ b.parentLoop = a.parentLoop)
                  (fun h1 h2 => ⟨h2.1.trans h1.1, h2.2.trans h1.2⟩) (fun a => ⟨rfl, rfl⟩)
                  (fun t c t' ht => ih ht) h
              · rw [if_neg hlh] at h
                cases h
                exact ⟨rfl, rfl⟩
            have e2 : s2.loopID = s.loopID ∧ s2.parentLoop = s.parentLoop :=
              ⟨hcs.2.1, hcs.2.2.1⟩
            exact ⟨(e3'.1.trans e23.1).trans e2.1, (e3'.2.trans e23.2).trans e2.2⟩

/-- Through a successful run of the successor loop of `layerF`, every
loop-exit successor ends up recorded in the enclosing header's
`outgoingEdges`. -/
theorem layerSuccFold_defer (g : CFG) (fuel : Nat) (b : MIRBlock) (bn : Nat) (L : Int) :
    ∀ (cs : List Nat) (t t' : LState),
      cs.foldlM (fun s c => do
          let cb ← g.blk c
          if cb.loopDepth < b.loopDepth then do
            let h ← asLH (g.blk (s.loopID bn))
            some { s with outgoingEdges :=
              Function.update s.outgoingEdges h.number (s.outgoingEdges h.number ++ [c]) }
          else
            layerF g fuel s c (L + 1)) t = some t' →
      ∀ c cb, c ∈ cs → g.blk c = some cb → cb.loopDepth < b.loopDepth →
        c ∈ t'.outgoingEdges (t.loopID bn) := by
  intro cs
  induction cs with
  | nil => intro t t' _ c cb hmem; exact absurd hmem (List.not_mem_nil c)
  | cons c0 cs ih =>
      intro t t' hfold c cb hmem hcb hdep
      rw [List.foldlM_cons] at hfold
      obtain ⟨t1, hstep, hfold⟩ := optBindEqSome hfold
      have mrest : MonoL g t1 t' :=
        foldlM_rel (R := MonoL g) (fun ha hb => monoL_trans ha hb) (monoL_rfl g)
          (fun u c' u' _ hu =>
            layerSuccStep_monoL g fuel b bn L (fun hx => layerF_monoL g fuel hx) u c' u' hu)
          hfold
      rcases List.mem_cons.mp hmem with hc0 | hmem'
      · subst hc0
        rw [hcb, optSomeBind] at hstep
        rw [if_pos hdep] at hstep
        obtain ⟨hh, hash, hstep⟩ := optBindEqSome hstep
        cases hstep
        have hnum : hh.number = t.loopID bn := blk_number (asLH_eq_some hash)
        have hmem1 : c ∈ Function.update t.outgoingEdges hh.number
            (t.outgoingEdges hh.number ++ [c]) (t.loopID bn) := by
          rw [← hnum, Function.update_same]
          exact List.mem_append_right _ (List.mem_singleton.mpr rfl)
        exact (mrest.2 (t.loopID bn)).subset hmem1
      · -- the first step does not change `loopID`
        have e1 : t1.loopID = t.loopID := by
          obtain ⟨cb0, hcb0, hstep⟩ := optBindEqSome hstep
          by_cases hdep0 : cb0.loopDepth < b.loopDepth
          · rw [if_pos hdep0] at hstep
            obtain ⟨hh, hash, hstep⟩ := optBindEqSome hstep
            cases hstep
            rfl
          · rw [if_neg hdep0] at hstep
            exact (layerF_fields g fuel hstep).1
        have h2 := ih t1 t' hfold c cb hmem' hcb hdep
        rw [e1] at h2
        exact h2

/-- **C2, amended (deferral part).** When the layering walk visits a
non-backedge block `bn` and `vn` is a successor with strictly smaller
`loopDepth` (a loop exit), the walk does not layer `vn` from `bn`; it
appends `vn` to the `outgoingEdges` of `bn`'s enclosing loop header
(`loopID bn`), from which true headers later layer their deferred
successors. -/
theorem loop_exit_is_deferred (g : CFG) (fuel : Nat) (s : LState) (bn : Nat)
    (L : Int) (s' : LState) (h : layerF g (fuel + 1) s bn L = some s')
    (b : MIRBlock) (hb : g.blk bn = some b) (hbe : b.isBackedge = false)
    (vn : Nat) (v : MIRBlock) (hv : g.blk vn = some v) (hedge : vn ∈ b.successors)
    (hdep : v.loopDepth < b.loopDepth) :
    vn ∈ s'.outgoingEdges (s.loopID bn) := by
  rw [layerF] at h
  rw [hb, optSomeBind] at h
  rw [if_neg (by rw [hbe]; simp)] at h
  obtain ⟨h0, hal, h⟩ := optBindEqSome h
  obtain ⟨s2, hch, h⟩ := optBindEqSome h
  obtain ⟨s3, hfold, h⟩ := optBindEqSome h
  have hcs := chainF_spec hch
  have e2 : s2.loopID bn = s.loopID bn := by rw [hcs.2.1]
  have hmem3 : vn ∈ s3.outgoingEdges (s.loopID bn) := by
    have h2 := layerSuccFold_defer g fuel b bn L b.successors s2 s3 hfold vn v hedge hv hdep
    rw [e2] at h2
    exact h2
  have m4 : MonoL g s3 s' := by
    by_cases hlh : b.isTrueLH = true
    · rw [if_pos hlh] at h
      exact liveOuts_rel (R := MonoL g) (fun ha hb => monoL_trans ha hb)
        (monoL_rfl g) (fun t c t' ht => layerF_monoL g fuel ht) h
    · rw [if_neg hlh] at h
      cases h
      exact monoL_rfl g _
  exact (m4.2 (s.loopID bn)).subset hmem3




theorem loop_exit_is_deferred_witness :
    (layerF gLoop 20 sExit 1 0).map (fun t => decide (4 ∈ t.outgoingEdges 1)) =
      some true := by
  have hs : (layerF gLoop 20 sExit 1 0).isSome = true := by decide
  cases hw : layerF gLoop 20 sExit 1 0 with
  | none => rw [hw] at hs; exact Bool.noConfusion hs
  | some t =>
      have h := loop_exit_is_deferred gLoop 19 sExit 1 0 t hw
        (mkBlock 1 1 ["loopheader"] [0, 3] [2, 4]) (by decide) (by decide)
        4 (mkBlock 4 0 [] [1] []) (by decide) (by decide) (by decide)
      have e : sExit.loopID 1 = 1 := by decide
      rw [e] at h
      simp only [Option.map_some', Option.some.injEq]
      exact decide_eq_true h


/-- **C6.** During layering, a block carrying the `backedge` attribute is
assigned the layer of its first successor (its loop header) and the walk does
not recurse through it: `layerF` returns at once, its only effect being that
single layer write, and the candidate layer `L` is ignored (a backedge's
layer is never assigned independently). -/
theorem backedge_layer_from_header (g : CFG) (fuel : Nat) (s : LState)
    (bn : Nat) (L : Int) (b : MIRBlock) (hb : g.blk bn = some b)
    (hbe : b.isBackedge = true) :
    layerF g (fuel + 1) s bn L =
      (b.successors[0]?).map
        (fun s0 => { s with layer := Function.update s.layer bn (s.layer s0) }) := by
  cases h0 : b.successors[0]? <;> simp [layerF, hb, hbe, h0]

/-- Witness for `backedge_layer_from_header`: block 3 of `gLoop` is a
backedge; one step of `layerF` on it copies the layer of its successor 1. -/
theorem backedge_layer_from_header_witness :
    layerF gLoop 5 initState 3 0 =
      some { initState with
             layer := Function.update initState.layer 3 (initState.layer 1) } := by
  have h := backedge_layer_from_header gLoop 4 initState 3 0
    (mkBlock 3 1 ["backedge"] [2] [1]) (by decide) (by decide)
  simpa using h

/-- **C8.** For a synthetic loop header (a CFG root, with no predecessors),
reading the `backedge` field raises an error — the getter installed by
`Graph.layout` throws — so the read never returns a value, regardless of
anything the constructor stored. -/
theorem pseudo_header_backedge_raises (g : CFG) (m : Nat → Option Nat)
    (bn : Nat) (b : MIRBlock) (hb : g.blk bn = some b)
    (hroot : b.predecessors.isEmpty = true) :
    readBackedge g m bn = none := by
  simp [readBackedge, hb, hroot]

/-- Witness for `pseudo_header_backedge_raises` at root 0 of `gLoop`, with a
store that maps every block to a value. -/
theorem pseudo_header_backedge_raises_witness :
    readBackedge gLoop (fun _ => some 3) 0 = none :=
  pseudo_header_backedge_raises gLoop (fun _ => some 3) 0
    (mkBlock 0 0 [] [] [1]) (by decide) (by decide)

/-- **C1, counterexample.** The pass `gLoop` satisfies the claim's
hypotheses (each true loop header has exactly one backedge predecessor, and
a rank function witnesses that every cycle passes through a backedge block),
yet after layering finishes the edge from non-backedge block 2 to block 3
has `layer 2 = 2 ≥ 1 = layer 3`: not every edge out of a non-backedge block
goes to a strictly greater layer. -/
theorem nonbackedge_edge_layer_counterexample :
    OneBackedgePerHeader gLoop ∧ RankedAcyclic gLoop rankLoop ∧
    ¬ (∀ fuel s, layoutWalk gLoop fuel = some s →
        ∀ un u vn, gLoop.blk un = some u → u.isBackedge = false →
          vn ∈ u.successors → s.layer un < s.layer vn) := by
  refine ⟨by unfold OneBackedgePerHeader; decide, by unfold RankedAcyclic; decide,
    fun h => ?_⟩
  have e : (layoutWalk gLoop 100).map (fun s => (s.layer 2, s.layer 3)) =
      some (2, 1) := by decide
  cases hw : layoutWalk gLoop 100 with
  | none => rw [hw] at e; exact Option.noConfusion e
  | some s =>
      rw [hw] at e
      have h23 := h 100 s hw 2 (mkBlock 2 1 [] [1] [3]) 3
        (by decide) (by decide) (by decide)
      simp only [Option.map_some', Option.some.injEq, Prod.mk.injEq] at e
      rw [e.1, e.2] at h23
      exact absurd h23 (by decide)

/-- **C2, counterexample.** The pass `gCE` satisfies the same hypotheses,
yet block 2 (whose enclosing loop header is `loopID 2 = 1`) has the loop
exit successor 5 (`loopDepth 0 < 1`), and after layering
`layer 5 = 8 < 12 = layer 1 + loopHeight 1`: a deferred loop exit can end up
above `h.layer + h.loopHeight`. -/
theorem loop_exit_layer_counterexample :
    OneBackedgePerHeader gCE ∧ RankedAcyclic gCE rankCE ∧
    ¬ (∀ fuel s, layoutWalk gCE fuel = some s →
        ∀ un u vn v, gCE.blk un = some u → gCE.blk vn = some v →
          vn ∈ u.successors → v.loopDepth < u.loopDepth →
          s.layer (s.loopID un) + s.loopHeight (s.loopID un) ≤ s.layer vn) := by
  refine ⟨by unfold OneBackedgePerHeader; decide, by unfold RankedAcyclic; decide,
    fun h => ?_⟩
  have e : (layoutWalk gCE 100).map
      (fun s => (s.loopID 2, s.layer 1, s.loopHeight 1, s.layer 5)) =
      some (1, 6, 6, 8) := by decide
  cases hw : layoutWalk gCE 100 with
  | none => rw [hw] at e; exact Option.noConfusion e
  | some s =>
      rw [hw] at e
      have h25 := h 100 s hw 2 (mkBlock 2 1 [] [1, 6] [3, 5])
        5 (mkBlock 5 0 [] [2] []) (by decide) (by decide) (by decide) (by decide)
      simp only [Option.map_some', Option.some.injEq, Prod.mk.injEq] at e
      rw [e.1, e.2.1, e.2.2.1, e.2.2.2] at h25
      exact absurd h25 (by decide)


theorem mustAll_filterMap (g : CFG) : ∀ {l : List Nat} {ps : List MIRBlock},
    mustAll g l = some ps → l.filterMap g.blk = ps := by
  intro l
  induction l with
  | nil => intro ps h; rw [mustAll] at h; cases h; rfl
  | cons n ns ih =>
      intro ps h
      rw [mustAll] at h
      obtain ⟨b, hb, h⟩ := optBindEqSome h
      obtain ⟨bs, hbs, h⟩ := optBindEqSome h
      cases h
      simp [List.filterMap_cons, hb, ih hbs]

theorem initBackedges_none_aux (g : CFG) (b : MIRBlock) (hlh : b.isTrueLH = true)
    (hcount : ((b.predecessors.filterMap g.blk).filter
      (fun p => p.isBackedge)).length ≠ 1) :
    ∀ (l : List MIRBlock) (m0 : Nat → Option Nat), b ∈ l →
      l.foldlM (fun m b => do
          let preds ← mustAll g b.predecessors
          let _ ← mustAll g b.successors
          if b.isTrueLH then do
            let backedges := preds.filter (fun p => p.isBackedge)
            guard (backedges.length = 1)
            let be ← backedges[0]?
            some (Function.update m b.number (some be.number))
          else
            some m) m0 = none := by
  intro l
  induction l with
  | nil => intro m0 hmem; exact absurd hmem (List.not_mem_nil b)
  | cons hd tl ih =>
      intro m0 hmem
      rw [List.foldlM_cons]
      rcases List.mem_cons.mp hmem with hb | hmem'
      · subst hb
        cases hma : mustAll g b.predecessors with
        | none => rfl
        | some ps =>
            rw [optSomeBind]
            cases hms : mustAll g b.successors with
            | none => rfl
            | some qs =>
                rw [optSomeBind, if_pos hlh]
                rw [mustAll_filterMap g hma] at hcount
                rw [optGuardBindNeg hcount]
                rfl
      · exact optBindNoneOf (fun m1 _ => ih m1 hmem')

theorem initBackedges_frame (g : CFG) :
    ∀ (l : List MIRBlock) (m0 m : Nat → Option Nat),
      l.foldlM (fun m b => do
          let preds ← mustAll g b.predecessors
          let _ ← mustAll g b.successors
          if b.isTrueLH then do
            let backedges := preds.filter (fun p => p.isBackedge)
            guard (backedges.length = 1)
            let be ← backedges[0]?
            some (Function.update m b.number (some be.number))
          else
            some m) m0 = some m →
      ∀ n, (∀ b ∈ l, n ≠ b.number) → m n = m0 n := by
  intro l
  induction l with
  | nil =>
      intro m0 m h n _
      simp only [List.foldlM_nil, pure, Option.some.injEq] at h
      rw [← h]
  | cons hd tl ih =>
      intro m0 m h n hn
      rw [List.foldlM_cons] at h
      obtain ⟨m1, hstep, h⟩ := optBindEqSome h
      have e1 : m1 n = m0 n := by
        obtain ⟨ps, hps, hstep⟩ := optBindEqSome hstep
        obtain ⟨qs, hqs, hstep⟩ := optBindEqSome hstep
        by_cases hlh : hd.isTrueLH = true
        · rw [if_pos hlh] at hstep
          by_cases hg : (ps.filter (fun p => p.isBackedge)).length = 1
          · rw [optGuardBindPos hg] at hstep
            obtain ⟨be, hbe, hstep⟩ := optBindEqSome hstep
            cases hstep
            exact Function.update_noteq (hn hd (List.mem_cons_self hd tl)) _ _
          · rw [optGuardBindNeg hg] at hstep
            exact Option.noConfusion hstep
        · rw [if_neg hlh] at hstep
          cases hstep
          rfl
      rw [ih m1 m h n (fun b hb => hn b (List.mem_cons_of_mem hd hb)), e1]

theorem initBackedges_assign_aux (g : CFG) (b p : MIRBlock)
    (hlh : b.isTrueLH = true)
    (hfilter : (b.predecessors.filterMap g.blk).filter (fun q => q.isBackedge) = [p]) :
    ∀ (l : List MIRBlock) (m0 m : Nat → Option Nat),
      l.foldlM (fun m b => do
          let preds ← mustAll g b.predecessors
          let _ ← mustAll g b.successors
          if b.isTrueLH then do
            let backedges := preds.filter (fun p => p.isBackedge)
            guard (backedges.length = 1)
            let be ← backedges[0]?
            some (Function.update m b.number (some be.number))
          else
            some m) m0 = some m →
      (l.map MIRBlock.number).Nodup → b ∈ l → m b.number = some p.number := by
  intro l
  induction l with
  | nil => intro m0 m _ _ hmem; exact absurd hmem (List.not_mem_nil b)
  | cons hd tl ih =>
      intro m0 m h hnd hmem
      rw [List.foldlM_cons] at h
      obtain ⟨m1, hstep, h⟩ := optBindEqSome h
      rcases List.mem_cons.mp hmem with hb | hmem'
      · subst hb
        obtain ⟨ps, hps, hstep⟩ := optBindEqSome hstep
        obtain ⟨qs, hqs, hstep⟩ := optBindEqSome hstep
        rw [if_pos hlh] at hstep
        rw [mustAll_filterMap g hps] at hfilter
        have hlen : (ps.filter (fun q => q.isBackedge)).length = 1 := by
          rw [hfilter]; rfl
        rw [optGuardBindPos hlen] at hstep
        rw [hfilter] at hstep
        simp only [List.getElem?_cons_zero, optSomeBind] at hstep
        cases hstep
        have hfr := initBackedges_frame g tl _ m h b.number (fun b' hb' => by
          intro e
          have h1 : b.number ∈ tl.map MIRBlock.number := by
            rw [e]; exact List.mem_map_of_mem MIRBlock.number hb'
          have h2 := (List.nodup_cons.mp hnd).1
          exact h2 h1)
        rw [hfr, Function.update_same]
      · have hnd' := (List.nodup_cons.mp hnd).2
        exact ih m1 m h hnd' hmem'

/-- **C3.** For every pass containing a true loop header whose number of
backedge-attributed predecessors is not exactly one, the constructor's
reference-resolution loop aborts with an error (so no geometry is ever
produced); when the count is exactly one, that predecessor becomes the
header's `backedge` field. -/
theorem header_backedge_check (g : CFG) :
    (∀ b ∈ g.blocks, b.isTrueLH = true →
      ((b.predecessors.filterMap g.blk).filter (fun p => p.isBackedge)).length ≠ 1 →
      initBackedges g = none) ∧
    (∀ m, initBackedges g = some m →
      (g.blocks.map MIRBlock.number).Nodup →
      ∀ b ∈ g.blocks, b.isTrueLH = true →
        ∀ p, (b.predecessors.filterMap g.blk).filter (fun q => q.isBackedge) = [p] →
          m b.number = some p.number) := by
  constructor
  · intro b hmem hlh hcount
    exact initBackedges_none_aux g b hlh hcount g.blocks _ hmem
  · intro m h hnd b hmem hlh p hfilter
    exact initBackedges_assign_aux g b p hlh hfilter g.blocks _ m h hnd hmem

/-- Witness for `header_backedge_check`: in `gBad` the header (block 1) has
no backedge predecessor and construction aborts; in `gLoop` the header's
`backedge` field becomes its unique backedge predecessor, block 3. -/
theorem header_backedge_check_witness :
    initBackedges gBad = none ∧
    (initBackedges gLoop).map (fun m => m 1) = some (some 3) := by
  constructor
  · exact (header_backedge_check gBad).1 (mkBlock 1 1 ["loopheader"] [0] [])
      (by decide) (by decide) (by decide)
  · have hs : (initBackedges gLoop).isSome = true := by decide
    cases hw : initBackedges gLoop with
    | none => rw [hw] at hs; exact Bool.noConfusion hs
    | some m =>
        have h := (header_backedge_check gLoop).2 m hw (by decide)
          (mkBlock 1 1 ["loopheader"] [0, 3] [2, 4]) (by decide) (by decide)
          (mkBlock 3 1 ["backedge"] [2] [1]) (by decide)
        simp only [Option.map_some', Option.some.injEq]
        exact h



theorem jointsOverlap_comm (a b : Joint) : jointsOverlap a b = jointsOverlap b a := by
  unfold jointsOverlap
  exact Bool.and_comm _ _

theorem checkTrack_clean {j : Joint} : ∀ {T : List Joint}, checkTrack j T = .clean →
    ∀ k ∈ T, j.dst ≠ k.dst ∧ jointsOverlap j k = false := by
  intro T
  induction T with
  | nil => intro _ k hk; exact absurd hk (List.not_mem_nil k)
  | cons t ts ih =>
      intro h k hk
      rw [checkTrack] at h
      by_cases hd : j.dst = t.dst
      · rw [if_pos hd] at h; exact TrackCheck.noConfusion h
      · rw [if_neg hd] at h
        by_cases ho : jointsOverlap j t = true
        · rw [if_pos ho] at h; exact TrackCheck.noConfusion h
        · rw [if_neg ho] at h
          rcases List.mem_cons.mp hk with he | hm
          · subst he; exact ⟨hd, Bool.not_eq_true _ ▸ ho⟩
          · exact ih h k hm

theorem checkTrack_merge {j : Joint} : ∀ {T : List Joint}, checkTrack j T = .merge →
    ∃ k ∈ T, k.dst = j.dst := by
  intro T
  induction T with
  | nil => intro h; exact TrackCheck.noConfusion h
  | cons t ts ih =>
      intro h
      rw [checkTrack] at h
      by_cases hd : j.dst = t.dst
      · exact ⟨t, List.mem_cons_self t ts, hd.symm⟩
      · rw [if_neg hd] at h
        by_cases ho : jointsOverlap j t = true
        · rw [if_pos ho] at h; exact TrackCheck.noConfusion h
        · rw [if_neg ho] at h
          obtain ⟨k, hk, he⟩ := ih h
          exact ⟨k, List.mem_cons_of_mem t hk, he⟩

theorem append_singleton_eq {α : Type} :
    ∀ (T pre : List α) (j j2 : α) (post : List α), T ++ [j] = pre ++ j2 :: post →
      (pre = T ∧ j2 = j ∧ post = []) ∨
      ∃ post2, post = post2 ++ [j] ∧ T = pre ++ j2 :: post2 := by
  intro T
  induction T with
  | nil =>
      intro pre j j2 post h
      cases pre with
      | nil =>
          simp only [List.nil_append] at h
          injection h with h1 h2
          exact Or.inl ⟨rfl, h1.symm, h2.symm⟩
      | cons p ps =>
          simp only [List.nil_append, List.cons_append] at h
          injection h with h1 h2
          exact absurd h2.symm (List.cons_ne_nil _ _ ∘ fun e =>
            (List.append_eq_nil.mp e).2)
  | cons t T ih =>
      intro pre j j2 post h
      cases pre with
      | nil =>
          simp only [List.nil_append, List.cons_append] at h
          injection h with h1 h2
          exact Or.inr ⟨T, h2.symm, by rw [List.nil_append, h1]⟩
      | cons p ps =>
          simp only [List.cons_append] at h
          injection h with h1 h2
          rcases ih ps j j2 post h2 with ⟨e1, e2, e3⟩ | ⟨post2, e1, e2⟩
          · exact Or.inl ⟨by rw [e1, h1], e2, e3⟩
          · exact Or.inr ⟨post2, e1, by rw [List.cons_append, ← e2, h1]⟩

theorem trackOK_nil : TrackOK [] := by
  intro pre j post h
  exact absurd h.symm (List.append_ne_nil_of_right_ne_nil pre (List.cons_ne_nil j post))

theorem trackOK_append_of {T : List Joint} {j : Joint} (hT : TrackOK T)
    (hnew : (∀ k ∈ T, jointsOverlap k j = false) ∨ (∃ k ∈ T, k.dst = j.dst)) :
    TrackOK (T ++ [j]) := by
  intro pre j2 post h
  rcases append_singleton_eq T pre j j2 post h with ⟨e1, e2, _⟩ | ⟨post2, _, e2⟩
  · subst e1; subst e2
    exact hnew
  · exact hT pre j2 post2 e2

theorem getD_eq_get2 {α : Type} : ∀ (l : List α) (i : Nat) (d : α)
    (h : i < l.length), l.getD i d = l.get ⟨i, h⟩ := by
  intro l
  induction l with
  | nil => intro i d h; exact absurd h (by simp)
  | cons a as1 ih =>
      intro i d h
      cases i with
      | zero => rfl
      | succ i => exact ih i d (Nat.lt_of_succ_lt_succ h)

theorem modAt_mem {α : Type} : ∀ (ts : List α) (i : Nat) (f : α → α) (t : α),
    t ∈ modAt ts i f → t ∈ ts ∨ ∃ h : i < ts.length, t = f (ts.get ⟨i, h⟩) := by
  intro ts
  induction ts with
  | nil => intro i f t h; rw [modAt] at h; exact Or.inl h
  | cons a as1 ih =>
      intro i f t h
      cases i with
      | zero =>
          rw [modAt] at h
          rcases List.mem_cons.mp h with he | hm
          · exact Or.inr ⟨by simp, he⟩
          · exact Or.inl (List.mem_cons_of_mem a hm)
      | succ i =>
          rw [modAt] at h
          rcases List.mem_cons.mp h with he | hm
          · exact Or.inl (he ▸ List.mem_cons_self a as1)
          · rcases ih i f t hm with h1 | ⟨h1, h2⟩
            · exact Or.inl (List.mem_cons_of_mem a h1)
            · exact Or.inr ⟨Nat.succ_lt_succ h1, h2⟩

theorem choosePlacementAux_spec (j : Joint) (ts : List (List Joint)) :
    ∀ (i : Nat) (lastValid : Option Nat),
      (∀ k, lastValid = some k → checkTrack j (ts.getD k []) = .clean) →
      (∀ m, choosePlacementAux j ts i lastValid = .mergeAt m →
          checkTrack j (ts.getD m []) = .merge) ∧
      (∀ m, choosePlacementAux j ts i lastValid = .pushTo m →
          checkTrack j (ts.getD m []) = .clean) := by
  intro i
  induction i with
  | zero =>
      intro lastValid hlv
      cases lastValid with
      | none =>
          refine ⟨fun m h => ?_, fun m h => ?_⟩ <;>
            (rw [choosePlacementAux] at h; exact Placement.noConfusion h)
      | some k =>
          refine ⟨fun m h => ?_, fun m h => ?_⟩ <;> rw [choosePlacementAux] at h
          · exact Placement.noConfusion h
          · injection h with e
            exact e ▸ hlv k rfl
  | succ i ih =>
      intro lastValid hlv
      refine ⟨fun m h => ?_, fun m h => ?_⟩ <;> rw [choosePlacementAux] at h
      · by_cases hc1 : checkTrack j (ts.getD i []) = .merge
        · rw [if_pos hc1] at h
          injection h with e
          exact e ▸ hc1
        · rw [if_neg hc1] at h
          by_cases hc2 : checkTrack j (ts.getD i []) = .overlapping
          · rw [if_pos hc2] at h
            cases lastValid with
            | none => exact Placement.noConfusion h
            | some k => exact Placement.noConfusion h
          · rw [if_neg hc2] at h
            have hc3 : checkTrack j (ts.getD i []) = .clean := by
              cases hcc : checkTrack j (ts.getD i []) with
              | merge => exact absurd hcc hc1
              | overlapping => exact absurd hcc hc2
              | clean => rfl
            exact (ih (some i) (fun k hk => by injection hk with e; exact e ▸ hc3)).1 m h
      · by_cases hc1 : checkTrack j (ts.getD i []) = .merge
        · rw [if_pos hc1] at h
          exact Placement.noConfusion h
        · rw [if_neg hc1] at h
          by_cases hc2 : checkTrack j (ts.getD i []) = .overlapping
          · rw [if_pos hc2] at h
            cases lastValid with
            | none => exact Placement.noConfusion h
            | some k =>
                injection h with e
                exact e ▸ hlv k rfl
          · rw [if_neg hc2] at h
            have hc3 : checkTrack j (ts.getD i []) = .clean := by
              cases hcc : checkTrack j (ts.getD i []) with
              | merge => exact absurd hcc hc1
              | overlapping => exact absurd hcc hc2
              | clean => rfl
            exact (ih (some i) (fun k hk => by injection hk with e; exact e ▸ hc3)).2 m h

theorem trackOK_singleton (j : Joint) : TrackOK [j] := by
  intro pre j2 post h
  cases pre with
  | nil => exact Or.inl (fun k hk => absurd hk (List.not_mem_nil k))
  | cons p ps =>
      injection h with h1 h2
      exact absurd h2.symm
        (List.append_ne_nil_of_right_ne_nil ps (List.cons_ne_nil j2 post))

theorem applyPlacement_trackOK {j : Joint} {ts : List (List Joint)}
    (hts : ∀ t ∈ ts, TrackOK t) : ∀ t ∈ applyPlacement j ts, TrackOK t := by
  intro t ht
  unfold applyPlacement at ht
  have hspec := choosePlacementAux_spec j ts ts.length none
    (fun k hk => Option.noConfusion hk)
  cases hp : choosePlacement j ts with
  | mergeAt i =>
      rw [hp] at ht
      rcases modAt_mem ts i _ t ht with hm | ⟨hi, he⟩
      · exact hts t hm
      · have hc := hspec.1 i hp
        rw [getD_eq_get2 ts i [] hi] at hc
        rw [he]
        refine trackOK_append_of (hts _ (List.get_mem ts i hi)) ?_
        exact Or.inr (checkTrack_merge hc)
  | pushTo i =>
      rw [hp] at ht
      rcases modAt_mem ts i _ t ht with hm | ⟨hi, he⟩
      · exact hts t hm
      · have hc := hspec.2 i hp
        rw [getD_eq_get2 ts i [] hi] at hc
        rw [he]
        refine trackOK_append_of (hts _ (List.get_mem ts i hi)) ?_
        refine Or.inl (fun k hk => ?_)
        rw [jointsOverlap_comm]
        exact ((checkTrack_clean hc) k hk).2
  | newTrack =>
      rw [hp] at ht
      rcases List.mem_append.mp ht with hm | hm
      · exact hts t hm
      · rw [List.mem_singleton.mp hm]
        exact trackOK_singleton j

theorem buildTracks_trackOK (joints : List Joint) :
    (∀ t ∈ (buildTracks joints).1, TrackOK t) ∧
    (∀ t ∈ (buildTracks joints).2, TrackOK t) := by
  unfold buildTracks
  suffices h : ∀ (init : List (List Joint) × List (List Joint)),
      (∀ t ∈ init.1, TrackOK t) → (∀ t ∈ init.2, TrackOK t) →
      (∀ t ∈ (joints.foldl (fun rl j =>
          if 0 ≤ j.x2 - j.x1 then (applyPlacement j rl.1, rl.2)
          else (rl.1, applyPlacement j rl.2)) init).1, TrackOK t) ∧
      (∀ t ∈ (joints.foldl (fun rl j =>
          if 0 ≤ j.x2 - j.x1 then (applyPlacement j rl.1, rl.2)
          else (rl.1, applyPlacement j rl.2)) init).2, TrackOK t) by
    exact h ([], [])
      (fun t ht => absurd ht (List.not_mem_nil t))
      (fun t ht => absurd ht (List.not_mem_nil t))
  induction joints with
  | nil => intro init h1 h2; exact ⟨h1, h2⟩
  | cons j js ih =>
      intro init h1 h2
      rw [List.foldl_cons]
      by_cases hd : 0 ≤ j.x2 - j.x1
      · rw [if_pos hd]
        exact ih _ (applyPlacement_trackOK h1) h2
      · rw [if_neg hd]
        exact ih _ h1 (applyPlacement_trackOK h2)

/-- **C5, amended.** Any two joints that the joint router assigns to the same
track on a layer either do not overlap on the x-axis, or share a destination
node, or the later of the two was merged into the track because it shares a
destination with some earlier joint of that track. -/
theorem joint_track_overlap (joints : List Joint) (track : List Joint)
    (hmem : track ∈ (buildTracks joints).1 ∨ track ∈ (buildTracks joints).2)
    (pre post : List Joint) (j2 : Joint) (hsplit : track = pre ++ j2 :: post)
    (j1 : Joint) (hj1 : j1 ∈ pre) (hov : jointsOverlap j1 j2 = true)
    (hdst : j1.dst ≠ j2.dst) : ∃ j3 ∈ pre, j3.dst = j2.dst := by
  have hok : TrackOK track := by
    rcases hmem with hm | hm
    · exact (buildTracks_trackOK joints).1 track hm
    · exact (buildTracks_trackOK joints).2 track hm
  rcases hok pre j2 post hsplit with hcl | hdst2
  · rw [hcl j1 hj1] at hov
    exact Bool.noConfusion hov
  · exact hdst2

/-- Witness for `joint_track_overlap`, on the concrete joints of `nsJoint`:
the third joint overlaps the second in their shared (leftward) track, and
indeed shares its destination (node 0) with the first. -/
theorem joint_track_overlap_witness :
    ∃ j3 ∈ [(⟨116, 16, 1, 0, 0⟩ : Joint), ⟨146, 117, 3, 0, 2⟩],
      j3.dst = (⟨156, 16, 4, 0, 0⟩ : Joint).dst :=
  joint_track_overlap
    [⟨116, 16, 1, 0, 0⟩, ⟨146, 117, 3, 0, 2⟩, ⟨156, 16, 4, 0, 0⟩]
    [⟨116, 16, 1, 0, 0⟩, ⟨146, 117, 3, 0, 2⟩, ⟨156, 16, 4, 0, 0⟩]
    (Or.inr (by decide))
    [⟨116, 16, 1, 0, 0⟩, ⟨146, 117, 3, 0, 2⟩] [] ⟨156, 16, 4, 0, 0⟩
    (by decide) ⟨146, 117, 3, 0, 2⟩ (by decide) (by decide) (by decide)

/-- **C5, counterexample.** The joints collected from the concrete layer
`nsJoint` (computed by `layerJoints`, already sorted by `x1`) violate the
claim as stated: the router puts all three into one leftward track, where
the second and third overlap on the x-axis but lead to different
destination nodes. -/
theorem joint_track_overlap_counterexample :
    layerJoints gEmpty nsJoint [1, 3, 4] =
      some [⟨116, 16, 1, 0, 0⟩, ⟨146, 117, 3, 0, 2⟩, ⟨156, 16, 4, 0, 0⟩] ∧
    sortByX1 [⟨116, 16, 1, 0, 0⟩, ⟨146, 117, 3, 0, 2⟩, ⟨156, 16, 4, 0, 0⟩] =
      [⟨116, 16, 1, 0, 0⟩, ⟨146, 117, 3, 0, 2⟩, ⟨156, 16, 4, 0, 0⟩] ∧
    ¬ (∀ (track : List Joint),
        (track ∈ (buildTracks [(⟨116, 16, 1, 0, 0⟩ : Joint),
            ⟨146, 117, 3, 0, 2⟩, ⟨156, 16, 4, 0, 0⟩]).1 ∨
         track ∈ (buildTracks [(⟨116, 16, 1, 0, 0⟩ : Joint),
            ⟨146, 117, 3, 0, 2⟩, ⟨156, 16, 4, 0, 0⟩]).2) →
        ∀ j1 ∈ track, ∀ j2 ∈ track,
          jointsOverlap j1 j2 = true → j1.dst = j2.dst) := by
  refine ⟨by decide, by decide, fun h => ?_⟩
  have h2 := h [⟨116, 16, 1, 0, 0⟩, ⟨146, 117, 3, 0, 2⟩, ⟨156, 16, 4, 0, 0⟩]
    (Or.inr (by decide)) ⟨146, 117, 3, 0, 2⟩ (by decide) ⟨156, 16, 4, 0, 0⟩
    (by decide) (by decide)
  exact absurd h2 (by decide)


/-! ### C7: the straightener -/

/-- `foldlM_rel` over an arbitrary state type. -/
theorem foldlM_relG {σ β : Type} {R : σ → σ → Prop}
    (htrans : ∀ {a b c : σ}, R a b → R b c → R a c) (hrefl : ∀ a, R a a)
    {f : σ → β → Option σ} :
    ∀ {cs : List β} {s s' : σ},
      (∀ t c t', c ∈ cs → f t c = some t' → R t t') →
      cs.foldlM f s = some s' → R s s' := by
  intro cs
  induction cs with
  | nil =>
      intro s s' _ h
      simp only [List.foldlM_nil, pure, Option.some.injEq] at h
      rw [← h]; exact hrefl s
  | cons c cs ih =>
      intro s s' hstep h
      rw [List.foldlM_cons] at h
      obtain ⟨t, ht, hrest⟩ := optBindEqSome h
      exact htrans (hstep s c t (List.mem_cons_self c cs) ht)
        (ih (fun t c t' hc => hstep t c t' (List.mem_cons_of_mem _ hc)) hrest)

theorem modAt_len {α : Type} : ∀ (ns : List α) (i : Nat) (f : α → α),
    (modAt ns i f).length = ns.length := by
  intro ns
  induction ns with
  | nil => intro i f; rfl
  | cons a as1 ih =>
      intro i f
      cases i with
      | zero => rfl
      | succ j => simp only [modAt, List.length_cons, ih]

theorem modAt_getElem {α : Type} : ∀ (ns : List α) (i : Nat) (f : α → α) (j : Nat),
    (modAt ns i f)[j]? = if j = i then Option.map f ns[j]? else ns[j]? := by
  intro ns
  induction ns with
  | nil => intro i f j; cases j <;> simp [modAt]
  | cons a as1 ih =>
      intro i f j
      cases i with
      | zero =>
          cases j with
          | zero => simp [modAt]
          | succ j2 => simp [modAt]
      | succ i2 =>
          cases j with
          | zero => simp [modAt]
          | succ j2 =>
              simp only [modAt, List.getElem?_cons_succ, ih, Nat.succ_eq_add_one]
              by_cases hji : j2 = i2
              · simp [hji]
              · simp [hji, fun h => hji (Nat.add_right_cancel h)]

theorem monoX_refl (ns : List LNode) : MonoX ns ns := by
  refine ⟨rfl, fun i n n' hn hn' => ?_⟩
  rw [hn] at hn'
  injection hn' with hh
  rw [hh]

theorem monoX_trans {a b c : List LNode} (h1 : MonoX a b) (h2 : MonoX b c) :
    MonoX a c := by
  refine ⟨h2.1.trans h1.1, fun i n n' hn hn' => ?_⟩
  have hia : i < a.length := by
    by_contra hge
    rw [List.getElem?_eq_none (Nat.le_of_not_lt hge)] at hn
    exact Option.noConfusion hn
  have hib : i < b.length := by rw [h1.1]; exact hia
  exact le_trans (h1.2 i n (b.get ⟨i, hib⟩) hn (List.getElem?_eq_getElem hib))
    (h2.2 i (b.get ⟨i, hib⟩) n' (List.getElem?_eq_getElem hib) hn')

theorem setPosX_getElem (ns : List LNode) (i : Nat) (x : Int) (j : Nat) :
    (setPosX ns i x)[j]? =
      if j = i then
        Option.map (fun n => { n with pos := { n.pos with x := x } }) ns[j]?
      else ns[j]? :=
  modAt_getElem ns i _ j

theorem monoX_setPosX {ns : List LNode} {i : Nat} {x : Int}
    (h : ∀ n : LNode, ns[i]? = some n → n.pos.x ≤ x) :
    MonoX ns (setPosX ns i x) := by
  refine ⟨modAt_len ns i _, fun j n n' hn hn' => ?_⟩
  rw [setPosX_getElem] at hn'
  by_cases hji : j = i
  · rw [if_pos hji, hn, Option.map_some'] at hn'
    injection hn' with hh
    rw [← hh]
    exact h n (hji ▸ hn)
  · rw [if_neg hji, hn] at hn'
    injection hn' with hh
    rw [← hh]
/-- `pushNeighbors` never moves a node left: each write replaces a node's
x-coordinate with a `max` that includes its current value. -/
theorem pushNeighbors_mono (g : CFG) (layer : List Nat)
    {ns ns' : List LNode} (h : pushNeighbors g ns layer = some ns') :
    MonoX ns ns' := by
  refine foldlM_relG (R := MonoX) (fun hab hbc => monoX_trans hab hbc)
    monoX_refl ?_ h
  intro t i t' _ hstep
  obtain ⟨nid, hnid, hstep⟩ := optBindEqSome hstep
  obtain ⟨mid, hmid, hstep⟩ := optBindEqSome hstep
  obtain ⟨node, hnode, hstep⟩ := optBindEqSome hstep
  obtain ⟨neighbor, hneighbor, hstep⟩ := optBindEqSome hstep
  injection hstep with hh
  rw [← hh]
  apply monoX_setPosX
  intro n hn
  rw [hneighbor] at hn
  injection hn with hnn
  rw [← hnn]
  exact le_trans (le_max_left _ _) (le_max_left _ _)

/-- C7 (amended part): the `straightenChildren` pass of the X straightener
moves nodes only rightward — when it succeeds, every node's x-coordinate in
the result is at least its value in the input (and the store keeps its
length).  The same holds for the `pushNeighbors` sweeps it performs. -/
theorem straightenChildren_monotone (g : CFG) (layers : List (List Nat))
    {ns ns' : List LNode} (h : straightenChildren g ns layers = some ns') :
    MonoX ns ns' := by
  refine foldlM_relG (R := MonoX) (fun hab hbc => monoX_trans hab hbc)
    monoX_refl ?_ h
  intro t layer t' _ hstep
  obtain ⟨nodes, hnodes, hstep⟩ := optBindEqSome hstep
  obtain ⟨t1, ht1, hstep⟩ := optBindEqSome hstep
  obtain ⟨next, hnext, hstep⟩ := optBindEqSome hstep
  obtain ⟨r, hr, hstep⟩ := optBindEqSome hstep
  injection hstep with hh
  refine monoX_trans (pushNeighbors_mono g nodes ht1) ?_
  rw [← hh]
  refine foldlM_relG (R := fun (p q : List LNode × Int) => MonoX p.1 q.1)
    (fun hab hbc => monoX_trans hab hbc) (fun a => monoX_refl a.1) ?_ hr
  intro p nid p' _ hstep2
  obtain ⟨node0, hnode0, hstep2⟩ := optBindEqSome hstep2
  refine foldlM_relG (R := fun (p q : List LNode × Int) => MonoX p.1 q.1)
    (fun hab hbc => monoX_trans hab hbc) (fun a => monoX_refl a.1) ?_ hstep2
  intro q pd q' _ hstep3
  obtain ⟨sp, od⟩ := pd
  cases od with
  | none =>
      injection hstep3 with hq
      rw [← hq]
      exact monoX_refl q.1
  | some did =>
      dsimp only at hstep3
      split at hstep3
      · obtain ⟨dst, hdst, hstep3⟩ := optBindEqSome hstep3
        split at hstep3
        · obtain ⟨node, hnode, hstep3⟩ := optBindEqSome hstep3
          split at hstep3
          · injection hstep3 with hq
            rw [← hq]
            apply monoX_setPosX
            intro n hn
            rw [hdst] at hn
            injection hn with hnn
            rw [← hnn]
            exact le_max_left _ _
          · injection hstep3 with hq
            rw [← hq]
            exact monoX_refl q.1
        · injection hstep3 with hq
          rw [← hq]
          exact monoX_refl q.1
      · injection hstep3 with hq
        rw [← hq]
        exact monoX_refl q.1

/-- Witness for `straightenChildren_monotone`: a two-layer store where the
pass pulls the child right. -/
theorem straightenChildren_monotone_witness :
    (straightenChildren gEmpty [
      { id := 0, pos := ⟨100, 20⟩, size := ⟨50, 50⟩, block := some 0,
        dstBlock := 0, srcNodes := [], dstNodes := [some 1],
        jointOffsets := [], flags := 0 },
      { id := 1, pos := ⟨20, 20⟩, size := ⟨50, 50⟩, block := some 1,
        dstBlock := 0, srcNodes := [0], dstNodes := [],
        jointOffsets := [], flags := 0 }] [[0], [1]]).elim False
      (fun out => MonoX [
        { id := 0, pos := ⟨100, 20⟩, size := ⟨50, 50⟩, block := some 0,
          dstBlock := 0, srcNodes := [], dstNodes := [some 1],
          jointOffsets := [], flags := 0 },
        { id := 1, pos := ⟨20, 20⟩, size := ⟨50, 50⟩, block := some 1,
          dstBlock := 0, srcNodes := [0], dstNodes := [],
          jointOffsets := [], flags := 0 }] out) := by
  exact straightenChildren_monotone gEmpty [[0], [1]] (by decide)

set_option maxRecDepth 10000 in
/-- C7 (counterexample): the straightening pipeline is not idempotent.  On
the pass `gG` (sizes `szG`) the whole front end succeeds, one straightener
run leaves the nodes at the first list of x-coordinates, and feeding that
output through the straightener again moves the last two nodes (the layout
nodes of blocks 7 and 8) from 358 to 752. -/
theorem straightener_second_run_differs :
    straightenRunsG 1 = some [20, 20, 164, 608, 20, 608, 752, 358, 358] ∧
    straightenRunsG 2 = some [20, 20, 164, 608, 20, 608, 752, 752, 752] := by
  constructor
  · decide
  · decide

/-! ### C10: no duplicate sources -/

/-- Invariant preservation through a pure `foldl`. -/
theorem foldl_pres {σ β : Type} {P : σ → Prop} {f : σ → β → σ} :
    ∀ {cs : List β} {s : σ}, (∀ t c, c ∈ cs → P t → P (f t c)) → P s →
      P (cs.foldl f s) := by
  intro cs
  induction cs with
  | nil => intro s _ hs; exact hs
  | cons c cs ih =>
      intro s hstep hs
      rw [List.foldl_cons]
      exact ih (fun t c2 hc2 => hstep t c2 (List.mem_cons_of_mem _ hc2))
        (hstep s c (List.mem_cons_self c cs) hs)

/-- Invariant preservation through an `Option`-valued `foldlM`. -/
theorem foldlM_pres {σ β : Type} {P : σ → Prop} {f : σ → β → Option σ}
    {cs : List β} {s s' : σ}
    (hstep : ∀ t c t', c ∈ cs → f t c = some t' → P t → P t')
    (h : cs.foldlM f s = some s') (hs : P s) : P s' :=
  foldlM_relG (R := fun a b => P a → P b) (fun hab hbc hpa => hbc (hab hpa))
    (fun _ hp => hp) hstep h hs

theorem nodupSrc_modAt {ns : List LNode} {i : Nat} {f : LNode → LNode}
    (h : NodupSrc ns)
    (hf : ∀ n : LNode, n ∈ ns → n.srcNodes.Nodup → (f n).srcNodes.Nodup) :
    NodupSrc (modAt ns i f) := by
  intro n hn
  rcases modAt_mem ns i f n hn with hmem | ⟨hi, heq⟩
  · exact h n hmem
  · rw [heq]
    exact hf _ (List.get_mem ns i hi) (h _ (List.get_mem ns i hi))

theorem nodupSrc_connect {ns : List LNode} (h : NodupSrc ns)
    (a p t : Nat) : NodupSrc (connectNodesF ns a p t) := by
  refine nodupSrc_modAt (nodupSrc_modAt h ?_) ?_
  · intro n _ hn
    exact hn
  · intro n _ hn
    by_cases hmem : a ∈ n.srcNodes
    · rw [if_pos hmem]; exact hn
    · rw [if_neg hmem]
      dsimp only
      rw [List.nodup_append]
      refine ⟨hn, List.nodup_singleton a, ?_⟩
      intro x hx hy
      rw [List.mem_singleton] at hy
      rw [hy] at hx
      exact hmem hx

theorem nodupSrc_append {ns : List LNode} {node : LNode} (h : NodupSrc ns)
    (hn : node.srcNodes.Nodup) : NodupSrc (ns ++ [node]) := by
  intro n hmem
  rcases List.mem_append.mp hmem with hl | hr
  · exact h n hl
  · rw [List.mem_singleton.mp hr]
    exact hn

theorem nodupSrc_makeForwardDummies (st : MLState) (acc : List Nat)
    (h : NodupSrc st.ns) : NodupSrc (makeForwardDummies st acc).1.ns := by
  rw [makeForwardDummies]
  refine foldl_pres
    (P := fun (p : List LNode × List Nat × (Nat → Option Nat) × List IEdge) =>
      NodupSrc p.1) ?_ h
  intro t c _ hP
  cases hm : t.2.2.1 c.dstBlock with
  | some did =>
      exact nodupSrc_connect hP c.src c.srcPort did
  | none =>
      refine nodupSrc_connect (nodupSrc_append hP ?_) c.src c.srcPort t.1.length
      exact List.nodup_nil

theorem nodupSrc_makeBackedgeDummies {g : CFG} {bem : Nat → Option Nat}
    {pending : List (Nat × Nat)} {b : MIRBlock} {st : MLState}
    {acc : List Nat} {out : MLState × List Nat}
    (h : makeBackedgeDummies g bem pending b st acc = some out)
    (hns : NodupSrc st.ns) : NodupSrc out.1.ns := by
  refine foldlM_pres (P := fun (p : MLState × List Nat) => NodupSrc p.1.ns)
    ?_ h hns
  intro t c t' _ hstep hP
  obtain ⟨hb, hhb, hstep⟩ := optBindEqSome hstep
  obtain ⟨ben, hben, hstep⟩ := optBindEqSome hstep
  split at hstep
  · injection hstep with hh
    rw [← hh]
    exact nodupSrc_connect (nodupSrc_append hP List.nodup_nil) _ 0 _
  · obtain ⟨bln, hbln, hstep⟩ := optBindEqSome hstep
    injection hstep with hh
    rw [← hh]
    exact nodupSrc_connect (nodupSrc_append hP List.nodup_nil) _ 0 _

theorem nodupSrc_processBlock {g : CFG} {sizes : Nat → Vec2}
    {bem : Nat → Option Nat} {terminating : List IEdge}
    {pending : List (Nat × Nat)} {p : MLState × List Nat × List IEdge}
    {b : MIRBlock} {p' : MLState × List Nat × List IEdge}
    (h : processBlock g sizes bem terminating pending p b = some p')
    (hns : NodupSrc p.1.ns) : NodupSrc p'.1.ns := by
  rw [processBlock] at h
  dsimp only at h
  obtain ⟨pr, hmbd, h⟩ := optBindEqSome h
  have hpr : NodupSrc pr.1.ns := by
    refine nodupSrc_makeBackedgeDummies hmbd ?_
    dsimp only
    refine foldl_pres (P := NodupSrc) ?_ (nodupSrc_append hns List.nodup_nil)
    intro t c _ hP
    exact nodupSrc_connect hP c.src c.srcPort p.1.ns.length
  obtain ⟨st2, acc2⟩ := pr
  dsimp only at h hpr
  split at h
  · obtain ⟨bn, hbn, h⟩ := optBindEqSome h
    obtain ⟨s0, hs0, h⟩ := optBindEqSome h
    obtain ⟨sn, hsn, h⟩ := optBindEqSome h
    injection h with hh
    rw [← hh]
    exact nodupSrc_connect hpr bn 0 sn
  · obtain ⟨q, hq, h⟩ := optBindEqSome h
    have hq2 : NodupSrc q.1.ns := by
      refine foldlM_pres (P := fun (q : MLState × List IEdge) => NodupSrc q.1.ns)
        ?_ hq hpr
      intro t c t' _ hstep hP
      obtain ⟨sb, hsb, hstep⟩ := optBindEqSome hstep
      split at hstep
      · injection hstep with hh2
        rw [← hh2]
        exact hP
      · injection hstep with hh2
        rw [← hh2]
        exact hP
    obtain ⟨st3, bes3⟩ := q
    dsimp only at h hq2
    injection h with hh
    rw [← hh]
    exact hq2

theorem nodupSrc_processLayer {g : CFG} {ls : LState} {sizes : Nat → Vec2}
    {bem : Nat → Option Nat} {fuel : Nat} {st : MLState}
    {blocks : List MIRBlock} {st' : MLState}
    (h : processLayer g ls sizes bem fuel st blocks = some st')
    (hns : NodupSrc st.ns) : NodupSrc st'.ns := by
  rw [processLayer] at h
  dsimp only at h
  obtain ⟨pending, hpend, h⟩ := optBindEqSome h
  obtain ⟨tr, htr, h⟩ := optBindEqSome h
  obtain ⟨st4, hst4, h⟩ := optBindEqSome h
  have htr2 : NodupSrc tr.1.ns := by
    refine foldlM_pres
      (P := fun (q : MLState × List Nat × List IEdge) => NodupSrc q.1.ns)
      (fun t c t' _ hstep hP => nodupSrc_processBlock hstep hP) htr ?_
    exact nodupSrc_makeForwardDummies _ [] hns
  obtain ⟨st5, acc5, bes5⟩ := tr
  dsimp only at h htr2 hst4
  have hst42 : NodupSrc st4.ns := by
    refine foldlM_pres (P := fun (t : MLState) => NodupSrc t.ns) ?_ hst4 htr2
    intro t c t' _ hstep hP
    obtain ⟨ld, hld, hstep⟩ := optBindEqSome hstep
    injection hstep with hh
    rw [← hh]
    exact nodupSrc_connect hP c.src c.srcPort ld
  injection h with hh
  rw [← hh]
  exact hst42

theorem nodupSrc_pruneNodeF {ns : List LNode} {nid : Nat} {ns' : List LNode}
    (h : pruneNodeF ns nid = some ns') (hns : NodupSrc ns) : NodupSrc ns' := by
  rw [pruneNodeF] at h
  obtain ⟨node, hnode, h⟩ := optBindEqSome h
  refine foldlM_pres (P := NodupSrc) ?_ h hns
  intro t c t' _ hstep hP
  obtain ⟨d, hd, hstep⟩ := optBindEqSome hstep
  obtain ⟨dn, hdn, hstep⟩ := optBindEqSome hstep
  obtain ⟨u, hu, hstep⟩ := optBindEqSome hstep
  injection hstep with hh
  rw [← hh]
  refine nodupSrc_modAt hP ?_
  intro n _ hn
  exact hn.erase nid

theorem nodupSrc_pruneWalk {g : CFG} :
    ∀ {fuel : Nat} {ns : List LNode} {removed : List Nat} {cur : Nat}
      {out : List LNode × List Nat},
      pruneWalk g fuel ns removed cur = some out → NodupSrc ns →
      NodupSrc out.1 := by
  intro fuel
  induction fuel with
  | zero =>
      intro ns removed cur out h _
      exact Option.noConfusion h
  | succ fuel ih =>
      intro ns removed cur out h hns
      rw [pruneWalk] at h
      obtain ⟨node, hnode, h⟩ := optBindEqSome h
      split at h
      · obtain ⟨ns2, hns2, h⟩ := optBindEqSome h
        obtain ⟨u, hu, h⟩ := optBindEqSome h
        obtain ⟨d, hd, h⟩ := optBindEqSome h
        obtain ⟨d2, hd2, h⟩ := optBindEqSome h
        exact ih h (nodupSrc_pruneNodeF hns2 hns)
      · injection h with hh
        rw [← hh]
        exact hns

theorem nodupSrc_pruneOrphans {g : CFG} {fuel : Nat} {st st' : MLState}
    (h : pruneOrphans g fuel st = some st') (hns : NodupSrc st.ns) :
    NodupSrc st'.ns := by
  rw [pruneOrphans] at h
  dsimp only at h
  obtain ⟨pr, hpr, h⟩ := optBindEqSome h
  have hpr2 : NodupSrc pr.1 := by
    refine foldlM_pres (P := fun (p : List LNode × List Nat) => NodupSrc p.1)
      ?_ hpr hns
    intro t c t' _ hstep hP
    exact nodupSrc_pruneWalk hstep hP
  obtain ⟨ns2, removed2⟩ := pr
  dsimp only at h hpr2
  injection h with hh
  rw [← hh]
  exact hpr2

theorem nodupSrc_flagEndDummies (st : MLState) (hns : NodupSrc st.ns) :
    NodupSrc (flagEndDummies st).ns := by
  rw [flagEndDummies]
  dsimp only
  refine foldl_pres (P := NodupSrc) ?_ hns
  intro t c _ hP
  refine foldl_pres (P := NodupSrc) ?_ (foldl_pres (P := NodupSrc) ?_ hP)
  · intro t2 c2 _ hP2
    refine nodupSrc_modAt hP2 ?_
    intro n _ hn
    exact hn
  · intro t2 c2 _ hP2
    refine nodupSrc_modAt hP2 ?_
    intro n _ hn
    exact hn

/-- C10: after the layout-node materializer, every node's `srcNodes` list
contains each source at most once: `connectNodes` refuses to append an
already-listed source, freshly created nodes start with no sources, and
pruning only removes entries. -/
theorem makeLayoutNodes_srcNodes_nodup (g : CFG) (ls : LState)
    (sizes : Nat → Vec2) (bem : Nat → Option Nat) (fuel : Nat) {st : MLState}
    (h : makeLayoutNodesF g ls sizes bem fuel = some st) :
    ∀ n ∈ st.ns, n.srcNodes.Nodup := by
  rw [makeLayoutNodesF] at h
  dsimp only at h
  obtain ⟨st1, hst1, h⟩ := optBindEqSome h
  obtain ⟨st2, hst2, h⟩ := optBindEqSome h
  obtain ⟨u, hu, h⟩ := optBindEqSome h
  injection h with hh
  rw [← hh]
  refine nodupSrc_flagEndDummies st2 (nodupSrc_pruneOrphans hst2 ?_)
  refine foldlM_pres (P := fun (t : MLState) => NodupSrc t.ns)
    (fun t c t' _ hstep hP => nodupSrc_processLayer hstep hP) hst1 ?_
  intro n hn
  exact absurd hn (List.not_mem_nil n)

/-- Witness for `makeLayoutNodes_srcNodes_nodup`: the invariant on the
materializer's output for the concrete pass `gLoop`. -/
theorem makeLayoutNodes_srcNodes_nodup_witness :
    mlLoopW.elim False (fun st => ∀ n ∈ st.ns, n.srcNodes.Nodup) := by
  cases hml : mlLoopW with
  | none =>
      have hs : mlLoopW.isSome = true := rfl
      rw [hml] at hs
      exact Bool.noConfusion hs
  | some st =>
      rw [mlLoopW] at hml
      obtain ⟨ls, hls, hml⟩ := optBindEqSome hml
      obtain ⟨bem, hbem, hml⟩ := optBindEqSome hml
      exact makeLayoutNodes_srcNodes_nodup gLoop ls (fun _ => ⟨100, 50⟩) bem 30 hml

/-! ### C4: the materializer postconditions -/

/-- Inverting a `Unit`-state `foldlM`: if the whole fold succeeds, every
element's step succeeds. -/
theorem foldlM_unit_all {β : Type} {f : Unit → β → Option Unit} :
    ∀ {cs : List β}, cs.foldlM f () = some () → ∀ c ∈ cs, f () c = some () := by
  intro cs
  induction cs with
  | nil => intro _ c hc; exact absurd hc (List.not_mem_nil c)
  | cons c0 cs ih =>
      intro h c hc
      rw [List.foldlM_cons] at h
      obtain ⟨a, ha, hrest⟩ := optBindEqSome h
      cases a
      rcases List.mem_cons.mp hc with hceq | hcm
      · rw [hceq]; exact ha
      · exact ih hrest c hcm

/-- C4 (amended part): whenever the materializer returns (none of its
assertions fired), its output satisfies the claimed postconditions: every
node named by a layer exists; a BlockNode has as many destination slots as
its block has successors; a DummyNode has exactly one; and no slot is
unset. -/
theorem makeLayoutNodes_postconditions (g : CFG) (ls : LState)
    (sizes : Nat → Vec2) (bem : Nat → Option Nat) (fuel : Nat) {st : MLState}
    (h : makeLayoutNodesF g ls sizes bem fuel = some st) :
    ∀ l ∈ st.layers, ∀ nid ∈ l, ∃ n : LNode, st.ns[nid]? = some n ∧
      (∀ bnum, n.block = some bnum → ∃ b, g.blk bnum = some b ∧
        n.dstNodes.length = b.successors.length) ∧
      (n.block = none → n.dstNodes.length = 1) ∧
      n.dstNodes.all (fun od => od.isSome) = true := by
  rw [makeLayoutNodesF] at h
  dsimp only at h
  obtain ⟨st1, hst1, h⟩ := optBindEqSome h
  obtain ⟨st2, hst2, h⟩ := optBindEqSome h
  obtain ⟨u, hu, h⟩ := optBindEqSome h
  cases u
  injection h with hh
  rw [← hh]
  intro l hl nid hnid
  have hstep := foldlM_unit_all hu l hl
  have hstep2 := foldlM_unit_all hstep nid hnid
  obtain ⟨n, hn, hstep2⟩ := optBindEqSome hstep2
  refine ⟨n, hn, ?_⟩
  split at hstep2
  · rename_i bnum hblock
    obtain ⟨b, hb, hstep2⟩ := optBindEqSome hstep2
    by_cases hlen : n.dstNodes.length = b.successors.length
    · rw [optGuardBindPos hlen] at hstep2
      refine ⟨?_, ?_, ?_⟩
      · intro bnum2 hbn2
        rw [hblock] at hbn2
        injection hbn2 with hbe
        rw [← hbe]
        exact ⟨b, hb, hlen⟩
      · intro hcontra
        rw [hblock] at hcontra
        exact Option.noConfusion hcontra
      · by_cases hall : n.dstNodes.all (fun od => od.isSome) = true
        · exact hall
        · rw [if_neg hall] at hstep2
          exact Option.noConfusion hstep2
    · rw [optGuardBindNeg hlen] at hstep2
      exact Option.noConfusion hstep2
  · rename_i hblock
    by_cases hlen : n.dstNodes.length = 1
    · rw [optGuardBindPos hlen] at hstep2
      refine ⟨?_, fun _ => hlen, ?_⟩
      · intro bnum2 hbn2
        rw [hblock] at hbn2
        exact Option.noConfusion hbn2
      · by_cases hall : n.dstNodes.all (fun od => od.isSome) = true
        · exact hall
        · rw [if_neg hall] at hstep2
          exact Option.noConfusion hstep2
    · rw [optGuardBindNeg hlen] at hstep2
      exact Option.noConfusion hstep2

/-- Witness for `makeLayoutNodes_postconditions`: the postconditions on the
materializer's output for the concrete pass `gLoop`. -/
theorem makeLayoutNodes_postconditions_witness :
    mlLoopW.elim False (fun st =>
      ∀ l ∈ st.layers, ∀ nid ∈ l, ∃ n : LNode, st.ns[nid]? = some n ∧
        (∀ bnum, n.block = some bnum → ∃ b, gLoop.blk bnum = some b ∧
          n.dstNodes.length = b.successors.length) ∧
        (n.block = none → n.dstNodes.length = 1) ∧
        n.dstNodes.all (fun od => od.isSome) = true) := by
  cases hml : mlLoopW with
  | none =>
      have hs : mlLoopW.isSome = true := rfl
      rw [hml] at hs
      exact Bool.noConfusion hs
  | some st =>
      rw [mlLoopW] at hml
      obtain ⟨ls, hls, hml⟩ := optBindEqSome hml
      obtain ⟨bem, hbem, hml⟩ := optBindEqSome hml
      exact makeLayoutNodes_postconditions gLoop ls (fun _ => ⟨100, 50⟩) bem 30 hml

/-- C4 (counterexample): the postcondition assertions of the materializer
*can* fire on a well-formed pass.  `gCE` has exactly one backedge
predecessor per true loop header and every cycle passes through a
backedge-attributed block (witnessed by the rank `rankCE`), the layering
walk and the constructor checks succeed, yet `makeLayoutNodes` throws (its
final assertions fail, independent of the recursion fuel) because a
loop-exit edge was layered upward, leaving an active edge whose
destination layer was already emitted. -/
theorem materializer_asserts_fire :
    OneBackedgePerHeader gCE ∧ RankedAcyclic gCE rankCE ∧
    (layoutWalk gCE 100).isSome = true ∧ (initBackedges gCE).isSome = true ∧
    (mlCE 100).isNone = true ∧ (mlCE 1000).isNone = true := by
  refine ⟨by unfold OneBackedgePerHeader; decide, by unfold RankedAcyclic; decide,
    by decide, by decide, ?_, ?_⟩
  · set_option maxRecDepth 10000 in decide
  · set_option maxRecDepth 40000 in decide

/-! ### C9: termination of the recursive walks -/

theorem blk_mem {g : CFG} {n : Nat} {b : MIRBlock} (h : g.blk n = some b) :
    b ∈ g.blocks := by
  unfold CFG.blk at h
  exact List.mem_reverse.mp (List.mem_of_find?_eq_some h)

theorem eFold_isSome {step : LState → Nat → Option (Option LState)} :
    ∀ {cs : List Nat}, (∀ s2 c, c ∈ cs → (step s2 c).isSome = true) →
      ∀ s, (eFold step cs s).isSome = true := by
  intro cs
  induction cs with
  | nil => intro _ s; rfl
  | cons c cs ih =>
      intro hstep s
      rw [eFold]
      cases hs : step s c with
      | none =>
          have := hstep s c (List.mem_cons_self c cs)
          rw [hs] at this
          exact Bool.noConfusion this
      | some r =>
          cases r with
          | none => rfl
          | some s2 =>
              exact ih (fun t c2 hc2 => hstep t c2 (List.mem_cons_of_mem _ hc2)) s2

/-- The loop-classification recursion terminates: with fuel exceeding the
rank of the start block, `findLoopsE` never runs out of fuel — it returns
or throws.  The recursion only descends along successor edges of blocks
without the `backedge` attribute, along which the rank strictly
decreases. -/
theorem findLoopsE_terminates (g : CFG) (rank : Nat → Nat)
    (hr : RankedAcyclic g rank) :
    ∀ (k : Nat) (bn : Nat) (s : LState) (stack : List Nat) (fuel : Nat),
      rank bn < k → rank bn < fuel →
      (findLoopsE g fuel s bn stack).isSome = true := by
  intro k
  induction k with
  | zero => intro bn _ _ _ hk; exact absurd hk (Nat.not_lt_zero _)
  | succ k ih =>
      intro bn s stack fuel hk hf
      cases fuel with
      | zero => exact absurd hf (Nat.not_lt_zero _)
      | succ m =>
          rw [findLoopsE]
          cases hb : g.blk bn with
          | none => rfl
          | some b =>
              dsimp only
              cases hhdr : (if b.isTrueLH = true then
                  if b.loopDepth = stack.length then
                    match stack.getLast? with
                    | none => none
                    | some parentID =>
                        match asLH (g.blk parentID) with
                        | none => none
                        | some p =>
                            some ({ s with parentLoop :=
                                     Function.update s.parentLoop bn (some p.number) },
                                  stack ++ [bn])
                  else none
                else some (s, stack) : Option (LState × List Nat)) with
              | none => rfl
              | some p =>
                  obtain ⟨s2, stack2⟩ := p
                  dsimp only
                  cases hlid : (if b.loopDepth + 1 < stack2.length then
                      stack2.take (b.loopDepth + 1) else stack2)[b.loopDepth]? with
                  | none => rfl
                  | some lid =>
                      dsimp only
                      by_cases hbe : b.isBackedge = true
                      · rw [if_pos hbe]; rfl
                      · rw [if_neg hbe]
                        refine eFold_isSome ?_ _
                        intro t c hc
                        have hrank : rank c < rank bn := by
                          have hn := blk_number hb
                          have := hr b (blk_mem hb) (eq_false_of_ne_true hbe) c hc
                          rw [hn] at this
                          exact this
                        exact ih c t _ m (lt_of_lt_of_le hrank (Nat.lt_succ_iff.mp hk))
                          (lt_of_lt_of_le hrank (Nat.lt_succ_iff.mp hf))

/-! #### Well-foundedness of the Dershowitz–Manna step (Buchholz's proof) -/

theorem acc_add_small (r : Nat)
    (H : ∀ r', r' < r → ∀ M', Acc DMLt M' → Acc DMLt (r' ::ₘ M')) :
    ∀ K : Multiset Nat, (∀ k ∈ K, k < r) → ∀ M, Acc DMLt M →
      Acc DMLt (M + K) := by
  intro K
  induction K using Multiset.induction with
  | empty => intro _ M hM; simpa using hM
  | cons k K ih =>
      intro hK M hM
      have h1 : Acc DMLt (k ::ₘ M) :=
        H k (hK k (Multiset.mem_cons_self k K)) M hM
      have h2 := ih (fun k' h => hK k' (Multiset.mem_cons_of_mem h)) (k ::ₘ M) h1
      have he : (k ::ₘ M) + K = M + (k ::ₘ K) := by
        rw [Multiset.cons_add, Multiset.add_cons]
      rw [he] at h2
      exact h2

theorem dm_acc_cons (r : Nat)
    (H : ∀ r', r' < r → ∀ M', Acc DMLt M' → Acc DMLt (r' ::ₘ M')) :
    ∀ M, Acc DMLt M → Acc DMLt (r ::ₘ M) := by
  intro M hM
  induction hM with
  | intro M hacc ih =>
      refine Acc.intro _ ?_
      intro N hN
      obtain ⟨r', K, hmem, heq, hK⟩ := hN
      by_cases hrr : r' = r
      · rw [hrr] at heq hK
        rw [Multiset.erase_cons_head] at heq
        rw [heq]
        exact acc_add_small r H K hK M (Acc.intro M hacc)
      · have hrM : r' ∈ M := by
          rcases Multiset.mem_cons.mp hmem with h | h
          · exact absurd h hrr
          · exact h
        have heq2 : N = r ::ₘ (M.erase r' + K) := by
          rw [heq, Multiset.erase_cons_tail_of_mem hrM, Multiset.cons_add]
        rw [heq2]
        exact ih (M.erase r' + K) ⟨r', K, hrM, rfl, hK⟩

theorem dm_acc_cons_all : ∀ (r : Nat) (M : Multiset Nat), Acc DMLt M →
    Acc DMLt (r ::ₘ M) := by
  intro r
  induction r using Nat.strong_induction_on with
  | _ r ih => exact dm_acc_cons r (fun r' hr' => ih r' hr')

theorem dm_wf : WellFounded DMLt := by
  refine ⟨fun M => ?_⟩
  induction M using Multiset.induction with
  | empty =>
      refine Acc.intro _ ?_
      intro N hN
      obtain ⟨r, _, hmem, _, _⟩ := hN
      exact absurd hmem (Multiset.not_mem_zero r)
  | cons r M ih => exact dm_acc_cons_all r M ih

/-! #### Fuel monotonicity of the exception-aware walks -/

theorem chainE_mono : ∀ {f : Nat} {s : LState} {h : Nat} {L : Int}
    {r : Option LState}, chainE f s h L = some r → ∀ {f' : Nat}, f ≤ f' →
    chainE f' s h L = some r := by
  intro f
  induction f with
  | zero => intro s h L r hc; exact Option.noConfusion hc
  | succ m ih =>
      intro s h L r hc f' hf
      cases f' with
      | zero => exact absurd hf (Nat.not_succ_le_zero m)
      | succ m' =>
          rw [chainE] at hc ⊢
          dsimp only at hc ⊢
          cases hp : s.parentLoop h with
          | none => rw [hp] at hc; exact hc
          | some p => rw [hp] at hc; exact ih hc (Nat.succ_le_succ_iff.mp hf)

theorem eFold_mono {step step' : LState → Nat → Option (Option LState)}
    (hs : ∀ t c r, step t c = some r → step' t c = some r) :
    ∀ {cs : List Nat} {s : LState} {r : Option LState},
      eFold step cs s = some r → eFold step' cs s = some r := by
  intro cs
  induction cs with
  | nil => intro s r h; exact h
  | cons c cs ih =>
      intro s r h
      rw [eFold] at h ⊢
      cases hx : step s c with
      | none => rw [hx] at h; exact Option.noConfusion h
      | some q =>
          rw [hx] at h
          rw [hs s c q hx]
          cases q with
          | none => exact h
          | some s2 => exact ih h

theorem liveOutsE_mono {step step' : LState → Nat → Option (Option LState)}
    (hs : ∀ t c r, step t c = some r → step' t c = some r) :
    ∀ {f : Nat} {s : LState} {bn i : Nat} {r : Option LState},
      liveOutsE step f s bn i = some r → ∀ {f' : Nat}, f ≤ f' →
      liveOutsE step' f' s bn i = some r := by
  intro f
  induction f with
  | zero => intro s bn i r h; exact Option.noConfusion h
  | succ m ih =>
      intro s bn i r h f' hf
      cases f' with
      | zero => exact absurd hf (Nat.not_succ_le_zero m)
      | succ m' =>
          rw [liveOutsE] at h ⊢
          by_cases hi : i < (s.outgoingEdges bn).length
          · rw [dif_pos hi] at h ⊢
            cases hx : step s ((s.outgoingEdges bn).get ⟨i, hi⟩) with
            | none => rw [hx] at h; exact Option.noConfusion h
            | some q =>
                rw [hx] at h
                rw [hs _ _ _ hx]
                cases q with
                | none => exact h
                | some s2 => exact ih h (Nat.succ_le_succ_iff.mp hf)
          · rw [dif_neg hi] at h ⊢
            exact h

theorem findLoopsE_mono (g : CFG) : ∀ {f : Nat} {s : LState} {bn : Nat}
    {stack : List Nat} {r : Option LState},
    findLoopsE g f s bn stack = some r → ∀ {f' : Nat}, f ≤ f' →
    findLoopsE g f' s bn stack = some r := by
  intro f
  induction f with
  | zero => intro s bn stack r h; exact Option.noConfusion h
  | succ m ih =>
      intro s bn stack r h f' hf
      cases f' with
      | zero => exact absurd hf (Nat.not_succ_le_zero m)
      | succ m' =>
          rw [findLoopsE] at h ⊢
          cases hb : g.blk bn with
          | none => rw [hb] at h; exact h
          | some b =>
              rw [hb] at h
              dsimp only at h ⊢
              cases hhdr : (if b.isTrueLH = true then
                  if b.loopDepth = stack.length then
                    match stack.getLast? with
                    | none => none
                    | some parentID =>
                        match asLH (g.blk parentID) with
                        | none => none
                        | some p =>
                            some ({ s with parentLoop :=
                                     Function.update s.parentLoop bn (some p.number) },
                                  stack ++ [bn])
                  else none
                else some (s, stack) : Option (LState × List Nat)) with
              | none => rw [hhdr] at h; exact h
              | some p =>
                  rw [hhdr] at h
                  obtain ⟨s2, stack2⟩ := p
                  dsimp only at h ⊢
                  cases hlid : (if b.loopDepth + 1 < stack2.length then
                      stack2.take (b.loopDepth + 1) else stack2)[b.loopDepth]? with
                  | none => rw [hlid] at h; exact h
                  | some lid =>
                      rw [hlid] at h
                      dsimp only at h ⊢
                      by_cases hbe : b.isBackedge = true
                      · rw [if_pos hbe] at h ⊢
                        exact h
                      · rw [if_neg hbe] at h ⊢
                        exact eFold_mono
                          (fun t c q hq => ih hq (Nat.succ_le_succ_iff.mp hf)) h

theorem layerE_mono (g : CFG) : ∀ {f : Nat} {s : LState} {bn : Nat} {L : Int}
    {r : Option LState}, layerE g f s bn L = some r → ∀ {f' : Nat}, f ≤ f' →
    layerE g f' s bn L = some r := by
  intro f
  induction f with
  | zero => intro s bn L r h; exact Option.noConfusion h
  | succ m ih =>
      intro s bn L r h f' hf
      cases f' with
      | zero => exact absurd hf (Nat.not_succ_le_zero m)
      | succ m' =>
          have hm : m ≤ m' := Nat.succ_le_succ_iff.mp hf
          rw [layerE] at h ⊢
          cases hb : g.blk bn with
          | none => rw [hb] at h; exact h
          | some b =>
              rw [hb] at h
              dsimp only at h
              dsimp only
              by_cases hbe : b.isBackedge = true
              · rw [if_pos hbe] at h ⊢
                exact h
              · rw [if_neg hbe] at h ⊢
                cases ha : asLH (g.blk (s.loopID bn)) with
                | none => rw [ha] at h; exact h
                | some h0 =>
                    rw [ha] at h
                    dsimp only at h
                    dsimp only
                    cases hch : chainE m
                        { s with
                          layer := Function.update s.layer bn (max (s.layer bn) L),
                          numLayers := max (max (s.layer bn) L + 1) s.numLayers }
                        h0.number (max (s.layer bn) L) with
                    | none => rw [hch] at h; exact Option.noConfusion h
                    | some q =>
                        rw [hch] at h
                        rw [chainE_mono hch hm]
                        cases q with
                        | none => exact h
                        | some s2 =>
                            dsimp only at h
                            dsimp only
                            have hstep : ∀ (t : LState) (c : Nat) (rr : Option LState),
                                (match g.blk c with
                                 | none => some none
                                 | some cb =>
                                     if cb.loopDepth < b.loopDepth then
                                       match asLH (g.blk (t.loopID bn)) with
                                       | none => some none
                                       | some hh =>
                                           let oe := Function.update t.outgoingEdges
                                             hh.number (t.outgoingEdges hh.number ++ [c])
                                           some (some { t with outgoingEdges := oe })
                                     else layerE g m t c (L + 1) : Option (Option LState)) = some rr →
                                (match g.blk c with
                                 | none => some none
                                 | some cb =>
                                     if cb.loopDepth < b.loopDepth then
                                       match asLH (g.blk (t.loopID bn)) with
                                       | none => some none
                                       | some hh =>
                                           let oe := Function.update t.outgoingEdges
                                             hh.number (t.outgoingEdges hh.number ++ [c])
                                           some (some { t with outgoingEdges := oe })
                                     else layerE g m' t c (L + 1) : Option (Option LState)) = some rr := by
                              intro t c rr hq
                              cases hc2 : g.blk c with
                              | none => rw [hc2] at hq; exact hq
                              | some cb =>
                                  rw [hc2] at hq
                                  dsimp only at hq
                                  dsimp only
                                  by_cases hd : cb.loopDepth < b.loopDepth
                                  · rw [if_pos hd] at hq ⊢
                                    exact hq
                                  · rw [if_neg hd] at hq ⊢
                                    exact ih hq hm
                            cases hef : eFold (fun t c =>
                                match g.blk c with
                                | none => some none
                                | some cb =>
                                    if cb.loopDepth < b.loopDepth then
                                      match asLH (g.blk (t.loopID bn)) with
                                      | none => some none
                                      | some hh =>
                                          let oe := Function.update t.outgoingEdges
                                            hh.number (t.outgoingEdges hh.number ++ [c])
                                          some (some { t with outgoingEdges := oe })
                                    else layerE g m t c (L + 1)) b.successors s2 with
                            | none => rw [hef] at h; exact Option.noConfusion h
                            | some q2 =>
                                rw [hef] at h
                                rw [eFold_mono (fun t c rr hr => hstep t c rr hr) hef]
                                cases q2 with
                                | none => exact h
                                | some s3 =>
                                    dsimp only at h
                                    dsimp only
                                    by_cases hlh2 : b.isTrueLH = true
                                    · rw [if_pos hlh2] at h ⊢
                                      exact liveOutsE_mono
                                        (fun t c rr hr => ih hr hm) h hm
                                    · rw [if_neg hlh2] at h ⊢
                                      exact h

/-! #### The parent-loop climb terminates -/

theorem rank_le_foldrMax (rank : Nat → Nat) :
    ∀ (l : List MIRBlock) (b : MIRBlock), b ∈ l →
      rank b.number ≤ (l.map (fun b => rank b.number)).foldr max 0 := by
  intro l
  induction l with
  | nil => intro b hb; exact absurd hb (List.not_mem_nil b)
  | cons x xs ih =>
      intro b hb
      rw [List.map_cons, List.foldr_cons]
      rcases List.mem_cons.mp hb with hx | hxs
      · rw [hx]; exact le_max_left _ _
      · exact le_trans (ih b hxs) (le_max_right _ _)

theorem rank_le_rankMaxG {g : CFG} {rank : Nat → Nat} {b : MIRBlock}
    (hb : b ∈ g.blocks) : rank b.number ≤ rankMaxG g rank :=
  rank_le_foldrMax rank g.blocks b hb

theorem chainE_term {rank : Nat → Nat} {K : Nat} :
    ∀ (j : Nat) (h : Nat) (s : LState) (L : Int),
      PAncK rank K s → K < rank h + j → ∀ f, j + 1 ≤ f →
      ∃ s', chainE f s h L = some (some s') ∧ s'.layer = s.layer ∧
        s'.loopID = s.loopID ∧ s'.parentLoop = s.parentLoop ∧
        s'.outgoingEdges = s.outgoingEdges ∧ PAncK rank K s' := by
  intro j
  induction j with
  | zero =>
      intro h s L hp hK f hf
      cases f with
      | zero => exact absurd hf (Nat.not_succ_le_zero 0)
      | succ m =>
          rw [chainE]
          dsimp only
          cases hpl : s.parentLoop h with
          | none => exact ⟨_, rfl, rfl, rfl, rfl, rfl, fun h2 p2 hh => hp h2 p2 hh⟩
          | some p =>
              have := hp h p hpl
              omega
  | succ j ih =>
      intro h s L hp hK f hf
      cases f with
      | zero => exact absurd hf (Nat.not_succ_le_zero _)
      | succ m =>
          rw [chainE]
          dsimp only
          cases hpl : s.parentLoop h with
          | none => exact ⟨_, rfl, rfl, rfl, rfl, rfl, fun h2 p2 hh => hp h2 p2 hh⟩
          | some p =>
              have hpr := hp h p hpl
              have hK2 : K < rank p + j := by omega
              have hstep := ih p { s with loopHeight := Function.update s.loopHeight h (max (s.loopHeight h) (L - s.layer h + 1)) } L (fun h2 p2 hh => hp h2 p2 hh) hK2 m (Nat.succ_le_succ_iff.mp hf)
              obtain ⟨s', hs', e1, e2, e3, e4, hp'⟩ := hstep
              exact ⟨s', hs', e1, e2, e3, e4, hp'⟩

/-! #### Composition lemmas for the exception-aware folds -/

theorem eFold_pres {step : LState → Nat → Option (Option LState)}
    {P : LState → Prop} :
    ∀ {cs : List Nat} {s s' : LState},
      (∀ t c t', c ∈ cs → step t c = some (some t') → P t → P t') →
      eFold step cs s = some (some s') → P s → P s' := by
  intro cs
  induction cs with
  | nil =>
      intro s s' _ h hs
      injection h with h2
      injection h2 with h3
      rw [← h3]; exact hs
  | cons c cs ih =>
      intro s s' hstep h hs
      rw [eFold] at h
      cases hx : step s c with
      | none => rw [hx] at h; exact Option.noConfusion h
      | some q =>
          rw [hx] at h
          cases q with
          | none =>
              injection h with h2
              exact Option.noConfusion h2
          | some t' =>
              exact ih (fun t c2 t2 hc2 => hstep t c2 t2 (List.mem_cons_of_mem _ hc2)) h
                (hstep s c t' (List.mem_cons_self c cs) hx hs)

theorem eFold_cover {step : LState → Nat → Option (Option LState)}
    {P : LState → Prop} {c0 : Nat} :
    ∀ {cs : List Nat} {s s' : LState}, c0 ∈ cs →
      (∀ t c t', c ∈ cs → step t c = some (some t') → P t → P t') →
      (∀ t t', step t c0 = some (some t') → P t') →
      eFold step cs s = some (some s') → P s' := by
  intro cs
  induction cs with
  | nil => intro s s' hc; exact absurd hc (List.not_mem_nil c0)
  | cons c cs ih =>
      intro s s' hc hpres hest h
      rw [eFold] at h
      cases hx : step s c with
      | none => rw [hx] at h; exact Option.noConfusion h
      | some q =>
          rw [hx] at h
          cases q with
          | none =>
              injection h with h2
              exact Option.noConfusion h2
          | some t' =>
              rcases List.mem_cons.mp hc with hc0 | hcs
              · rw [hc0] at hest
                exact eFold_pres
                  (fun t c2 t2 hc2 => hpres t c2 t2 (List.mem_cons_of_mem _ hc2)) h
                  (hest s t' hx)
              · exact ih hcs
                  (fun t c2 t2 hc2 => hpres t c2 t2 (List.mem_cons_of_mem _ hc2))
                  hest h

/-! #### What `findLoops` writes -/

theorem eFold_rel {step : LState → Nat → Option (Option LState)}
    {R : LState → LState → Prop}
    (htrans : ∀ {a b c : LState}, R a b → R b c → R a c)
    (hrefl : ∀ a, R a a) :
    ∀ {cs : List Nat} {s s' : LState},
      (∀ t c t', c ∈ cs → step t c = some (some t') → R t t') →
      eFold step cs s = some (some s') → R s s' := by
  intro cs
  induction cs with
  | nil =>
      intro s s' _ h
      injection h with h2
      injection h2 with h3
      rw [← h3]; exact hrefl s
  | cons c cs ih =>
      intro s s' hstep h
      rw [eFold] at h
      cases hx : step s c with
      | none => rw [hx] at h; exact Option.noConfusion h
      | some q =>
          rw [hx] at h
          cases q with
          | none =>
              injection h with h2
              exact Option.noConfusion h2
          | some t' =>
              exact htrans (hstep s c t' (List.mem_cons_self c cs) hx)
                (ih (fun t c2 t2 hc2 => hstep t c2 t2 (List.mem_cons_of_mem _ hc2)) h)

/-- The write-effect relation of the loop classifier: layers and deferred
edges untouched, `loopID` writes ancestral, `parentLoop` writes strictly
climbing and bounded by `K`. -/
def FLRel (rank : Nat → Nat) (K : Nat) (a b : LState) : Prop :=
  b.layer = a.layer ∧ b.loopHeight = a.loopHeight ∧
  b.outgoingEdges = a.outgoingEdges ∧
  (∀ u, b.loopID u = a.loopID u ∨ Anc rank u (b.loopID u)) ∧
  (∀ h p, b.parentLoop h = some p → a.parentLoop h = some p ∨
    (rank h < rank p ∧ rank p ≤ K))

theorem flrel_refl (rank : Nat → Nat) (K : Nat) (a : LState) : FLRel rank K a a :=
  ⟨rfl, rfl, rfl, fun _ => Or.inl rfl, fun _ _ hp => Or.inl hp⟩

theorem flrel_trans {rank : Nat → Nat} {K : Nat} {a b c : LState}
    (h1 : FLRel rank K a b) (h2 : FLRel rank K b c) : FLRel rank K a c := by
  refine ⟨h2.1.trans h1.1, h2.2.1.trans h1.2.1, h2.2.2.1.trans h1.2.2.1, ?_, ?_⟩
  · intro u
    rcases h2.2.2.2.1 u with hsame | hanc
    · rw [hsame]
      exact h1.2.2.2.1 u
    · exact Or.inr hanc
  · intro h p hp
    rcases h2.2.2.2.2 h p hp with hsame | hnew
    · exact h1.2.2.2.2 h p hsame
    · exact Or.inr hnew


theorem findLoopsE_rest (g : CFG) (rank : Nat → Nat) (K : Nat)
    (hr : RankedAcyclic g rank) (hK : ∀ b ∈ g.blocks, rank b.number ≤ K)
    (m : Nat)
    (ih : ∀ {s : LState} {bn : Nat} {stack : List Nat} {s' : LState},
      findLoopsE g m s bn stack = some (some s') →
      (∀ e ∈ stack, rank bn < rank e) → FLRel rank K s s')
    (t : LState) (st2 : List Nat) (bn : Nat) (b : MIRBlock) (s' : LState)
    (hb : g.blk bn = some b)
    (hstk : ∀ e ∈ st2, rank bn < rank e ∨ e = bn)
    (h : (match (if b.loopDepth + 1 < st2.length then st2.take (b.loopDepth + 1)
            else st2)[b.loopDepth]? with
          | none => some none
          | some lid =>
              if b.isBackedge = true then
                some (some { t with loopID := Function.update t.loopID bn lid })
              else
                eFold (fun s2 c => findLoopsE g m s2 c
                    (if b.loopDepth + 1 < st2.length then st2.take (b.loopDepth + 1)
                      else st2))
                  b.successors { t with loopID := Function.update t.loopID bn lid }
          : Option (Option LState)) = some (some s')) :
    FLRel rank K t s' := by
  have hsub : ∀ e ∈ (if b.loopDepth + 1 < st2.length then st2.take (b.loopDepth + 1)
      else st2), rank bn < rank e ∨ e = bn := by
    intro e he
    by_cases hc : b.loopDepth + 1 < st2.length
    · rw [if_pos hc] at he
      exact hstk e (List.take_subset _ _ he)
    · rw [if_neg hc] at he
      exact hstk e he
  cases hlid : (if b.loopDepth + 1 < st2.length then st2.take (b.loopDepth + 1)
      else st2)[b.loopDepth]? with
  | none =>
      rw [hlid] at h
      injection h with h2
      exact Option.noConfusion h2
  | some lid =>
      rw [hlid] at h
      dsimp only at h
      have hanc : Anc rank bn lid := by
        have hmem : lid ∈ (if b.loopDepth + 1 < st2.length then
            st2.take (b.loopDepth + 1) else st2) := by
          exact List.getElem?_mem hlid
        rcases hsub lid hmem with hlt | heq
        · exact Or.inr hlt
        · rw [heq]; exact Or.inl rfl
      have hrel1 : FLRel rank K t { t with loopID := Function.update t.loopID bn lid } := by
        refine ⟨rfl, rfl, rfl, ?_, fun _ _ hp => Or.inl hp⟩
        intro u
        dsimp only
        by_cases hu : u = bn
        · rw [hu]
          rw [Function.update_same]
          exact Or.inr (hu ▸ hanc)
        · rw [Function.update_noteq hu]
          exact Or.inl rfl
      by_cases hbe : b.isBackedge = true
      · rw [if_pos hbe] at h
        injection h with h2
        injection h2 with h3
        rw [← h3]
        exact hrel1
      · rw [if_neg hbe] at h
        refine flrel_trans hrel1 ?_
        refine eFold_rel (R := FLRel rank K) (fun hab hbc => flrel_trans hab hbc)
          (flrel_refl rank K) ?_ h
        intro u c u' hc hstep
        have hrc : rank c < rank bn := by
          have := hr b (blk_mem hb) (eq_false_of_ne_true hbe) c hc
          rw [blk_number hb] at this
          exact this
        refine ih hstep ?_
        intro e he
        rcases hsub e he with hlt | heq
        · exact lt_trans hrc hlt
        · rw [heq]; exact hrc

/-- A successful `findLoopsE` run relates its start and end state by
`FLRel`: layers and deferred edges untouched, ancestral `loopID` writes,
strictly climbing bounded `parentLoop` writes. -/
theorem findLoopsE_writes (g : CFG) (rank : Nat → Nat) (K : Nat)
    (hr : RankedAcyclic g rank) (hK : ∀ b ∈ g.blocks, rank b.number ≤ K) :
    ∀ {f : Nat} {s : LState} {bn : Nat} {stack : List Nat} {s' : LState},
      findLoopsE g f s bn stack = some (some s') →
      (∀ e ∈ stack, rank bn < rank e) →
      FLRel rank K s s' := by
  intro f
  induction f with
  | zero => intro s bn stack s' h; exact Option.noConfusion h
  | succ m ih =>
      intro s bn stack s' h hstk
      rw [findLoopsE] at h
      cases hb : g.blk bn with
      | none =>
          rw [hb] at h
          injection h with h2
          exact Option.noConfusion h2
      | some b =>
          rw [hb] at h
          dsimp only at h
          by_cases hlh : b.isTrueLH = true
          · rw [if_pos hlh] at h
            by_cases hd : b.loopDepth = stack.length
            · rw [if_pos hd] at h
              cases hlast : stack.getLast? with
              | none =>
                  rw [hlast] at h
                  dsimp only at h
                  injection h with h2
                  exact Option.noConfusion h2
              | some parentID =>
                  rw [hlast] at h
                  dsimp only at h
                  cases has : asLH (g.blk parentID) with
                  | none =>
                      rw [has] at h
                      injection h with h2
                      exact Option.noConfusion h2
                  | some p =>
                      rw [has] at h
                      dsimp only at h
                      have hpn : p.number = parentID := blk_number (asLH_eq_some has)
                      have hpmem : p ∈ g.blocks := blk_mem (asLH_eq_some has)
                      have hpl : rank bn < rank parentID :=
                        hstk parentID (List.mem_of_mem_getLast? hlast)
                      have hrel0 : FLRel rank K s
                          { s with parentLoop := Function.update s.parentLoop bn (some p.number) } := by
                        refine ⟨rfl, rfl, rfl, fun _ => Or.inl rfl, ?_⟩
                        intro h2 p2 hp2
                        dsimp only at hp2
                        by_cases hh2 : h2 = bn
                        · rw [hh2, Function.update_same] at hp2
                          injection hp2 with hps
                          refine Or.inr ?_
                          rw [← hps, hpn, hh2]
                          exact ⟨hpl, hpn ▸ hK p hpmem⟩
                        · rw [Function.update_noteq hh2] at hp2
                          exact Or.inl hp2
                      refine flrel_trans hrel0 ?_
                      refine findLoopsE_rest g rank K hr hK m (fun ha hb2 => ih ha hb2)
                        _ (stack ++ [bn]) bn b s' hb ?_ h
                      intro e he
                      rcases List.mem_append.mp he with h1 | h2
                      · exact Or.inl (hstk e h1)
                      · rw [List.mem_singleton.mp h2]; exact Or.inr rfl
            · rw [if_neg hd] at h
              injection h with h2
              exact Option.noConfusion h2
          · rw [if_neg hlh] at h
            dsimp only at h
            exact findLoopsE_rest g rank K hr hK m (fun ha hb2 => ih ha hb2)
              s stack bn b s' hb (fun e he => Or.inl (hstk e he)) h

theorem findLoopsE_rest_cover (g : CFG) (rank : Nat → Nat) (K : Nat)
    (hr : RankedAcyclic g rank) (hK : ∀ b ∈ g.blocks, rank b.number ≤ K)
    (m : Nat)
    (ihc : ∀ {s : LState} {bn : Nat} {stack : List Nat} {s' : LState},
      findLoopsE g m s bn stack = some (some s') →
      (∀ e ∈ stack, rank bn < rank e) →
      ∀ u, NBReach g bn u → Anc rank u (s'.loopID u))
    (t : LState) (st2 : List Nat) (bn : Nat) (b : MIRBlock) (s' : LState)
    (hb : g.blk bn = some b)
    (hstk : ∀ e ∈ st2, rank bn < rank e ∨ e = bn)
    (h : (match (if b.loopDepth + 1 < st2.length then st2.take (b.loopDepth + 1)
            else st2)[b.loopDepth]? with
          | none => some none
          | some lid =>
              if b.isBackedge = true then
                some (some { t with loopID := Function.update t.loopID bn lid })
              else
                eFold (fun s2 c => findLoopsE g m s2 c
                    (if b.loopDepth + 1 < st2.length then st2.take (b.loopDepth + 1)
                      else st2))
                  b.successors { t with loopID := Function.update t.loopID bn lid }
          : Option (Option LState)) = some (some s')) :
    ∀ u, NBReach g bn u → Anc rank u (s'.loopID u) := by
  have hsub : ∀ e ∈ (if b.loopDepth + 1 < st2.length then st2.take (b.loopDepth + 1)
      else st2), rank bn < rank e ∨ e = bn := by
    intro e he
    by_cases hc : b.loopDepth + 1 < st2.length
    · rw [if_pos hc] at he
      exact hstk e (List.take_subset _ _ he)
    · rw [if_neg hc] at he
      exact hstk e he
  cases hlid : (if b.loopDepth + 1 < st2.length then st2.take (b.loopDepth + 1)
      else st2)[b.loopDepth]? with
  | none =>
      rw [hlid] at h
      injection h with h2
      exact Option.noConfusion h2
  | some lid =>
      rw [hlid] at h
      dsimp only at h
      have hanc : Anc rank bn lid := by
        rcases hsub lid (List.getElem?_mem hlid) with hlt | heq
        · exact Or.inr hlt
        · rw [heq]; exact Or.inl rfl
      have hwr : Anc rank bn ({ t with loopID := Function.update t.loopID bn lid }.loopID bn) := by
        dsimp only
        rw [Function.update_same]
        exact hanc
      intro u hu
      by_cases hbe : b.isBackedge = true
      · rw [if_pos hbe] at h
        injection h with h2
        injection h2 with h3
        rw [← h3]
        cases hu with
        | refl => exact hwr
        | step b2 hblk hnb hv hre =>
            rw [hb] at hblk
            injection hblk with hbb
            rw [hbb] at hbe
            rw [hnb] at hbe
            exact Bool.noConfusion hbe
      · rw [if_neg hbe] at h
        have hstepstk : ∀ c ∈ b.successors,
            ∀ e ∈ (if b.loopDepth + 1 < st2.length then st2.take (b.loopDepth + 1)
              else st2), rank c < rank e := by
          intro c hc e he
          have hrc : rank c < rank bn := by
            have := hr b (blk_mem hb) (eq_false_of_ne_true hbe) c hc
            rw [blk_number hb] at this
            exact this
          rcases hsub e he with hlt | heq
          · exact lt_trans hrc hlt
          · rw [heq]; exact hrc
        cases hu with
        | refl =>
            refine eFold_pres (P := fun t2 => Anc rank bn (t2.loopID bn)) ?_ h hwr
            intro t2 c t2' hc hstep hP
            rcases (findLoopsE_writes g rank K hr hK hstep (hstepstk c hc)).2.2.2.1 bn with
              hsame | hanc2
            · rw [hsame]; exact hP
            · exact hanc2
        | step b2 hblk hnb hv hre =>
            rename_i v2
            rw [hb] at hblk
            injection hblk with hbb
            rw [← hbb] at hv
            refine @eFold_cover _ (fun t2 => Anc rank u (t2.loopID u)) v2 _ _ _
              hv ?_ ?_ h
            · intro t2 c t2' hc hstep hP
              rcases (findLoopsE_writes g rank K hr hK hstep (hstepstk c hc)).2.2.2.1 u with
                hsame | hanc2
              · rw [hsame]; exact hP
              · exact hanc2
            · intro t2 t2' hstep
              exact ihc hstep (hstepstk v2 hv) u hre

/-- Coverage: after a successful `findLoopsE` from `bn`, every block
reachable from `bn` along non-backedge successor edges carries an
ancestral `loopID`. -/
theorem findLoopsE_cover (g : CFG) (rank : Nat → Nat) (K : Nat)
    (hr : RankedAcyclic g rank) (hK : ∀ b ∈ g.blocks, rank b.number ≤ K) :
    ∀ {f : Nat} {s : LState} {bn : Nat} {stack : List Nat} {s' : LState},
      findLoopsE g f s bn stack = some (some s') →
      (∀ e ∈ stack, rank bn < rank e) →
      ∀ u, NBReach g bn u → Anc rank u (s'.loopID u) := by
  intro f
  induction f with
  | zero => intro s bn stack s' h; exact Option.noConfusion h
  | succ m ih =>
      intro s bn stack s' h hstk
      rw [findLoopsE] at h
      cases hb : g.blk bn with
      | none =>
          rw [hb] at h
          injection h with h2
          exact Option.noConfusion h2
      | some b =>
          rw [hb] at h
          dsimp only at h
          by_cases hlh : b.isTrueLH = true
          · rw [if_pos hlh] at h
            by_cases hd : b.loopDepth = stack.length
            · rw [if_pos hd] at h
              cases hlast : stack.getLast? with
              | none =>
                  rw [hlast] at h
                  dsimp only at h
                  injection h with h2
                  exact Option.noConfusion h2
              | some parentID =>
                  rw [hlast] at h
                  dsimp only at h
                  cases has : asLH (g.blk parentID) with
                  | none =>
                      rw [has] at h
                      injection h with h2
                      exact Option.noConfusion h2
                  | some p =>
                      rw [has] at h
                      dsimp only at h
                      refine findLoopsE_rest_cover g rank K hr hK m
                        (fun ha hb2 => ih ha hb2)
                        { s with parentLoop := Function.update s.parentLoop bn (some p.number) }
                        (stack ++ [bn]) bn b s' hb ?_ h
                      intro e he
                      rcases List.mem_append.mp he with h1 | h2
                      · exact Or.inl (hstk e h1)
                      · rw [List.mem_singleton.mp h2]; exact Or.inr rfl
            · rw [if_neg hd] at h
              injection h with h2
              exact Option.noConfusion h2
          · rw [if_neg hlh] at h
            dsimp only at h
            exact findLoopsE_rest_cover g rank K hr hK m (fun ha hb2 => ih ha hb2)
              s stack bn b s' hb (fun e he => Or.inl (hstk e he)) h

/-- The root call writes the same fields, with the `[bn]` stack, provided
the root is not a true loop header (so the header branch does not make the
root its own parent). -/
theorem findLoopsRootE_writes (g : CFG) (rank : Nat → Nat) (K : Nat)
    (hr : RankedAcyclic g rank) (hK : ∀ b ∈ g.blocks, rank b.number ≤ K)
    {f : Nat} {s : LState} {bn : Nat} {s' : LState}
    (hnh : ∀ b2, g.blk bn = some b2 → b2.isTrueLH = false)
    (h : findLoopsRootE g f s bn = some (some s')) :
    FLRel rank K s s' := by
  rw [findLoopsRootE] at h
  cases f with
  | zero => exact Option.noConfusion h
  | succ m =>
      rw [findLoopsE] at h
      cases hb : g.blk bn with
      | none =>
          rw [hb] at h
          injection h with h2
          exact Option.noConfusion h2
      | some b =>
          rw [hb] at h
          dsimp only at h
          have hlh : ¬ b.isTrueLH = true := by
            rw [hnh b hb]
            exact Bool.false_ne_true
          rw [if_neg hlh] at h
          dsimp only at h
          exact findLoopsE_rest g rank K hr hK m
            (fun ha hb2 => findLoopsE_writes g rank K hr hK ha hb2)
            s [bn] bn b s' hb
            (fun e he => Or.inr (List.mem_singleton.mp he)) h

/-- Coverage for the root call: reachable blocks get an ancestral
`loopID`, provided the root is not a true loop header. -/
theorem findLoopsRootE_cover (g : CFG) (rank : Nat → Nat) (K : Nat)
    (hr : RankedAcyclic g rank) (hK : ∀ b ∈ g.blocks, rank b.number ≤ K)
    {f : Nat} {s : LState} {bn : Nat} {s' : LState}
    (hnh : ∀ b2, g.blk bn = some b2 → b2.isTrueLH = false)
    (h : findLoopsRootE g f s bn = some (some s')) :
    ∀ u, NBReach g bn u → Anc rank u (s'.loopID u) := by
  rw [findLoopsRootE] at h
  cases f with
  | zero => exact Option.noConfusion h
  | succ m =>
      rw [findLoopsE] at h
      cases hb : g.blk bn with
      | none =>
          rw [hb] at h
          injection h with h2
          exact Option.noConfusion h2
      | some b =>
          rw [hb] at h
          dsimp only at h
          have hlh : ¬ b.isTrueLH = true := by
            rw [hnh b hb]
            exact Bool.false_ne_true
          rw [if_neg hlh] at h
          dsimp only at h
          exact findLoopsE_rest_cover g rank K hr hK m
            (fun ha hb2 => findLoopsE_cover g rank K hr hK ha hb2)
            s [bn] bn b s' hb
            (fun e he => Or.inr (List.mem_singleton.mp he)) h

/-! #### Effect composition for the layering walk -/

theorem lrel_refl (rank : Nat → Nat) (R : Nat → Prop) (ρ : Nat) (a : LState) :
    LRel rank R ρ a a :=
  ⟨fun h => ⟨[], (List.append_nil _).symm, fun c hc => absurd hc (List.not_mem_nil c)⟩,
   rfl, rfl⟩

theorem lrel_trans {rank : Nat → Nat} {R : Nat → Prop} {ρ : Nat}
    {a b c : LState} (h1 : LRel rank R ρ a b) (h2 : LRel rank R ρ b c) :
    LRel rank R ρ a c := by
  refine ⟨?_, h2.2.1.trans h1.2.1, h2.2.2.trans h1.2.2⟩
  intro h
  obtain ⟨n1, e1, p1⟩ := h1.1 h
  obtain ⟨n2, e2, p2⟩ := h2.1 h
  refine ⟨n1 ++ n2, ?_, ?_⟩
  · rw [e2, e1, List.append_assoc]
  · intro x hx
    rcases List.mem_append.mp hx with hx1 | hx2
    · exact p1 x hx1
    · exact p2 x hx2

theorem lrel_weaken {rank : Nat → Nat} {R : Nat → Prop} {ρ ρ2 : Nat}
    {a b : LState} (h : LRel rank R ρ a b) (hle : ρ ≤ ρ2) :
    LRel rank R ρ2 a b := by
  refine ⟨?_, h.2.1, h.2.2⟩
  intro hh
  obtain ⟨n, e, p⟩ := h.1 hh
  exact ⟨n, e, fun c hc => ⟨lt_of_lt_of_le (p c hc).1 hle, (p c hc).2⟩⟩

/-- Fuel-stable termination composes over the exception-aware fold. -/
theorem eFold_fuelTerm {stepf : Nat → LState → Nat → Option (Option LState)}
    {P : LState → Prop} {Rel : LState → LState → Prop}
    (htrans : ∀ {a b c : LState}, Rel a b → Rel b c → Rel a c)
    (hrefl : ∀ a, Rel a a) :
    ∀ {cs : List Nat},
      (∀ t c, c ∈ cs → P t → ∃ f0 r, (∀ f, f0 ≤ f → stepf f t c = some r) ∧
        ∀ t', r = some t' → P t' ∧ Rel t t') →
      ∀ s, P s → ∃ f0 r, (∀ f, f0 ≤ f → eFold (stepf f) cs s = some r) ∧
        ∀ s', r = some s' → P s' ∧ Rel s s' := by
  intro cs
  induction cs with
  | nil =>
      intro _ s hs
      exact ⟨0, some s, fun f _ => rfl, fun s' hs' => by
        injection hs' with h2
        rw [← h2]
        exact ⟨hs, hrefl s⟩⟩
  | cons c cs ih =>
      intro hstep s hs
      obtain ⟨f1, r1, hr1, hp1⟩ := hstep s c (List.mem_cons_self c cs) hs
      cases r1 with
      | none =>
          refine ⟨f1, none, fun f hf => ?_, fun s' hs' => Option.noConfusion hs'⟩
          rw [eFold, hr1 f hf]
      | some t' =>
          obtain ⟨hpt, hrt⟩ := hp1 t' rfl
          obtain ⟨f2, r2, hr2, hp2⟩ :=
            ih (fun t c2 hc2 ht => hstep t c2 (List.mem_cons_of_mem _ hc2) ht) t' hpt
          refine ⟨max f1 f2, r2, fun f hf => ?_, fun s' hs' => ?_⟩
          · rw [eFold, hr1 f (le_trans (le_max_left _ _) hf)]
            exact hr2 f (le_trans (le_max_right _ _) hf)
          · obtain ⟨hps, hrs⟩ := hp2 s' hs'
            exact ⟨hps, htrans hrt hrs⟩

/-- The live `outgoingEdges` loop terminates: each processed entry is
replaced (in the multiset of pending ranks) by finitely many entries of
strictly smaller rank, a well-founded descent. -/
theorem liveOutsE_term (g : CFG) (rank : Nat → Nat) (K : Nat) (R : Nat → Prop)
    (bn : Nat) (L0 : Int)
    (IHe : ∀ (c : Nat) (t : LState) (L : Int), rank c < rank bn → R c →
      WalkInv rank K R t →
      ∃ f0 r, (∀ f, f0 ≤ f → layerE g f t c L = some r) ∧
        ∀ t', r = some t' → WalkInv rank K R t' ∧ LRel rank R (rank c) t t') :
    ∀ (M : Multiset Nat), Acc DMLt M →
    ∀ (s : LState) (i : Nat), pendingM rank s bn i = M → WalkInv rank K R s →
    ∃ f0 r, (∀ fs fl, f0 ≤ fs → f0 ≤ fl →
        liveOutsE (fun t c => layerE g fs t c (L0 + t.loopHeight bn)) fl s bn i
          = some r) ∧
      ∀ s', r = some s' → WalkInv rank K R s' ∧ LRel rank R (rank bn) s s' := by
  intro M hacc
  induction hacc with
  | intro M hM ihM =>
      intro s i hpend hinv
      by_cases hi : i < (s.outgoingEdges bn).length
      · have hmem : (s.outgoingEdges bn).get ⟨i, hi⟩ ∈ s.outgoingEdges bn :=
          List.get_mem _ i hi
        obtain ⟨hrc, hRc⟩ := hinv.2.1 bn _ hmem
        obtain ⟨f1, r1, hr1, hp1⟩ :=
          IHe ((s.outgoingEdges bn).get ⟨i, hi⟩) s (L0 + s.loopHeight bn) hrc hRc hinv
        cases r1 with
        | none =>
            refine ⟨f1 + 1, none, fun fs fl hfs hfl => ?_,
              fun s' hs' => Option.noConfusion hs'⟩
            cases fl with
            | zero => exact absurd hfl (Nat.not_succ_le_zero f1)
            | succ fl2 =>
                rw [liveOutsE]
                rw [dif_pos hi]
                rw [hr1 fs (le_trans (Nat.le_succ f1) hfs)]
        | some s1 =>
            obtain ⟨hinv1, hrel1⟩ := hp1 s1 rfl
            have hdm : DMLt (pendingM rank s1 bn (i + 1)) M := by
              obtain ⟨new, hnew, hpnew⟩ := hrel1.1 bn
              have hsplit : (s.outgoingEdges bn).drop i =
                  (s.outgoingEdges bn).get ⟨i, hi⟩ :: (s.outgoingEdges bn).drop (i + 1) := by
                rw [List.get_eq_getElem]
                exact List.drop_eq_getElem_cons hi
              refine ⟨rank ((s.outgoingEdges bn).get ⟨i, hi⟩), (new.map rank : List Nat),
                ?_, ?_, ?_⟩
              · rw [← hpend]
                unfold pendingM
                rw [hsplit, List.map_cons]
                exact Multiset.mem_coe.mpr (List.mem_cons_self _ _)
              · rw [← hpend]
                unfold pendingM
                rw [hnew, List.drop_append_of_le_length (Nat.succ_le_of_lt hi),
                  List.map_append, hsplit, List.map_cons, ← Multiset.cons_coe,
                  Multiset.erase_cons_head]
                rfl
              · intro k hk
                rw [Multiset.mem_coe, List.mem_map] at hk
                obtain ⟨c2, hc2, hck⟩ := hk
                rw [← hck]
                exact (hpnew c2 hc2).1
            obtain ⟨f2, r2, hr2, hp2⟩ := ihM _ hdm s1 (i + 1) rfl hinv1
            refine ⟨max f1 f2 + 1, r2, fun fs fl hfs hfl => ?_, fun s' hs' => ?_⟩
            · cases fl with
              | zero => exact absurd hfl (Nat.not_succ_le_zero _)
              | succ fl2 =>
                  rw [liveOutsE]
                  rw [dif_pos hi]
                  rw [hr1 fs (le_trans (le_trans (le_max_left _ _) (Nat.le_succ _)) hfs)]
                  exact hr2 fs fl2
                    (le_trans (le_trans (le_max_right f1 f2) (Nat.le_succ _)) hfs)
                    (le_trans (le_max_right _ _) (Nat.succ_le_succ_iff.mp hfl))
            · obtain ⟨hps, hrs⟩ := hp2 s' hs'
              exact ⟨hps, lrel_trans (lrel_weaken hrel1 (Nat.le_of_lt hrc)) hrs⟩
      · refine ⟨1, some s, fun fs fl hfs hfl => ?_, fun s' hs' => ?_⟩
        · cases fl with
          | zero => exact absurd hfl (Nat.not_succ_le_zero 0)
          | succ fl2 =>
              rw [liveOutsE]
              rw [dif_neg hi]
        · injection hs' with h2
          rw [← h2]
          exact ⟨hinv, lrel_refl rank R (rank bn) s⟩

/-- The layering recursion terminates: under a rank certifying that every
cycle passes a backedge block, and with the invariants established by the
loop classifier, `layerE` stabilises at some result for all sufficient
fuel.  Recursion along successor edges and into deferred loop exits
strictly decreases the rank; the live loop descends in the Dershowitz–
Manna order; the parent-loop climb strictly increases a bounded rank. -/
theorem layerE_term (g : CFG) (rank : Nat → Nat) (K : Nat) (R : Nat → Prop)
    (hr : RankedAcyclic g rank) (hK : ∀ b ∈ g.blocks, rank b.number ≤ K)
    (hclosed : NBClosed g R) :
    ∀ (ρ : Nat) (bn : Nat) (s : LState) (L : Int), rank bn < ρ → R bn →
      WalkInv rank K R s →
      ∃ f0 r, (∀ f, f0 ≤ f → layerE g f s bn L = some r) ∧
        ∀ s', r = some s' → WalkInv rank K R s' ∧ LRel rank R (rank bn) s s' := by
  intro ρ
  induction ρ using Nat.strong_induction_on with
  | _ ρ IH =>
  intro bn s L hρ hR hinv
  cases hb : g.blk bn with
  | none =>
      refine ⟨1, none, fun f hf => ?_, fun s' hs' => Option.noConfusion hs'⟩
      cases f with
      | zero => exact absurd hf (Nat.not_succ_le_zero 0)
      | succ f2 =>
          rw [layerE]
          rw [hb]
  | some b =>
      by_cases hbe : b.isBackedge = true
      · cases hs0 : b.successors[0]? with
        | none =>
            refine ⟨1, none, fun f hf => ?_, fun s' hs' => Option.noConfusion hs'⟩
            cases f with
            | zero => exact absurd hf (Nat.not_succ_le_zero 0)
            | succ f2 =>
                rw [layerE]
                rw [hb]
                dsimp only
                rw [if_pos hbe, hs0]
        | some c0 =>
            refine ⟨1, some { s with layer := Function.update s.layer bn (s.layer c0) },
              fun f hf => ?_, fun s' hs' => ?_⟩
            · cases f with
              | zero => exact absurd hf (Nat.not_succ_le_zero 0)
              | succ f2 =>
                  rw [layerE]
                  rw [hb]
                  dsimp only
                  rw [if_pos hbe, hs0]
            · injection hs' with h2
              rw [← h2]
              exact ⟨⟨hinv.1, hinv.2.1, hinv.2.2⟩, lrel_refl rank R (rank bn) s⟩
      · -- the non-backedge path
        cases ha : asLH (g.blk (s.loopID bn)) with
        | none =>
            refine ⟨1, none, fun f hf => ?_, fun s' hs' => Option.noConfusion hs'⟩
            cases f with
            | zero => exact absurd hf (Nat.not_succ_le_zero 0)
            | succ f2 =>
                rw [layerE]
                rw [hb]
                dsimp only
                rw [if_neg hbe]
                rw [ha]
        | some h0 =>
            -- the updated state before the climb
            have hinv1 : WalkInv rank K R
                { s with layer := Function.update s.layer bn (max (s.layer bn) L),
                         numLayers := max (max (s.layer bn) L + 1) s.numLayers } :=
              ⟨hinv.1, hinv.2.1, hinv.2.2⟩
            obtain ⟨s2, hch, hce1, hce2, hce3, hce4, hcp⟩ :=
              @chainE_term rank K (K + 1) h0.number
                { s with layer := Function.update s.layer bn (max (s.layer bn) L),
                         numLayers := max (max (s.layer bn) L + 1) s.numLayers }
                (max (s.layer bn) L) hinv1.2.2 (by omega) (K + 2) (le_refl _)
            have hinv2 : WalkInv rank K R s2 := by
              refine ⟨?_, ?_, hcp⟩
              · intro u hu
                rw [hce2]
                exact hinv1.1 u hu
              · intro h c hc
                rw [hce4] at hc
                exact hinv1.2.1 h c hc
            -- the successor pass
            have hrcb : ∀ c ∈ b.successors, rank c < rank bn := by
              intro c hc
              have := hr b (blk_mem hb) (eq_false_of_ne_true hbe) c hc
              rw [blk_number hb] at this
              exact this
            have hRcb : ∀ c ∈ b.successors, R c :=
              fun c hc => hclosed bn b hR hb (eq_false_of_ne_true hbe) c hc
            have hstepOb : ∀ (t : LState) (c : Nat), c ∈ b.successors →
                WalkInv rank K R t →
                ∃ f0 r, (∀ f, f0 ≤ f →
                    (match g.blk c with
                     | none => some none
                     | some cb =>
                         if cb.loopDepth < b.loopDepth then
                           match asLH (g.blk (t.loopID bn)) with
                           | none => some none
                           | some hh =>
                               some (some { t with outgoingEdges := Function.update t.outgoingEdges hh.number (t.outgoingEdges hh.number ++ [c]) })
                         else layerE g f t c (L + 1) : Option (Option LState)) = some r) ∧
                  ∀ t', r = some t' → WalkInv rank K R t' ∧ LRel rank R (rank bn) t t' := by
              intro t c hc ht
              cases hc2 : g.blk c with
              | none =>
                  exact ⟨0, none, fun f _ => rfl, fun t' ht' => Option.noConfusion ht'⟩
              | some cb =>
                  by_cases hd : cb.loopDepth < b.loopDepth
                  · cases has2 : asLH (g.blk (t.loopID bn)) with
                    | none =>
                        refine ⟨0, none, fun f _ => ?_, fun t' ht' => Option.noConfusion ht'⟩
                        dsimp only
                        rw [if_pos hd]
                    | some hh =>
                        refine ⟨0, some { t with outgoingEdges := Function.update t.outgoingEdges hh.number (t.outgoingEdges hh.number ++ [c]) }, fun f _ => ?_, fun t' ht' => ?_⟩
                        · dsimp only
                          rw [if_pos hd]
                        · injection ht' with h2
                          rw [← h2]
                          have hhn : hh.number = t.loopID bn :=
                            blk_number (asLH_eq_some has2)
                          have hanc : rank bn ≤ rank hh.number := by
                            rcases ht.1 bn hR with heq | hlt
                            · rw [hhn, ← heq]
                            · rw [hhn]; exact Nat.le_of_lt hlt
                          have hrc : rank c < rank bn := hrcb c hc
                          refine ⟨⟨?_, ?_, ?_⟩, ?_, rfl, rfl⟩
                          · intro u hu
                            exact ht.1 u hu
                          · intro h2 c2 hc2m
                            dsimp only at hc2m
                            by_cases hht : h2 = hh.number
                            · rw [hht, Function.update_same] at hc2m
                              rcases List.mem_append.mp hc2m with hold | hnew
                              · have := ht.2.1 h2 c2 (hht ▸ hold)
                                exact this
                              · rw [List.mem_singleton.mp hnew]
                                rw [hht]
                                exact ⟨lt_of_lt_of_le hrc hanc, hRcb c hc⟩
                            · rw [Function.update_noteq hht] at hc2m
                              exact ht.2.1 h2 c2 hc2m
                          · intro h2 p2 hp2
                            exact ht.2.2 h2 p2 hp2
                          · intro h2
                            dsimp only
                            by_cases hht : h2 = hh.number
                            · rw [hht, Function.update_same]
                              exact ⟨[c], rfl, fun c2 hc2m => by
                                rw [List.mem_singleton.mp hc2m]
                                exact ⟨hrc, hRcb c hc⟩⟩
                            · rw [Function.update_noteq hht]
                              exact ⟨[], (List.append_nil _).symm,
                                fun c2 hc2m => absurd hc2m (List.not_mem_nil c2)⟩
                  · obtain ⟨f5, r5, hr5, hp5⟩ :=
                      IH (rank bn) hρ c t (L + 1) (hrcb c hc) (hRcb c hc) ht
                    refine ⟨f5, r5, fun f hf => ?_, fun t' ht' => ?_⟩
                    · dsimp only
                      rw [if_neg hd]
                      exact hr5 f hf
                    · obtain ⟨hpt, hrt⟩ := hp5 t' ht'
                      exact ⟨hpt, lrel_weaken hrt (Nat.le_of_lt (hrcb c hc))⟩

            obtain ⟨f3, r3, hr3, hp3⟩ :=
              @eFold_fuelTerm (fun f t c =>
                  match g.blk c with
                  | none => some none
                  | some cb =>
                      if cb.loopDepth < b.loopDepth then
                        match asLH (g.blk (t.loopID bn)) with
                        | none => some none
                        | some hh =>
                            some (some { t with outgoingEdges := Function.update t.outgoingEdges hh.number (t.outgoingEdges hh.number ++ [c]) })
                      else layerE g f t c (L + 1))
                (WalkInv rank K R) (LRel rank R (rank bn))
                (fun hab hbc => lrel_trans hab hbc) (lrel_refl rank R (rank bn))
                b.successors hstepOb s2 hinv2
            cases r3 with
              | none =>
                  refine ⟨max (K + 2) f3 + 1, none, fun f hf => ?_,
                    fun s' hs' => Option.noConfusion hs'⟩
                  cases f with
                  | zero => exact absurd hf (Nat.not_succ_le_zero _)
                  | succ f2 =>
                      have hf2 : max (K + 2) f3 ≤ f2 := Nat.succ_le_succ_iff.mp hf
                      rw [layerE]
                      rw [hb]
                      dsimp only
                      rw [if_neg hbe]
                      rw [ha]
                      dsimp only
                      rw [chainE_mono hch (le_trans (le_max_left _ _) hf2)]
                      dsimp only
                      rw [hr3 f2 (le_trans (le_max_right _ _) hf2)]
              | some s3 =>
                  obtain ⟨hinv3, hrel3⟩ := hp3 s3 rfl
                  by_cases hlh : b.isTrueLH = true
                  · -- the live loop over deferred exits
                    obtain ⟨f4, r4, hr4, hp4⟩ :=
                      liveOutsE_term g rank K R bn L
                        (fun c t L2 hc hRc hinvt =>
                          IH (rank bn) hρ c t L2 hc hRc hinvt)
                        (pendingM rank s3 bn 0) (dm_wf.apply _) s3 0 rfl hinv3
                    refine ⟨max (K + 2) (max f3 f4) + 1, r4, fun f hf => ?_,
                      fun s' hs' => ?_⟩
                    · cases f with
                      | zero => exact absurd hf (Nat.not_succ_le_zero _)
                      | succ f2 =>
                          have hf2 : max (K + 2) (max f3 f4) ≤ f2 :=
                            Nat.succ_le_succ_iff.mp hf
                          rw [layerE]
                          rw [hb]
                          dsimp only
                          rw [if_neg hbe]
                          rw [ha]
                          dsimp only
                          rw [chainE_mono hch (le_trans (le_max_left _ _) hf2)]
                          dsimp only
                          rw [hr3 f2 (le_trans (le_trans (le_max_left _ _)
                            (le_max_right _ _)) hf2)]
                          dsimp only
                          rw [if_pos hlh]
                          exact hr4 f2 f2
                            (le_trans (le_trans (le_max_right _ _) (le_max_right _ _)) hf2)
                            (le_trans (le_trans (le_max_right _ _) (le_max_right _ _)) hf2)
                    · obtain ⟨hps, hrs⟩ := hp4 s' hs'
                      refine ⟨hps, ?_⟩
                      have hrel12 : LRel rank R (rank bn) s s2 := by
                        refine ⟨?_, hce2, hce3⟩
                        intro h
                        rw [hce4]
                        exact ⟨[], (List.append_nil _).symm,
                          fun c hc => absurd hc (List.not_mem_nil c)⟩
                      exact lrel_trans (lrel_trans hrel12 hrel3) hrs
                  · refine ⟨max (K + 2) f3 + 1, some s3, fun f hf => ?_, fun s' hs' => ?_⟩
                    · cases f with
                      | zero => exact absurd hf (Nat.not_succ_le_zero _)
                      | succ f2 =>
                          have hf2 : max (K + 2) f3 ≤ f2 := Nat.succ_le_succ_iff.mp hf
                          rw [layerE]
                          rw [hb]
                          dsimp only
                          rw [if_neg hbe]
                          rw [ha]
                          dsimp only
                          rw [chainE_mono hch (le_trans (le_max_left _ _) hf2)]
                          dsimp only
                          rw [hr3 f2 (le_trans (le_max_right _ _) hf2)]
                          dsimp only
                          rw [if_neg hlh]
                    · injection hs' with h2
                      rw [← h2]
                      refine ⟨hinv3, ?_⟩
                      refine lrel_trans ?_ hrel3
                      refine ⟨?_, hce2, hce3⟩
                      intro h
                      rw [hce4]
                      exact ⟨[], (List.append_nil _).symm,
                        fun c hc => absurd hc (List.not_mem_nil c)⟩

/-- Reachability along non-backedge successor edges extends across one more
such edge at the far end. -/
theorem nbreach_snoc {g : CFG} {c : Nat} {b : MIRBlock} :
    ∀ {a u : Nat}, NBReach g a u → g.blk u = some b → b.isBackedge = false →
      c ∈ b.successors → NBReach g a c := by
  intro a u h
  induction h with
  | refl v =>
      intro hb hbe hc
      exact NBReach.step b hb hbe hc (NBReach.refl c)
  | step b2 hb2 hbe2 hv2 h2 ih =>
      intro hb hbe hc
      exact NBReach.step b2 hb2 hbe2 hv2 (ih hb hbe hc)

/-- Fuel monotonicity of the root `findLoops` call. -/
theorem findLoopsRootE_mono (g : CFG) {f : Nat} {s : LState} {bn : Nat}
    {r : Option LState} (h : findLoopsRootE g f s bn = some r) {f' : Nat}
    (hf : f ≤ f') : findLoopsRootE g f' s bn = some r := by
  rw [findLoopsRootE] at h ⊢
  exact findLoopsE_mono g h hf

/-- With fuel above the graph's maximal rank, the root `findLoops` call
never runs out of fuel: it returns or throws. -/
theorem findLoopsRootE_isSome (g : CFG) (rank : Nat → Nat) (K : Nat)
    (hr : RankedAcyclic g rank) (hK : ∀ b ∈ g.blocks, rank b.number ≤ K)
    {f : Nat} (hf : K < f) (s : LState) (bn : Nat) :
    (findLoopsRootE g f s bn).isSome = true := by
  rw [findLoopsRootE]
  cases hb : g.blk bn with
  | none =>
      cases f with
      | zero => exact absurd hf (Nat.not_lt_zero K)
      | succ m => rw [findLoopsE, hb]; rfl
  | some b =>
      have hbn : rank bn ≤ K := by
        have := hK b (blk_mem hb)
        rw [blk_number hb] at this
        exact this
      exact findLoopsE_terminates g rank hr (rank bn + 1) bn s [bn] f
        (Nat.lt_succ_self _) (lt_of_le_of_lt hbn hf)

/-- The per-root fold of the walk terminates with a fuel-independent
result, maintaining the walk invariant across the processed roots
(`R` accumulates the blocks reachable from them). -/
theorem walkFold_term (g : CFG) (rank : Nat → Nat) (K : Nat)
    (hr : RankedAcyclic g rank) (hK : ∀ b ∈ g.blocks, rank b.number ≤ K) :
    ∀ (rns : List Nat) (R : Nat → Prop) (s : LState),
      (∀ rn ∈ rns, ∀ b, g.blk rn = some b → b.isTrueLH = false) →
      NBClosed g R → WalkInv rank K R s →
      ∃ f0 r, ∀ f, f0 ≤ f →
        eFold (fun s2 rn =>
            match findLoopsRootE g f s2 rn with
            | none => none
            | some none => some none
            | some (some s1) => layerE g f s1 rn 0) rns s = some r := by
  intro rns
  induction rns with
  | nil =>
      intro R s _ _ _
      exact ⟨0, some s, fun f _ => rfl⟩
  | cons rn rns ih =>
      intro R s hroots hclosed hinv
      have hroot1 : ∀ b2, g.blk rn = some b2 → b2.isTrueLH = false :=
        fun b2 hb2 => hroots rn (List.mem_cons_self rn rns) b2 hb2
      have h1 : (findLoopsRootE g (K + 1) s rn).isSome = true :=
        findLoopsRootE_isSome g rank K hr hK (Nat.lt_succ_self K) s rn
      cases hr1 : findLoopsRootE g (K + 1) s rn with
      | none => rw [hr1] at h1; exact Bool.noConfusion h1
      | some r1 =>
          cases r1 with
          | none =>
              refine ⟨K + 1, none, fun f hf => ?_⟩
              rw [eFold]
              rw [findLoopsRootE_mono g hr1 hf]
          | some s1 =>
              have hflrel : FLRel rank K s s1 :=
                findLoopsRootE_writes g rank K hr hK hroot1 hr1
              have hcov : ∀ u, NBReach g rn u → Anc rank u (s1.loopID u) :=
                findLoopsRootE_cover g rank K hr hK hroot1 hr1
              have hclosed2 : NBClosed g (fun u => R u ∨ NBReach g rn u) := by
                intro u b hu hb hbe c hc
                rcases hu with hu | hu
                · exact Or.inl (hclosed u b hu hb hbe c hc)
                · exact Or.inr (nbreach_snoc hu hb hbe hc)
              have hinv1 : WalkInv rank K (fun u => R u ∨ NBReach g rn u) s1 := by
                refine ⟨?_, ?_, ?_⟩
                · intro u hu
                  rcases hu with hu | hu
                  · rcases hflrel.2.2.2.1 u with hsame | hanc
                    · rw [hsame]; exact hinv.1 u hu
                    · exact hanc
                  · exact hcov u hu
                · intro h c hc
                  rw [hflrel.2.2.1] at hc
                  obtain ⟨ha, hb⟩ := hinv.2.1 h c hc
                  exact ⟨ha, Or.inl hb⟩
                · intro h p hp
                  rcases hflrel.2.2.2.2 h p hp with hold | hnew
                  · exact hinv.2.2 h p hold
                  · exact hnew
              obtain ⟨f2, r2, hr2, hp2⟩ :=
                layerE_term g rank K (fun u => R u ∨ NBReach g rn u) hr hK
                  hclosed2 (rank rn + 1) rn s1 0 (Nat.lt_succ_self _)
                  (Or.inr (NBReach.refl rn)) hinv1
              cases r2 with
              | none =>
                  refine ⟨max (K + 1) f2, none, fun f hf => ?_⟩
                  rw [eFold]
                  rw [findLoopsRootE_mono g hr1 (le_trans (le_max_left _ _) hf)]
                  dsimp only
                  rw [hr2 f (le_trans (le_max_right _ _) hf)]
              | some s2 =>
                  have hinv2 := (hp2 s2 rfl).1
                  obtain ⟨f3, r, hr3⟩ :=
                    ih (fun u => R u ∨ NBReach g rn u) s2
                      (fun rn2 h2 => hroots rn2 (List.mem_cons_of_mem rn h2))
                      hclosed2 hinv2
                  refine ⟨max (K + 1) (max f2 f3), r, fun f hf => ?_⟩
                  rw [eFold]
                  rw [findLoopsRootE_mono g hr1 (le_trans (le_max_left _ _) hf)]
                  dsimp only
                  rw [hr2 f (le_trans (le_trans (le_max_left f2 f3) (le_max_right _ _)) hf)]
                  exact hr3 f (le_trans (le_trans (le_max_right f2 f3) (le_max_right _ _)) hf)

/-- The parent-loop climb of `Graph.layer` never returns once a header is
its own `parentLoop`: every amount of fuel runs out. -/
theorem chainE_selfloop : ∀ (f : Nat) (s : LState) (h : Nat) (L : Int),
    s.parentLoop h = some h → chainE f s h L = none := by
  intro f
  induction f with
  | zero => intro s h L _; rfl
  | succ m ih =>
      intro s h L hp
      rw [chainE]
      dsimp only
      rw [hp]
      exact ih _ h L hp

/-- One `layer` step on a non-backedge block whose enclosing header is its
own `parentLoop` runs out of fuel at the header climb, whatever the fuel. -/
theorem layerE_selfloop (g : CFG) (m : Nat) (s : LState) (bn : Nat) (L : Int)
    (b h0 : MIRBlock) (hb : g.blk bn = some b) (hbe : ¬ b.isBackedge = true)
    (ha : asLH (g.blk (s.loopID bn)) = some h0)
    (hp : s.parentLoop h0.number = some h0.number) :
    layerE g (m + 1) s bn L = none := by
  rw [layerE]
  rw [hb]
  dsimp only
  rw [if_neg hbe]
  rw [ha]
  dsimp only
  rw [chainE_selfloop m { s with layer := Function.update s.layer bn (max (s.layer bn) L), numLayers := max (max (s.layer bn) L + 1) s.numLayers } h0.number (max (s.layer bn) L) hp]

/-- **C9, counterexample.**  A graph whose cycles (there are none) all pass
through backedge blocks, on which the walk still fails to terminate: the
root carries the `loopheader` attribute at `loopDepth` 1, so the root call
of `findLoops` — whose `isTrueLH` branch is a separate `if` that also runs
on the top-level call — makes the root its own `parentLoop`, and the
`while (loopHeader) ... loopHeader = loopHeader.parentLoop` climb in
`layer` never ends: the walk exhausts every amount of fuel. -/
theorem header_root_walk_diverges :
    RankedAcyclic gHdrRoot (fun _ => 0) ∧ ∀ f, layoutWalkE gHdrRoot f = none := by
  constructor
  · unfold RankedAcyclic
    decide
  · intro f
    cases f with
    | zero => rfl
    | succ m =>
        have h1 : findLoopsRootE gHdrRoot (m + 1) initState 0 =
            some (some { initState with loopID := Function.update initState.loopID 0 0, parentLoop := Function.update initState.parentLoop 0 (some 0) }) := rfl
        rw [layoutWalkE]
        rw [show gHdrRoot.roots.map MIRBlock.number = [0] from rfl]
        rw [eFold]
        rw [h1]
        dsimp only
        rw [layerE_selfloop gHdrRoot m { initState with loopID := Function.update initState.loopID 0 0, parentLoop := Function.update initState.parentLoop 0 (some 0) } 0 0 (mkBlock 0 1 ["loopheader"] [] []) (mkBlock 0 1 ["loopheader"] [] []) rfl (by decide) rfl rfl]

/-- **C9, amended.**  For every graph admitting a rank function that
strictly decreases across every edge leaving a block without the
`backedge` attribute — equivalently, every cycle passes through a
backedge-attributed block, since neither recursion crosses an edge leaving
such a block — and that also passes the constructor's backedge check
(`OneBackedgePerHeader`, with distinct block numbers), the whole
classification/layering walk of `Graph.layout` (`findLoops` followed by
`layer` on every root) terminates: beyond some finite recursion depth its
outcome (normal return or thrown assertion) no longer depends on the
available depth.  The constructor check matters because it forces every
true loop header to have a predecessor, hence no root is a true loop
header: a `loopheader` root would become its own `parentLoop` in the root
`findLoops` call and `layer`'s header climb would diverge
(see `header_root_walk_diverges`). -/
theorem classification_layering_walk_terminates (g : CFG) (rank : Nat → Nat)
    (hr : RankedAcyclic g rank)
    (hnodup : (g.blocks.map MIRBlock.number).Nodup)
    (hob : OneBackedgePerHeader g) :
    ∃ f0 r, ∀ f, f0 ≤ f → layoutWalkE g f = some r := by
  have hroots : ∀ rn ∈ g.roots.map MIRBlock.number, ∀ b, g.blk rn = some b →
      b.isTrueLH = false := by
    intro rn hrn b hb
    obtain ⟨r0, hr0, hrn2⟩ := List.mem_map.mp hrn
    have hr0m := List.mem_filter.mp hr0
    have hbmem : b ∈ g.blocks := blk_mem hb
    have hbr : b = r0 := by
      refine List.inj_on_of_nodup_map hnodup hbmem hr0m.1 ?_
      rw [blk_number hb, hrn2]
    by_cases hlh : b.isTrueLH = true
    · exfalso
      have hcount := hob b hbmem hlh
      have hpe : b.predecessors = [] := by
        rw [hbr]
        exact List.isEmpty_iff.mp hr0m.2
      rw [hpe] at hcount
      simp at hcount
    · exact eq_false_of_ne_true hlh
  obtain ⟨f0, r, h⟩ :=
    walkFold_term g rank (rankMaxG g rank) hr
      (fun b hb => rank_le_rankMaxG hb)
      (g.roots.map MIRBlock.number) (fun _ => False) initState
      hroots
      (fun u b hu _ _ _ _ => False.elim hu)
      ⟨fun u hu => False.elim hu,
       fun h2 c hc => absurd hc (List.not_mem_nil c),
       fun h2 p hp => Option.noConfusion hp⟩
  refine ⟨f0, r, fun f hf => ?_⟩
  rw [layoutWalkE]
  exact h f hf

/-- Witness for C9: `gLoop` satisfies all three hypotheses (cycle condition
via `rankLoop`, distinct numbers, one backedge per header), and its walk
stabilises. -/
theorem classification_layering_walk_terminates_witness :
    (RankedAcyclic gLoop rankLoop ∧ (gLoop.blocks.map MIRBlock.number).Nodup ∧
      OneBackedgePerHeader gLoop) ∧
    ∃ f0 r, ∀ f, f0 ≤ f → layoutWalkE gLoop f = some r := by
  have h1 : RankedAcyclic gLoop rankLoop := by unfold RankedAcyclic; decide
  have h2 : (gLoop.blocks.map MIRBlock.number).Nodup := by decide
  have h3 : OneBackedgePerHeader gLoop := by unfold OneBackedgePerHeader; decide
  exact ⟨⟨h1, h2, h3⟩,
    classification_layering_walk_terminates gLoop rankLoop h1 h2 h3⟩

end Iongraph
